import Mathlib

/-!
# OpenSift scheduling core: build sequencer and task queue

A shallow embedding of

* `cmd/workflow-runner/internal/workflow/workflow.go`
  (`caculateBuildSequence`, `buildGraph`, `buildInDegree`, `taintOthers`,
  `AllUpToDate`), and
* `cmd/git-metadata-collector/internal/schedule/schedule.go`
  (`AddManualTask`, `GetTask`, `FinishTask`, the critical section of
  `fetchTasksFromDatabase`, `GetPendingTasks`, `StartScheduler`,
  `StopScheduler`),

followed by the properties proved about them.

Conventions of the embedding.

* A `*WorkflowNode` is an index `Fin n` into an arena of `n` nodes; pointer
  equality is equality of indices.
* A Go map keyed by nodes is a function on `Fin n`; where the source tests
  key presence (`graph`, `visited`) absence is `none` / `false`, where it only
  indexes (`indegree`, `indiredNeedUpdate`) absence is the zero value.
* Go does not fix the order of `for k := range m`; the order used in each
  round of the main loop is supplied by a `MapOrder`, and every theorem is
  stated for all of them.
* The recursive walks carry a fuel argument (`none` = recursion cut off); the
  theorems show the fuel handed out by `caculateBuildSequence` always
  suffices.
* The scheduler is a state machine over the package-level variables; each
  critical section (a region holding `muTasks`, or `muToDelete` alone) is one
  atomic step. A blocking `GetTask` call is split at its two wait points.
-/

namespace Workflow

/-! ## Data model -/

/-- The two fields of `WorkflowNode` read by the build sequencer.
`NeedUpdate = none` is the nil function; `some b` is a predicate whose call
returns `b`. -/
structure WorkflowNode (n : Nat) where
  NeedUpdate : Option Bool
  Dependencies : List (Fin n)

/-- The heap of nodes: every node pointer is an index. -/
abbrev Arena (n : Nat) := Fin n → WorkflowNode n

/-- A `map[*WorkflowNode]bool` used as a set (`visited`, `indiredNeedUpdate`). -/
abbrev NodeSet (n : Nat) := Fin n → Bool

/-- A `map[*WorkflowNode][]*WorkflowNode`: `none` is an absent key. -/
abbrev GraphMap (n : Nat) := Fin n → Option (List (Fin n))

/-- Iteration order of `for node := range graph`, one permutation per round. -/
structure MapOrder (n : Nat) where
  iter : Nat → List (Fin n) → List (Fin n)
  perm : ∀ (round : Nat) (ks : List (Fin n)), (iter round ks).Perm ks

/-- The order that yields the keys by increasing index. -/
def MapOrder.ascending (n : Nat) : MapOrder n :=
  ⟨fun _ ks => ks, fun _ ks => List.Perm.refl ks⟩

/-- The keys present in a graph map. -/
def keys {n : Nat} (graph : GraphMap n) : List (Fin n) :=
  (List.finRange n).filter (fun k => (graph k).isSome)

/-- Outcome of `caculateBuildSequence`: `.error msg` is the Go return
`(nil, err)`, `.ok seq` is `(seq, nil)`. -/
inductive SeqResult (n : Nat) where
  | ok (seq : List (List (Fin n)))
  | error (msg : String)
  deriving DecidableEq

/-! ## The walks -/

/-- The Go function `buildGraph(node, graph, visited)`: depth-first walk over
`Dependencies` that fills the forward adjacency map. The early return on a nil
`Dependencies` is the fold over the empty list. -/
def buildGraph {n : Nat} (a : Arena n) :
    Nat → Fin n → GraphMap n × NodeSet n → Option (GraphMap n × NodeSet n)
  | 0, _, _ => none
  | fuel + 1, node, (graph, visited) =>
    if visited node then some (graph, visited)
    else
      let visited := Function.update visited node true
      let graph :=
        if (graph node).isSome then graph else Function.update graph node (some [])
      (a node).Dependencies.foldlM
        (fun st dep =>
          buildGraph a fuel dep
            (Function.update st.1 dep (some ((st.1 dep).getD [] ++ [node])), st.2))
        (graph, visited)

/-- The Go function `buildInDegree(node, indegree, visited)`: depth-first walk
that records `len(node.Dependencies)` for every node it reaches. -/
def buildInDegree {n : Nat} (a : Arena n) :
    Nat → Fin n → (Fin n → Int) × NodeSet n → Option ((Fin n → Int) × NodeSet n)
  | 0, _, _ => none
  | fuel + 1, node, (indegree, visited) =>
    if visited node then some (indegree, visited)
    else
      let visited := Function.update visited node true
      let indegree := Function.update indegree node ((a node).Dependencies.length : Int)
      (a node).Dependencies.foldlM
        (fun st dep => buildInDegree a fuel dep st)
        (indegree, visited)

/-- The Go function `taintOthers(node, graph, indiredNeedUpdate, visited)`:
depth-first walk over the forward edges that marks every node it reaches. -/
def taintOthers {n : Nat} (graph : GraphMap n) :
    Nat → Fin n → NodeSet n × NodeSet n → Option (NodeSet n × NodeSet n)
  | 0, _, _ => none
  | fuel + 1, node, (indiredNeedUpdate, visited) =>
    if visited node then some (indiredNeedUpdate, visited)
    else
      let visited := Function.update visited node true
      let indiredNeedUpdate := Function.update indiredNeedUpdate node true
      ((graph node).getD []).foldlM
        (fun st dep => taintOthers graph fuel dep st)
        (indiredNeedUpdate, visited)

/-! ## The main loop -/

/-- The three maps the main loop of `caculateBuildSequence` mutates. -/
structure SeqState (n : Nat) where
  graph : GraphMap n
  indegree : Fin n → Int
  indiredNeedUpdate : NodeSet n

/-- The value of `needUpdate` for an untainted node: its predicate, or
`defaultNeedUpdate` when it has none. -/
def ownNeedUpdate {n : Nat} (a : Arena n) (defaultNeedUpdate : Bool) (node : Fin n) : Bool :=
  match (a node).NeedUpdate with
  | some result => result
  | none => defaultNeedUpdate

/-- Body of `for _, node := range roundWorkflows`; the second component is
`roundNeedUpdateWorkflows`. -/
def visitNode {n : Nat} (a : Arena n) (defaultNeedUpdate : Bool)
    (st : SeqState n × List (Fin n)) (node : Fin n) : Option (SeqState n × List (Fin n)) :=
  let marked : Option (NodeSet n × List (Fin n)) :=
    if st.1.indiredNeedUpdate node then
      some (st.1.indiredNeedUpdate, st.2 ++ [node])
    else if ownNeedUpdate a defaultNeedUpdate node then
      (taintOthers st.1.graph (n + 1) node (st.1.indiredNeedUpdate, fun _ => false)).map
        (fun r => (r.1, st.2 ++ [node]))
    else
      some (st.1.indiredNeedUpdate, st.2)
  marked.map (fun m =>
    ({ graph := Function.update st.1.graph node none
       indegree :=
        ((st.1.graph node).getD []).foldl
          (fun indegree tonode => Function.update indegree tonode (indegree tonode - 1))
          st.1.indegree
       indiredNeedUpdate := m.1 }, m.2))

/-- The loop `for len(graph) > 0 { ... }`, `round` counting its iterations. -/
def buildLoop {n : Nat} (a : Arena n) (ord : MapOrder n) (defaultNeedUpdate : Bool) :
    Nat → Nat → SeqState n → List (List (Fin n)) → Option (SeqResult n)
  | 0, _, _, _ => none
  | fuel + 1, round, st, result =>
    if (keys st.graph).length > 0 then
      let roundWorkflows :=
        (ord.iter round (keys st.graph)).filter (fun node => st.indegree node == 0)
      if roundWorkflows.length == 0 then
        some (SeqResult.error "circular dependency detected")
      else
        match roundWorkflows.foldlM (visitNode a defaultNeedUpdate) (st, []) with
        | none => none
        | some (st', roundNeedUpdateWorkflows) =>
          buildLoop a ord defaultNeedUpdate fuel (round + 1) st'
            (if roundNeedUpdateWorkflows.length != 0 then
              result ++ [roundNeedUpdateWorkflows]
            else result)
    else some (SeqResult.ok result)

/-- The Go function `caculateBuildSequence(node, defaultNeedUpdate)`. -/
def caculateBuildSequence {n : Nat} (a : Arena n) (ord : MapOrder n) (node : Fin n)
    (defaultNeedUpdate : Bool) : Option (SeqResult n) :=
  match buildGraph a (n + 1) node (fun _ => none, fun _ => false) with
  | none => none
  | some (graph, _) =>
    match buildInDegree a (n + 1) node (fun _ => 0, fun _ => false) with
    | none => none
    | some (indegree, _) =>
      buildLoop a ord defaultNeedUpdate (n + 1) 0
        { graph := graph, indegree := indegree, indiredNeedUpdate := fun _ => false } []

/-- The method `(n *WorkflowNode) AllUpToDate()`: the pair `(bool, error)`. -/
def AllUpToDate {n : Nat} (a : Arena n) (ord : MapOrder n) (node : Fin n) :
    Option (Bool × Option String) :=
  (caculateBuildSequence a ord node false).map (fun r =>
    match r with
    | SeqResult.error msg => (true, some msg)
    | SeqResult.ok seq =>
      if seq.length == 0 then (true, none)
      else if seq.any (fun stepNodes => stepNodes.length > 0) then (false, none)
      else (true, none))

/-! ## Specification vocabulary for the build sequencer -/

/-- Node `x` lists `y` in its `Dependencies`. -/
def DependsOn {n : Nat} (a : Arena n) (x y : Fin n) : Prop := y ∈ (a x).Dependencies

/-- Node `x` is `root` or one of its direct or transitive dependencies. -/
def Reachable {n : Nat} (a : Arena n) (root x : Fin n) : Prop :=
  Relation.ReflTransGen (DependsOn a) root x

/-- No node reachable from `root` is among its own transitive dependencies. -/
def Acyclic {n : Nat} (a : Arena n) (root : Fin n) : Prop :=
  ∀ x, Reachable a root x → ¬ Relation.TransGen (DependsOn a) x x

/-- Number of members of a node set. -/
def setCard {n : Nat} (V : NodeSet n) : Nat :=
  (Finset.univ.filter (fun x => V x = true)).card

/-- Forward edge of a graph map: `m` is listed under key `u`. -/
def Edge {n : Nat} (graph : GraphMap n) (u m : Fin n) : Prop := m ∈ (graph u).getD []

/-- The resolved `needsUpdate` of a node: the node itself or one of its direct
or transitive dependencies has `ownNeedUpdate` true. -/
def NeedsUpdate {n : Nat} (a : Arena n) (defaultNeedUpdate : Bool) (x : Fin n) : Prop :=
  ∃ y, Relation.ReflTransGen (DependsOn a) x y ∧ ownNeedUpdate a defaultNeedUpdate y = true

/-- What the main loop of `caculateBuildSequence` maintains between two nodes.
The processed nodes are the reachable nodes that are no longer keys of
`graph`. -/
structure Inv {n : Nat} (a : Arena n) (root : Fin n) (d : Bool) (st : SeqState n) : Prop where
  reach : ∀ u, (st.graph u).isSome = true → Reachable a root u
  adj : ∀ u m, (st.graph u).isSome = true → Reachable a root m →
    ((st.graph u).getD []).count m = (a m).Dependencies.count u
  adjz : ∀ u m, ¬ Reachable a root m → ((st.graph u).getD []).count m = 0
  closed : ∀ p, Reachable a root p → st.graph p = none →
    ∀ y ∈ (a p).Dependencies, st.graph y = none
  indeg : ∀ m, (st.graph m).isSome = true →
    st.indegree m = (((a m).Dependencies.filter (fun y => (st.graph y).isSome)).length : Int)
  taint : ∀ x, st.indiredNeedUpdate x = true ↔
    (Reachable a root x ∧ ∃ y, Reachable a root y ∧ st.graph y = none ∧
      ownNeedUpdate a d y = true ∧ Relation.ReflTransGen (DependsOn a) x y)

/-- The frontier of a round, in the order the map yields it. -/
def frontier {n : Nat} (ord : MapOrder n) (round : Nat) (st : SeqState n) : List (Fin n) :=
  (ord.iter round (keys st.graph)).filter (fun node => st.indegree node == 0)

/-- Node `x` is a member of level `i` of the sequence. -/
def AtLevel {n : Nat} (seq : List (List (Fin n))) (i : Nat) (x : Fin n) : Prop :=
  ∃ L, seq[i]? = some L ∧ x ∈ L

/-- The graph reachable from `root` has a dependency cycle. -/
def HasCycle {n : Nat} (a : Arena n) (root : Fin n) : Prop :=
  ∃ x, Reachable a root x ∧ Relation.TransGen (DependsOn a) x x

/-- What holds of the levels emitted so far, between two rounds. -/
structure RInv {n : Nat} (a : Arena n) (root : Fin n) (d : Bool) (st : SeqState n)
    (result : List (List (Fin n))) : Prop where
  nodup : result.flatten.Nodup
  mem : ∀ x, x ∈ result.flatten ↔
    (Reachable a root x ∧ st.graph x = none ∧ NeedsUpdate a d x)
  later : result.Pairwise (fun L1 L2 => ∀ x ∈ L1, ∀ y ∈ L2, ¬ DependsOn a x y)
  within : ∀ L ∈ result, ∀ x ∈ L, ∀ y ∈ L, ¬ DependsOn a x y
  nonempty : ∀ L ∈ result, L ≠ []

/-- Equality of two sequences up to the order of the nodes inside each level. -/
def SameLevels {n : Nat} (s1 s2 : List (List (Fin n))) : Prop :=
  List.Forall₂ List.Perm s1 s2

/-- Two results agree up to the order inside each level. -/
def SameResult {n : Nat} (o1 o2 : SeqResult n) : Prop :=
  (o1 = SeqResult.error "circular dependency detected" ∧
    o2 = SeqResult.error "circular dependency detected") ∨
  ∃ s1 s2, o1 = SeqResult.ok s1 ∧ o2 = SeqResult.ok s2 ∧ SameLevels s1 s2

/-- Nodes `A = 0` (no dependencies, `NeedUpdate` returns true), `B = 1` and
`C = 2` (each with `Dependencies = [A]`, `NeedUpdate` returns false). -/
def abc : Arena 3 := fun i =>
  match i with
  | 0 => { NeedUpdate := some true, Dependencies := [] }
  | 1 => { NeedUpdate := some false, Dependencies := [0] }
  | 2 => { NeedUpdate := some false, Dependencies := [0] }

/-- The graph `abc` with `A.NeedUpdate` returning false. -/
def abcIdle : Arena 3 := fun i =>
  match i with
  | 0 => { NeedUpdate := some false, Dependencies := [] }
  | 1 => { NeedUpdate := some false, Dependencies := [0] }
  | 2 => { NeedUpdate := some false, Dependencies := [0] }

/-- The graph `abc` under a root `R = 3` with `Dependencies = [B, C]` and
`NeedUpdate` returning false. -/
def abcRoot : Arena 4 := fun i =>
  match i with
  | 0 => { NeedUpdate := some true, Dependencies := [] }
  | 1 => { NeedUpdate := some false, Dependencies := [0] }
  | 2 => { NeedUpdate := some false, Dependencies := [0] }
  | 3 => { NeedUpdate := some false, Dependencies := [1, 2] }


/-! ## The workflow runner -/

/-- The three hook fields of `WorkflowNode` that the runner compares with nil:
`true` is a non-nil function. -/
structure NodeHooks where
  RunBefore : Bool
  Run : Bool
  RunAfter : Bool

/-- The type `WorkflowStartOption`; `OutputFileNameFn = none` is the nil
function. `ArgsGetter` only fills the `Args` field of the context and is left
out. -/
structure WorkflowStartOption (n : Nat) where
  OutputDir : String
  OutputFileNameFn : Option (Fin n → String)
  RoundID : Int
  NeedUpdateDefault : Bool

/-- Modelled from the spec: the control handle of one run, owner of the three
signals `stop`, `kill` and `finish`. The handle is a token; the traffic on its
signals is the event trace of the run. -/
structure RunningHandler where
  deriving DecidableEq

/-- Modelled from the spec: the constructor `newRunningHandler()` of the control
handle. -/
def newRunningHandler : RunningHandler := {}

/-- The case taken by the `select` statement that follows `ctx.Run()`:
`quiet` is the `default` case. -/
inductive Signal where
  | quiet
  | stop
  | kill
  deriving DecidableEq

/-- What the background task of `StartWorkflow` does, in order: the call of
`caculateBuildSequence`, a skipped node, the calls of `os.MkdirAll` and
`os.OpenFile`, the creation of a `RunningCtx`, the call `ctx.Run()` (the only
place from which the runner reaches the hooks of a node) with the error it
returned, the two `return`s of the `select`, a value sent on `finish`, and the
call of a nil `OutputFileNameFn`. -/
inductive Event (n : Nat) where
  | sequence (defaultNeedUpdate : Bool)
  | skip (node : Fin n)
  | mkdir (dir : String)
  | openFile (path : String)
  | context (node : Fin n)
  | run (node : Fin n) (err : Option String)
  | stopped (node : Fin n)
  | killed (node : Fin n)
  | finish (err : Option String)
  | nilCall (node : Fin n)
  deriving DecidableEq

/-- The collaborators of the runner that are not in the source files, as
parameters: the error (`none` is nil) returned by `os.MkdirAll`, by
`os.OpenFile` and by `ctx.Run()`, and the case taken by the `select`, each at
the `k`-th node visited by the run. -/
structure RunEnv (n : Nat) where
  MkdirAll : Nat → String → Option String
  OpenFile : Nat → String → Option String
  ctxRun : Nat → Fin n → Option String
  signal : Nat → Signal

/-- Outcome of `newRunnintCtx`: a context, an error, or the call of a nil
`OutputFileNameFn`. -/
inductive CtxResult where
  | created
  | failed (err : String)
  | nilCall
  deriving DecidableEq

/-- The method `(n *WorkflowNode) newRunnintCtx(handler, opt)`, for the `k`-th
node visited. -/
def newRunnintCtx {n : Nat} (env : RunEnv n) (opt : WorkflowStartOption n) (k : Nat)
    (node : Fin n) : List (Event n) × CtxResult :=
  match env.MkdirAll k opt.OutputDir with
  | some err => ([Event.mkdir opt.OutputDir], CtxResult.failed err)
  | none =>
    match opt.OutputFileNameFn with
    | none => ([Event.mkdir opt.OutputDir, Event.nilCall node], CtxResult.nilCall)
    | some fileName =>
      match env.OpenFile k (opt.OutputDir ++ "/" ++ fileName node) with
      | some err =>
        ([Event.mkdir opt.OutputDir, Event.openFile (opt.OutputDir ++ "/" ++ fileName node)],
          CtxResult.failed err)
      | none =>
        ([Event.mkdir opt.OutputDir, Event.openFile (opt.OutputDir ++ "/" ++ fileName node),
          Event.context node], CtxResult.created)

/-- The node has none of the hooks `RunBefore`, `RunAfter`, `Run`. -/
def noHooks {n : Nat} (hooks : Fin n → NodeHooks) (node : Fin n) : Bool :=
  !(hooks node).RunBefore && !(hooks node).RunAfter && !(hooks node).Run

/-- One iteration of the inner loop of the background task, for the `k`-th node
visited: the events, and whether the loop goes on (`false` is a `return`). -/
def runNode {n : Nat} (hooks : Fin n → NodeHooks) (env : RunEnv n)
    (opt : WorkflowStartOption n) (k : Nat) (node : Fin n) : List (Event n) × Bool :=
  if noHooks hooks node then ([Event.skip node], true)
  else
    match newRunnintCtx env opt k node with
    | (events, CtxResult.failed err) => (events ++ [Event.finish (some err)], false)
    | (events, CtxResult.nilCall) => (events, false)
    | (events, CtxResult.created) =>
      match env.signal k with
      | Signal.stop => (events ++ [Event.run node (env.ctxRun k node), Event.stopped node], false)
      | Signal.kill => (events ++ [Event.run node (env.ctxRun k node), Event.killed node], false)
      | Signal.quiet =>
        match env.ctxRun k node with
        | some err =>
          (events ++ [Event.run node (some err), Event.finish (some err)], false)
        | none => (events ++ [Event.run node none], true)

/-- The inner loop `for _, node := range stepNodes`, from the `k`-th node
visited: the events, and the count of nodes visited if the loop ends without
a `return`. -/
def runLevel {n : Nat} (hooks : Fin n → NodeHooks) (env : RunEnv n)
    (opt : WorkflowStartOption n) : Nat → List (Fin n) → List (Event n) × Option Nat
  | k, [] => ([], some k)
  | k, node :: stepNodes =>
    if (runNode hooks env opt k node).2 then
      ((runNode hooks env opt k node).1 ++ (runLevel hooks env opt (k + 1) stepNodes).1,
        (runLevel hooks env opt (k + 1) stepNodes).2)
    else ((runNode hooks env opt k node).1, none)

/-- The outer loop `for _, stepNodes := range sequence` followed by
`handler.finish <- nil`. -/
def runLevels {n : Nat} (hooks : Fin n → NodeHooks) (env : RunEnv n)
    (opt : WorkflowStartOption n) : Nat → List (List (Fin n)) → List (Event n)
  | _, [] => [Event.finish none]
  | k, stepNodes :: sequence =>
    match (runLevel hooks env opt k stepNodes).2 with
    | none => (runLevel hooks env opt k stepNodes).1
    | some k' => (runLevel hooks env opt k stepNodes).1 ++ runLevels hooks env opt k' sequence

/-- The function started by the `go` statement of `StartWorkflow`, for the root
`node` and the option `opt` it captures. -/
def workflowRun {n : Nat} (a : Arena n) (ord : MapOrder n) (hooks : Fin n → NodeHooks)
    (env : RunEnv n) (node : Fin n) (opt : WorkflowStartOption n) : Option (List (Event n)) :=
  (caculateBuildSequence a ord node opt.NeedUpdateDefault).map (fun r =>
    match r with
    | SeqResult.error msg => [Event.sequence opt.NeedUpdateDefault, Event.finish (some msg)]
    | SeqResult.ok sequence =>
      Event.sequence opt.NeedUpdateDefault :: runLevels hooks env opt 0 sequence)

/-- What `StartWorkflow` has done when it returns: the handle and the error
returned (`none` is nil), and the root and option captured by the `go`
statement if it was reached. -/
structure StartResult (n : Nat) where
  handler : Option RunningHandler
  err : Option String
  spawned : Option (Fin n × WorkflowStartOption n)

/-- The method `(n *WorkflowNode) StartWorkflow(opt)`; `opt = none` is the nil
pointer. -/
def StartWorkflow {n : Nat} (node : Fin n) (opt : Option (WorkflowStartOption n)) :
    StartResult n :=
  match opt with
  | none => { handler := none, err := some "invalid workflow start option", spawned := none }
  | some o =>
    if o.OutputDir == "" || o.OutputFileNameFn.isNone then
      { handler := none, err := some "invalid workflow start option", spawned := none }
    else { handler := some newRunningHandler, err := none, spawned := some (node, o) }

/-- The events of the background task started by a call of `StartWorkflow`:
none if the `go` statement was not reached. -/
def startTrace {n : Nat} (a : Arena n) (ord : MapOrder n) (hooks : Fin n → NodeHooks)
    (env : RunEnv n) (node : Fin n) (opt : Option (WorkflowStartOption n)) :
    Option (List (Event n)) :=
  match (StartWorkflow node opt).spawned with
  | none => some []
  | some (root, o) => workflowRun a ord hooks env root o

/-- The values sent on `finish`, in order. -/
def finishValues {n : Nat} : List (Event n) → List (Option String)
  | [] => []
  | Event.finish err :: events => err :: finishValues events
  | _ :: events => finishValues events

/-- The event belongs to the execution of a node: a directory or log file is
created, a context is built or `ctx.Run()` is called. -/
def Event.executes {n : Nat} : Event n → Bool
  | Event.mkdir _ => true
  | Event.openFile _ => true
  | Event.context _ => true
  | Event.run _ _ => true
  | Event.nilCall _ => true
  | _ => false

/-- A single node that lists itself as a dependency. -/
def selfLoop : Arena 1 := fun _ => { NeedUpdate := some true, Dependencies := [0] }

/-- Every node has a main action and no other hook. -/
def mainOnly {n : Nat} : Fin n → NodeHooks :=
  fun _ => { RunBefore := false, Run := true, RunAfter := false }

/-- An environment in which every call succeeds and no signal is pending. -/
def calmEnv {n : Nat} : RunEnv n :=
  { MkdirAll := fun _ _ => none
    OpenFile := fun _ _ => none
    ctxRun := fun _ _ => none
    signal := fun _ => Signal.quiet }

/-- An environment in which the output directory cannot be created. -/
def deniedEnv {n : Nat} : RunEnv n :=
  { MkdirAll := fun _ _ => some "permission denied"
    OpenFile := fun _ _ => none
    ctxRun := fun _ _ => none
    signal := fun _ => Signal.quiet }

/-- A valid start option: logs go to `out/node.log`. -/
def outOption {n : Nat} : WorkflowStartOption n :=
  { OutputDir := "out"
    OutputFileNameFn := some (fun _ => "node.log")
    RoundID := 1
    NeedUpdateDefault := false }


/-! ## Vocabulary for the runs of the workflow runner -/

/-- The order that yields the keys by decreasing index. -/
def MapOrder.descending (n : Nat) : MapOrder n :=
  ⟨fun _ ks => ks.reverse, fun _ ks => List.reverse_perm ks⟩

/-- The event neither ends the run nor reports a failure: a skipped node, a
directory or file created, a context built, a `ctx.Run()` that returned nil. -/
def Event.quiet {n : Nat} : Event n → Bool
  | Event.skip _ => true
  | Event.mkdir _ => true
  | Event.openFile _ => true
  | Event.context _ => true
  | Event.run _ none => true
  | _ => false

/-- The last events of the background task, one constructor per `return` of
the function and one for its normal end: `nil` sent on `finish`, an error of
the sequencer or of `newRunnintCtx` sent on `finish`, the call of a nil
`OutputFileNameFn`, the `stop` case and the `kill` case of the `select` at the
`k`-th node, and the error of `ctx.Run()` sent on `finish`. -/
inductive Ending {n : Nat} (env : RunEnv n) (opt : WorkflowStartOption n) :
    List (Event n) → Prop where
  | success : Ending env opt [Event.finish none]
  | error (err : String) : Ending env opt [Event.finish (some err)]
  | nilCall (node : Fin n) : opt.OutputFileNameFn = none → Ending env opt [Event.nilCall node]
  | stop (k : Nat) (node : Fin n) : env.signal k = Signal.stop →
      Ending env opt [Event.run node (env.ctxRun k node), Event.stopped node]
  | kill (k : Nat) (node : Fin n) : env.signal k = Signal.kill →
      Ending env opt [Event.run node (env.ctxRun k node), Event.killed node]
  | failure (k : Nat) (node : Fin n) (err : String) : env.signal k = Signal.quiet →
      env.ctxRun k node = some err →
      Ending env opt [Event.run node (some err), Event.finish (some err)]

/-- A single node without dependencies whose `NeedUpdate` returns true. -/
def single : Arena 1 := fun _ => { NeedUpdate := some true, Dependencies := [] }

/-- An environment in which `ctx.Run()` fails with `boom` and no signal is
pending. -/
def failingEnv {n : Nat} : RunEnv n :=
  { MkdirAll := fun _ _ => none
    OpenFile := fun _ _ => none
    ctxRun := fun _ _ => some "boom"
    signal := fun _ => Signal.quiet }

/-- An environment in which `stop` is pending at every check and `ctx.Run()`
succeeds. -/
def stopEnv {n : Nat} : RunEnv n :=
  { MkdirAll := fun _ _ => none
    OpenFile := fun _ _ => none
    ctxRun := fun _ _ => none
    signal := fun _ => Signal.stop }

/-- An environment in which `kill` is pending at every check and `ctx.Run()`
succeeds. -/
def killEnv {n : Nat} : RunEnv n :=
  { MkdirAll := fun _ _ => none
    OpenFile := fun _ _ => none
    ctxRun := fun _ _ => none
    signal := fun _ => Signal.kill }

/-- An environment in which `ctx.Run()` fails with `boom` while `stop` is
pending. -/
def failingStopEnv {n : Nat} : RunEnv n :=
  { MkdirAll := fun _ _ => none
    OpenFile := fun _ _ => none
    ctxRun := fun _ _ => some "boom"
    signal := fun _ => Signal.stop }

/-- An environment in which `ctx.Run()` fails with `boom`, no signal is pending
at the check that follows the first node visited, and `stop` is pending at
every later check. -/
def lateStopEnv {n : Nat} : RunEnv n :=
  { MkdirAll := fun _ _ => none
    OpenFile := fun _ _ => none
    ctxRun := fun _ _ => some "boom"
    signal := fun k => if k = 0 then Signal.quiet else Signal.stop }

end Workflow

namespace Schedule

/-! ## Task queue and scheduler -/

/-- The package-level variables of `schedule.go`. `tasksSet` is the
`map[string]struct{}` read only through key presence. -/
structure State where
  FetchSize : Int
  FetchThreshold : Int
  tasks : List String
  tasksSet : String → Bool
  manualTasks : List String
  fetchInProgress : Bool
  toDeleteTasks : List String
  isStop : Bool

/-- The variables as initialised at package load. -/
def State.initial : State :=
  { FetchSize := 200
    FetchThreshold := 30
    tasks := []
    tasksSet := fun _ => false
    manualTasks := []
    fetchInProgress := false
    toDeleteTasks := []
    isStop := false }

/-- The Go function `SetFetchOptions(fetchSize, fetchThreshold)`. -/
def SetFetchOptions (s : State) (fetchSize fetchThreshold : Int) : State :=
  { s with FetchSize := fetchSize, FetchThreshold := fetchThreshold }

/-- Body of `for r := range result` in `fetchTasksFromDatabase`, for the row
whose `GitLink` is `r`. -/
def appendFetched (s : State) (r : String) : State :=
  if s.tasksSet r then s
  else { s with tasks := s.tasks ++ [r], tasksSet := Function.update s.tasksSet r true }

/-- The block guarded by `muToDelete` in `fetchTasksFromDatabase`. -/
def applyDeletes (s : State) : State :=
  { s with
    tasksSet := s.toDeleteTasks.foldl (fun set t => Function.update set t false) s.tasksSet
    toDeleteTasks := [] }

/-- One fetch cycle: the critical section of one iteration of the loop of
`fetchTasksFromDatabase`, for the page `result` returned by `Query`. -/
def fetchCycle (s : State) (result : List String) : State :=
  applyDeletes (result.foldl appendFetched s)

/-- The Go function `AddManualTask(task)`. -/
def AddManualTask (s : State) (task : String) : State :=
  if s.tasksSet task then s
  else
    { s with
      manualTasks := s.manualTasks ++ [task]
      tasksSet := Function.update s.tasksSet task true }

/-- The Go function `StartScheduler()`. -/
def StartScheduler (s : State) : State := { s with isStop := false }

/-- The Go function `StopScheduler()`. -/
def StopScheduler (s : State) : State := { s with isStop := true }

/-- The Go function `IsScheduleRunning()`. -/
def IsScheduleRunning (s : State) : Bool := !s.isStop

/-- The Go function `FinishTask(t)`. -/
def FinishTask (s : State) (t : String) : State :=
  { s with toDeleteTasks := s.toDeleteTasks ++ [t] }

/-- The Go function `GetPendingTasks()`. -/
def GetPendingTasks (s : State) : List String := s.manualTasks ++ s.tasks

/-- What a `GetTask` call does at one scheduling point: it returns the pair
`(task, err)`, or it parks on `stopCond` or on `taskCond`. -/
inductive GetTaskResult where
  | returned (task : String) (err : Option String)
  | waitStop
  | waitTask
  deriving DecidableEq

/-- The closure `triggerFetch` of `GetTask`: starts the background fetch unless
one is in flight. -/
def triggerFetch (s : State) : State :=
  if s.fetchInProgress then s else { s with fetchInProgress := true }

/-- The statements after the wait loop of `GetTask`. -/
def takeFetched (s : State) : GetTaskResult × State :=
  match s.tasks with
  | task :: rest => (GetTaskResult.returned task none, { s with tasks := rest })
  | [] => (GetTaskResult.returned "" (some "no task available"), s)

/-- The wait loop of `GetTask`, from one evaluation of its condition: also the
point where a caller woken from `taskCond.Wait()` resumes. -/
def waitLoop (s : State) : GetTaskResult × State :=
  if s.tasks.length == 0 then (GetTaskResult.waitTask, triggerFetch s)
  else takeFetched s

/-- The critical section of `GetTask`, entered once the stop gate is passed. -/
def getTaskLocked (s : State) : GetTaskResult × State :=
  match s.manualTasks with
  | task :: rest => (GetTaskResult.returned task none, { s with manualTasks := rest })
  | [] =>
    waitLoop (if (s.tasks.length : Int) < s.FetchThreshold then triggerFetch s else s)

/-- The Go function `GetTask()`, from its entry: the stop gate, then the
critical section. -/
def GetTask (s : State) : GetTaskResult × State :=
  if s.isStop then (GetTaskResult.waitStop, s) else getTaskLocked s

/-- The ids handed to the caller by a `GetTask` outcome. -/
def GetTaskResult.dispatched : GetTaskResult → List String
  | GetTaskResult.returned task none => [task]
  | _ => []

/-- The ids returned by `k` successive `GetTask` calls with nothing else in
between, in order, up to the first call that does not return a task. -/
def drain : Nat → State → List String
  | 0, _ => []
  | k + 1, s =>
    match GetTask s with
    | (GetTaskResult.returned task none, s') => task :: drain k s'
    | _ => []

/-- The scheduler together with the ids that `GetTask` has handed out and that
have not yet been passed to `FinishTask`. -/
structure Sys where
  state : State
  running : List String

/-- The atomic actions of the callers, of the background fetch and of the
workers: `getTask` is the critical section of a `GetTask` call (a call may
pass the stop gate before `StopScheduler` runs, so it is not tied to
`isStop`), `resume` a parked call re-evaluating the wait loop, `fetch` one
fetch cycle, `fetchDone` the background fetch clearing `fetchInProgress`. -/
inductive Op where
  | addManual (task : String)
  | getTask
  | resume
  | fetch (page : List String)
  | fetchDone
  | finish (task : String)
  | start
  | stop
  | setFetchOptions (fetchSize fetchThreshold : Int)

/-- Effect of one action; a worker acknowledges only an id it holds
(`none` otherwise). -/
def Op.apply (σ : Sys) : Op → Option Sys
  | Op.addManual task => some { σ with state := AddManualTask σ.state task }
  | Op.getTask =>
    some { state := (getTaskLocked σ.state).2
           running := σ.running ++ (getTaskLocked σ.state).1.dispatched }
  | Op.resume =>
    some { state := (waitLoop σ.state).2
           running := σ.running ++ (waitLoop σ.state).1.dispatched }
  | Op.fetch page => some { σ with state := fetchCycle σ.state page }
  | Op.fetchDone => some { σ with state := { σ.state with fetchInProgress := false } }
  | Op.finish task =>
    if task ∈ σ.running then
      some { state := FinishTask σ.state task, running := σ.running.erase task }
    else none
  | Op.start => some { σ with state := StartScheduler σ.state }
  | Op.stop => some { σ with state := StopScheduler σ.state }
  | Op.setFetchOptions fetchSize fetchThreshold =>
    some { σ with state := SetFetchOptions σ.state fetchSize fetchThreshold }

/-- Effect of a sequence of actions. -/
def run : List Op → Sys → Option Sys
  | [], σ => some σ
  | op :: ops, σ =>
    match op.apply σ with
    | some σ' => run ops σ'
    | none => none

/-- The states reachable from the initial empty state. -/
def Sys.Reachable (σ : Sys) : Prop :=
  ∃ ops, run ops { state := State.initial, running := [] } = some σ

/-- The dedup invariant on the pending list `p` (manual queue followed by
fetched queue), the dedup set `S`, the pending-deletion list `D` and the ids
`R` held by workers. -/
structure DedupOn (p : List String) (S : String → Bool) (D R : List String) : Prop where
  nodup : p.Nodup
  queued : ∀ t ∈ p, S t = true
  held : ∀ t ∈ R, S t = true
  apart : ∀ t ∈ p, t ∉ R
  delSet : ∀ t ∈ D, S t = true
  delQueued : ∀ t ∈ D, t ∉ p
  delHeld : ∀ t ∈ D, t ∉ R
  runNodup : R.Nodup

/-- The dedup invariant of a scheduler state. -/
def Dedup (σ : Sys) : Prop :=
  DedupOn (GetPendingTasks σ.state) σ.state.tasksSet σ.state.toDeleteTasks σ.running

/-- A reachable scheduler state: `m` was added by hand, a fetch cycle read
`a`, `m`, `b`, one `GetTask` call handed out `m`, the worker acknowledged it,
and a second fetch cycle read `m` again. -/
def sampleSys : Sys :=
  { state :=
      fetchCycle
        (FinishTask (getTaskLocked (fetchCycle (AddManualTask State.initial "m") ["a", "m", "b"])).2
          "m")
        ["m"]
    running := [] }

/-- The actions leading to `sampleSys`. -/
def sampleOps : List Op :=
  [Op.addManual "m", Op.fetch ["a", "m", "b"], Op.getTask, Op.finish "m", Op.fetch ["m"]]

/-- A reachable state in which a worker holds `X`: `X` was fetched and handed
out by `GetTask`. -/
def heldSys : Sys :=
  { state := (getTaskLocked (fetchCycle State.initial ["X", "Y"])).2
    running := ["X"] }

/-- The actions leading to `heldSys`. -/
def heldOps : List Op := [Op.fetch ["X", "Y"], Op.getTask]

/-- A running scheduler with two manual and two fetched tasks queued. -/
def queuedState : State :=
  fetchCycle (AddManualTask (AddManualTask State.initial "m1") "m2") ["f1", "f2"]

/-- A running scheduler with two fetched tasks and no manual task queued. -/
def fetchedState : State := fetchCycle State.initial ["f1", "f2"]

/-- The state a parked `GetTask` call wakes up in: the call found both queues
empty and waits on `taskCond`, then `M` was added by hand and a fetch cycle
read `F`. -/
def parkedState : State :=
  fetchCycle (AddManualTask (getTaskLocked State.initial).2 "M") ["F"]

/-! ## The fetch loop and the background fetch -/

/-- One iteration of the loop of `fetchTasksFromDatabase` for the page
`result`: the new state and the flag `ok`, which every row of the page sets. -/
def fetchIteration (s : State) (result : List String) : State × Bool :=
  let appended :=
    result.foldl (fun (acc : State × Bool) r => (appendFetched acc.1 r, true)) (s, false)
  (applyDeletes appended.1, appended.2)

/-- How a run of `fetchTasksFromDatabase` stands after a finite number of
`Query` answers: it has returned `err`, or it is still in its loop. -/
inductive FetchOutcome where
  | returned (err : Option String)
  | retrying
  deriving DecidableEq

/-- A run of `fetchTasksFromDatabase`: outcome, scheduler state, and the number
of `time.Sleep(IdleInterval)` calls made. -/
structure FetchRun where
  outcome : FetchOutcome
  state : State
  sleeps : Nat

/-- The Go function `fetchTasksFromDatabase()`, against a store whose
successive `Query(FetchSize)` calls answer `answers` (an error or a page). -/
def fetchTasksFromDatabase : State → List (Except String (List String)) → FetchRun
  | s, [] => { outcome := FetchOutcome.retrying, state := s, sleeps := 0 }
  | s, Except.error err :: _ =>
    { outcome := FetchOutcome.returned (some err), state := s, sleeps := 0 }
  | s, Except.ok result :: answers =>
    if (fetchIteration s result).2 then
      { outcome := FetchOutcome.returned none, state := (fetchIteration s result).1, sleeps := 0 }
    else
      { outcome := (fetchTasksFromDatabase (fetchIteration s result).1 answers).outcome
        state := (fetchTasksFromDatabase (fetchIteration s result).1 answers).state
        sleeps := (fetchTasksFromDatabase (fetchIteration s result).1 answers).sleeps + 1 }

/-- The goroutine started by `triggerFetch`: it runs `fetchTasksFromDatabase`
and then clears `fetchInProgress`. -/
def backgroundFetch (s : State) (answers : List (Except String (List String))) :
    FetchOutcome × State :=
  match (fetchTasksFromDatabase s answers).outcome with
  | FetchOutcome.retrying => (FetchOutcome.retrying, (fetchTasksFromDatabase s answers).state)
  | FetchOutcome.returned err =>
    (FetchOutcome.returned err,
      { (fetchTasksFromDatabase s answers).state with fetchInProgress := false })

/-- Number of background-fetch goroutines started by one call of the closure
`triggerFetch` of `GetTask` in state `s`: the `go` statement stands in the
branch `!fetchInProgress`. -/
def triggerFetchSpawns (s : State) : Nat := if s.fetchInProgress then 0 else 1

/-- Number of background fetches started by one evaluation of the wait loop of
`GetTask` (also by a caller woken from `taskCond.Wait()`). -/
def waitLoopSpawns (s : State) : Nat :=
  if s.tasks.length == 0 then triggerFetchSpawns s else 0

/-- Number of background fetches started by the critical section of `GetTask`:
none on the manual-queue return, else the threshold check followed by the
wait loop. -/
def getTaskSpawns (s : State) : Nat :=
  match s.manualTasks with
  | _ :: _ => 0
  | [] =>
    if (s.tasks.length : Int) < s.FetchThreshold then
      triggerFetchSpawns s + waitLoopSpawns (triggerFetch s)
    else waitLoopSpawns s

/-- The ids of the page `page` that are not in the set `set`, in the order
received, each at its first occurrence only. -/
def newIds (set : String → Bool) : List String → List String
  | [] => []
  | r :: page =>
    if set r then newIds set page
    else r :: (newIds set page).filter (fun x => x != r)

/-- The scheduler with the number of background fetch goroutines that have
been started and have not yet cleared `fetchInProgress`. -/
structure Flight where
  sys : Sys
  fetches : Nat

/-- The initial empty state, with no fetch in flight. -/
def Flight.initial : Flight :=
  { sys := { state := State.initial, running := [] }, fetches := 0 }

/-- Effect of one action on the scheduler and on the number of fetches in
flight: a `GetTask` step adds the fetch it starts, and only a fetch in flight
runs a fetch cycle or completes. -/
def Flight.apply (φ : Flight) (op : Op) : Option Flight :=
  match op with
  | Op.fetchDone =>
    if φ.fetches = 0 then none
    else (op.apply φ.sys).map (fun σ => { sys := σ, fetches := φ.fetches - 1 })
  | Op.fetch _ =>
    if φ.fetches = 0 then none
    else (op.apply φ.sys).map (fun σ => { sys := σ, fetches := φ.fetches })
  | Op.getTask =>
    (op.apply φ.sys).map (fun σ =>
      { sys := σ, fetches := φ.fetches + getTaskSpawns φ.sys.state })
  | Op.resume =>
    (op.apply φ.sys).map (fun σ =>
      { sys := σ, fetches := φ.fetches + waitLoopSpawns φ.sys.state })
  | _ => (op.apply φ.sys).map (fun σ => { sys := σ, fetches := φ.fetches })

/-- Effect of a sequence of actions. -/
def Flight.run : List Op → Flight → Option Flight
  | [], φ => some φ
  | op :: ops, φ =>
    match φ.apply op with
    | some φ' => Flight.run ops φ'
    | none => none

/-- The scheduler stopped with two manual and two fetched tasks queued. -/
def stoppedState : State := StopScheduler queuedState

/-- A state in which the dedup set holds `X` (queued by hand) and nothing else. -/
def knownState : State := AddManualTask State.initial "X"

/-- Answers of the store to successive `Query` calls: `k` empty pages, then the
error `err`. -/
def failingAnswers (k : Nat) (err : String) (rest : List (Except String (List String))) :
    List (Except String (List String)) :=
  List.replicate k (Except.ok []) ++ Except.error err :: rest

/-- The state after `k` iterations of the fetch loop whose page was empty. -/
def idleCycles (k : Nat) (s : State) : State := (fun st => fetchCycle st [])^[k] s


/-- The actions leading to `parkedState`: a `GetTask` call parks on the empty
queues, `M` is added by hand and a fetch cycle reads `F`. -/
def parkedOps : List Op := [Op.getTask, Op.addManual "M", Op.fetch ["F"]]

/-- The state after `X` was queued by a fetch cycle, acknowledged with
`FinishTask` while still queued, and two more fetch cycles ran, the second one
reading `X` again. -/
def requeuedState (X : String) : State :=
  fetchCycle (fetchCycle (FinishTask (fetchCycle State.initial [X]) X) []) [X]

end Schedule

namespace Workflow

/-! ## Theorems: build sequencer -/

theorem setCard_le {n : Nat} (V : NodeSet n) : setCard V ≤ n := by
  unfold setCard
  calc (Finset.univ.filter (fun x => V x = true)).card
      ≤ (Finset.univ : Finset (Fin n)).card := Finset.card_filter_le _ _
    _ = n := by simp

theorem setCard_mono {n : Nat} {V W : NodeSet n} (h : ∀ x, V x = true → W x = true) :
    setCard V ≤ setCard W := by
  unfold setCard
  apply Finset.card_le_card
  intro x hx
  simp only [Finset.mem_filter, Finset.mem_univ, true_and] at hx ⊢
  exact h x hx

theorem setCard_update {n : Nat} (V : NodeSet n) (x : Fin n) (hx : V x = false) :
    setCard (Function.update V x true) = setCard V + 1 := by
  unfold setCard
  have : Finset.univ.filter (fun y => Function.update V x true y = true)
      = insert x (Finset.univ.filter (fun y => V y = true)) := by
    ext y
    by_cases hy : y = x
    · subst hy; simp
    · simp [Function.update_noteq hy, hy]
  rw [this, Finset.card_insert_of_not_mem]
  simp [hx]

theorem foldlM_cons_some {α β : Type} (f : β → α → Option β) (b : β) (x : α) (l : List α) :
    (x :: l).foldlM f b = (f b x).bind (fun b' => l.foldlM f b') := by
  simp [List.foldlM_cons]

theorem foldlM_nil_some {α β : Type} (f : β → α → Option β) (b : β) :
    ([] : List α).foldlM f b = some b := rfl

theorem buildInDegree_spec {n : Nat} (a : Arena n) :
    ∀ (fuel : Nat) (node : Fin n) (ind : Fin n → Int) (V : NodeSet n),
      n < fuel + setCard V →
      ∃ ind' V', buildInDegree a fuel node (ind, V) = some (ind', V') ∧
        (∀ x, V x = true → V' x = true) ∧ V' node = true ∧
        (∀ x, V' x = true → V x = false →
          (∀ y ∈ (a x).Dependencies, V' y = true) ∧ Reachable a node x ∧
            ind' x = ((a x).Dependencies.length : Int)) ∧
        (∀ x, (V' x = true → V x = true) → ind' x = ind x) := by
  intro fuel
  induction fuel with
  | zero =>
    intro node ind V h
    have := setCard_le V
    omega
  | succ f ih =>
    intro node ind V h
    by_cases hv : V node = true
    · refine ⟨ind, V, ?_, fun x hx => hx, hv, ?_, fun x _ => rfl⟩
      · simp [buildInDegree, hv]
      · intro x hx hx'
        rw [hx] at hx'
        exact absurd hx' (by simp)
    · have hvf : V node = false := by simpa using hv
      have key : ∀ (l : List (Fin n)) (ind1 : Fin n → Int) (V1 : NodeSet n),
          n < f + setCard V1 →
          ∃ ind' V', l.foldlM (fun st dep => buildInDegree a f dep st) (ind1, V1)
              = some (ind', V') ∧
            (∀ x, V1 x = true → V' x = true) ∧ (∀ d ∈ l, V' d = true) ∧
            (∀ x, V' x = true → V1 x = false →
              (∀ y ∈ (a x).Dependencies, V' y = true) ∧ (∃ d ∈ l, Reachable a d x) ∧
                ind' x = ((a x).Dependencies.length : Int)) ∧
            (∀ x, (V' x = true → V1 x = true) → ind' x = ind1 x) := by
        intro l
        induction l with
        | nil =>
          intro ind1 V1 _
          refine ⟨ind1, V1, rfl, fun x hx => hx, by simp, ?_, fun x _ => rfl⟩
          intro x hx hx'
          rw [hx] at hx'
          exact absurd hx' (by simp)
        | cons d l ihl =>
          intro ind1 V1 h1
          obtain ⟨ind2, V2, e2, m2, n2, c2, u2⟩ := ih d ind1 V1 h1
          have h2 : n < f + setCard V2 := by
            have := setCard_mono m2
            omega
          obtain ⟨ind3, V3, e3, m3, n3, c3, u3⟩ := ihl ind2 V2 h2
          refine ⟨ind3, V3, ?_, fun x hx => m3 x (m2 x hx), ?_, ?_, ?_⟩
          · rw [foldlM_cons_some, e2]
            exact e3
          · intro d' hd'
            rcases List.mem_cons.mp hd' with rfl | hd'
            · exact m3 _ n2
            · exact n3 d' hd'
          · intro x hx3 hx1
            by_cases hx2 : V2 x = true
            · obtain ⟨cl, re, iv⟩ := c2 x hx2 hx1
              refine ⟨fun y hy => m3 y (cl y hy), ⟨d, List.mem_cons_self _ _, re⟩, ?_⟩
              rw [u3 x (fun _ => hx2)]
              exact iv
            · have hx2f : V2 x = false := by simpa using hx2
              obtain ⟨cl, ⟨d', hd', re⟩, iv⟩ := c3 x hx3 hx2f
              exact ⟨cl, ⟨d', List.mem_cons_of_mem _ hd', re⟩, iv⟩
          · intro x hx
            by_cases hx2 : V2 x = true
            · have hx1 : V1 x = true := by
                by_contra hc
                have hx3 : V3 x = true := m3 x hx2
                exact hc (hx hx3)
              rw [u3 x (fun _ => hx2), u2 x (fun _ => hx1)]
            · rw [u3 x (fun h3 => m2 x (hx h3)), u2 x (fun h2 => absurd h2 hx2)]
      have h1 : n < f + setCard (Function.update V node true) := by
        rw [setCard_update V node hvf]
        omega
      obtain ⟨ind', V', e, m, nn, c, u⟩ := key (a node).Dependencies
        (Function.update ind node ((a node).Dependencies.length : Int))
        (Function.update V node true) h1
      refine ⟨ind', V', ?_, ?_, ?_, ?_, ?_⟩
      · simp only [buildInDegree, hvf]
        exact e
      · intro x hx
        apply m
        by_cases hxn : x = node
        · subst hxn; simp
        · simpa [Function.update_noteq hxn] using hx
      · apply m
        simp
      · intro x hx hxV
        by_cases hxn : x = node
        · subst hxn
          refine ⟨nn, Relation.ReflTransGen.refl, ?_⟩
          rw [u x (fun _ => by simp)]
          simp
        · have hx1 : Function.update V node true x = false := by
            simpa [Function.update_noteq hxn] using hxV
          obtain ⟨cl, ⟨d, hd, re⟩, iv⟩ := c x hx hx1
          exact ⟨cl, Relation.ReflTransGen.head hd re, iv⟩
      · intro x hx
        have hxn : x ≠ node := by
          rintro rfl
          have := hx (m _ (by simp))
          rw [hvf] at this
          exact absurd this (by simp)
        rw [u x (fun h3 => by simpa [Function.update_noteq hxn] using hx h3)]
        simp [Function.update_noteq hxn]

theorem taintOthers_spec {n : Nat} (graph : GraphMap n) :
    ∀ (fuel : Nat) (node : Fin n) (T V : NodeSet n),
      n < fuel + setCard V →
      ∃ T' V', taintOthers graph fuel node (T, V) = some (T', V') ∧
        (∀ x, V x = true → V' x = true) ∧ V' node = true ∧
        (∀ x, V' x = true → V x = false →
          (∀ y, Edge graph x y → V' y = true) ∧
            Relation.ReflTransGen (Edge graph) node x) ∧
        (∀ x, T' x = true ↔ T x = true ∨ (V' x = true ∧ V x = false)) := by
  intro fuel
  induction fuel with
  | zero =>
    intro node T V h
    have := setCard_le V
    omega
  | succ f ih =>
    intro node T V h
    by_cases hv : V node = true
    · refine ⟨T, V, ?_, fun x hx => hx, hv, ?_, ?_⟩
      · simp [taintOthers, hv]
      · intro x hx hx'
        rw [hx] at hx'
        exact absurd hx' (by simp)
      · intro x
        constructor
        · exact fun h => Or.inl h
        · rintro (h | ⟨h1, h2⟩)
          · exact h
          · rw [h1] at h2
            exact absurd h2 (by simp)
    · have hvf : V node = false := by simpa using hv
      have key : ∀ (l : List (Fin n)) (T1 V1 : NodeSet n),
          n < f + setCard V1 →
          ∃ T' V', l.foldlM (fun st dep => taintOthers graph f dep st) (T1, V1)
              = some (T', V') ∧
            (∀ x, V1 x = true → V' x = true) ∧ (∀ d ∈ l, V' d = true) ∧
            (∀ x, V' x = true → V1 x = false →
              (∀ y, Edge graph x y → V' y = true) ∧
                (∃ d ∈ l, Relation.ReflTransGen (Edge graph) d x)) ∧
            (∀ x, T' x = true ↔ T1 x = true ∨ (V' x = true ∧ V1 x = false)) := by
        intro l
        induction l with
        | nil =>
          intro T1 V1 _
          refine ⟨T1, V1, rfl, fun x hx => hx, by simp, ?_, ?_⟩
          · intro x hx hx'
            rw [hx] at hx'
            exact absurd hx' (by simp)
          · intro x
            constructor
            · exact fun h => Or.inl h
            · rintro (h | ⟨h1, h2⟩)
              · exact h
              · rw [h1] at h2
                exact absurd h2 (by simp)
        | cons d l ihl =>
          intro T1 V1 h1
          obtain ⟨T2, V2, e2, m2, n2, c2, u2⟩ := ih d T1 V1 h1
          have h2 : n < f + setCard V2 := by
            have := setCard_mono m2
            omega
          obtain ⟨T3, V3, e3, m3, n3, c3, u3⟩ := ihl T2 V2 h2
          refine ⟨T3, V3, ?_, fun x hx => m3 x (m2 x hx), ?_, ?_, ?_⟩
          · rw [foldlM_cons_some, e2]
            exact e3
          · intro d' hd'
            rcases List.mem_cons.mp hd' with rfl | hd'
            · exact m3 _ n2
            · exact n3 d' hd'
          · intro x hx3 hx1
            by_cases hx2 : V2 x = true
            · obtain ⟨cl, re⟩ := c2 x hx2 hx1
              exact ⟨fun y hy => m3 y (cl y hy), ⟨d, List.mem_cons_self _ _, re⟩⟩
            · have hx2f : V2 x = false := by simpa using hx2
              obtain ⟨cl, ⟨d', hd', re⟩⟩ := c3 x hx3 hx2f
              exact ⟨cl, ⟨d', List.mem_cons_of_mem _ hd', re⟩⟩
          · intro x
            rw [u3 x, u2 x]
            constructor
            · rintro ((h | ⟨h2, h1⟩) | ⟨h3, h2⟩)
              · exact Or.inl h
              · exact Or.inr ⟨m3 x h2, h1⟩
              · by_cases hx1 : V1 x = true
                · exact absurd (m2 x hx1) (by simp [h2])
                · exact Or.inr ⟨h3, by simpa using hx1⟩
            · rintro (h | ⟨h3, h1⟩)
              · exact Or.inl (Or.inl h)
              · by_cases hx2 : V2 x = true
                · exact Or.inl (Or.inr ⟨hx2, h1⟩)
                · exact Or.inr ⟨h3, by simpa using hx2⟩
      have h1 : n < f + setCard (Function.update V node true) := by
        rw [setCard_update V node hvf]
        omega
      obtain ⟨T', V', e, m, nn, c, u⟩ := key ((graph node).getD [])
        (Function.update T node true) (Function.update V node true) h1
      refine ⟨T', V', ?_, ?_, ?_, ?_, ?_⟩
      · simp only [taintOthers, hvf]
        exact e
      · intro x hx
        apply m
        by_cases hxn : x = node
        · subst hxn; simp
        · simpa [Function.update_noteq hxn] using hx
      · apply m
        simp
      · intro x hx hxV
        by_cases hxn : x = node
        · subst hxn
          exact ⟨fun y hy => nn y hy, Relation.ReflTransGen.refl⟩
        · have hx1 : Function.update V node true x = false := by
            simpa [Function.update_noteq hxn] using hxV
          obtain ⟨cl, ⟨d, hd, re⟩⟩ := c x hx hx1
          exact ⟨cl, Relation.ReflTransGen.head hd re⟩
      · intro x
        rw [u x]
        by_cases hxn : x = node
        · subst hxn
          simp [hvf, m x (by simp)]
        · simp [Function.update_noteq hxn]

/-- Started with an empty `visited`, `taintOthers` returns, and it has added to
the tainted set exactly the nodes forward-reachable from `node`. -/
theorem taintOthers_fresh {n : Nat} (graph : GraphMap n) (node : Fin n) (T : NodeSet n) :
    ∃ T' V', taintOthers graph (n + 1) node (T, fun _ => false) = some (T', V') ∧
      ∀ x, T' x = true ↔ T x = true ∨ Relation.ReflTransGen (Edge graph) node x := by
  obtain ⟨T', V', e, _, nn, c, u⟩ :=
    taintOthers_spec graph (n + 1) node T (fun _ => false) (by omega)
  refine ⟨T', V', e, fun x => ?_⟩
  rw [u x]
  have hall : ∀ y, Relation.ReflTransGen (Edge graph) node y → V' y = true := by
    intro y hy
    induction hy with
    | refl => exact nn
    | tail _ hbc ihb => exact (c _ ihb rfl).1 _ hbc
  constructor
  · rintro (h | ⟨h1, _⟩)
    · exact Or.inl h
    · exact Or.inr (c x h1 rfl).2
  · rintro (h | h)
    · exact Or.inl h
    · exact Or.inr ⟨hall x h, rfl⟩

theorem buildGraph_spec {n : Nat} (a : Arena n) :
    ∀ (fuel : Nat) (node : Fin n) (G : GraphMap n) (V : NodeSet n),
      n < fuel + setCard V → (∀ u, V u = true → (G u).isSome = true) →
      ∃ G' V', buildGraph a fuel node (G, V) = some (G', V') ∧
        (∀ x, V x = true → V' x = true) ∧ V' node = true ∧
        (∀ x, V' x = true → V x = false →
          (∀ y ∈ (a x).Dependencies, V' y = true) ∧ Reachable a node x) ∧
        (∀ u, (G' u).isSome = true ↔ (G u).isSome = true ∨ (V' u = true ∧ V u = false)) ∧
        (∀ u m, ((G' u).getD []).count m = ((G u).getD []).count m +
          (if V' m = true ∧ V m = false then (a m).Dependencies.count u else 0)) := by
  intro fuel
  induction fuel with
  | zero =>
    intro node G V h
    have := setCard_le V
    omega
  | succ f ih =>
    intro node G V h hk
    by_cases hv : V node = true
    · refine ⟨G, V, ?_, fun x hx => hx, hv, ?_, ?_, ?_⟩
      · simp [buildGraph, hv]
      · intro x hx hx'
        rw [hx] at hx'
        exact absurd hx' (by simp)
      · intro u
        constructor
        · exact fun h => Or.inl h
        · rintro (h | ⟨h1, h2⟩)
          · exact h
          · rw [h1] at h2
            exact absurd h2 (by simp)
      · intro u m
        have : ¬ (V m = true ∧ V m = false) := by
          rintro ⟨h1, h2⟩
          rw [h1] at h2
          exact absurd h2 (by simp)
        simp [this]
    · have hvf : V node = false := by simpa using hv
      have key : ∀ (l : List (Fin n)) (G1 : GraphMap n) (V1 : NodeSet n),
          n < f + setCard V1 → (∀ u, V1 u = true → (G1 u).isSome = true) →
          ∃ G' V', l.foldlM (fun st dep => buildGraph a f dep
                (Function.update st.1 dep (some ((st.1 dep).getD [] ++ [node])), st.2))
              (G1, V1) = some (G', V') ∧
            (∀ x, V1 x = true → V' x = true) ∧ (∀ d ∈ l, V' d = true) ∧
            (∀ x, V' x = true → V1 x = false →
              (∀ y ∈ (a x).Dependencies, V' y = true) ∧ (∃ d ∈ l, Reachable a d x)) ∧
            (∀ u, (G' u).isSome = true ↔
              (G1 u).isSome = true ∨ u ∈ l ∨ (V' u = true ∧ V1 u = false)) ∧
            (∀ u m, ((G' u).getD []).count m = ((G1 u).getD []).count m +
              (if m = node then l.count u else 0) +
              (if V' m = true ∧ V1 m = false then (a m).Dependencies.count u else 0)) := by
        intro l
        induction l with
        | nil =>
          intro G1 V1 _ _
          refine ⟨G1, V1, rfl, fun x hx => hx, by simp, ?_, ?_, ?_⟩
          · intro x hx hx'
            rw [hx] at hx'
            exact absurd hx' (by simp)
          · intro u
            constructor
            · exact fun h => Or.inl h
            · rintro (h | h | ⟨h1, h2⟩)
              · exact h
              · simp at h
              · rw [h1] at h2
                exact absurd h2 (by simp)
          · intro u m
            have : ¬ (V1 m = true ∧ V1 m = false) := by
              rintro ⟨h1, h2⟩
              rw [h1] at h2
              exact absurd h2 (by simp)
            simp [this]
        | cons d l ihl =>
          intro G1 V1 h1 hk1
          have hk1' : ∀ u, V1 u = true →
              ((Function.update G1 d (some ((G1 d).getD [] ++ [node]))) u).isSome = true := by
            intro u hu
            by_cases hud : u = d
            · subst hud; simp
            · simpa [Function.update_noteq hud] using hk1 u hu
          obtain ⟨G2, V2, e2, m2, n2, c2, k2, u2⟩ := ih d _ V1 h1 hk1'
          have h2 : n < f + setCard V2 := by
            have := setCard_mono m2
            omega
          have hk2 : ∀ u, V2 u = true → (G2 u).isSome = true := by
            intro u hu
            rw [k2 u]
            by_cases hu1 : V1 u = true
            · exact Or.inl (hk1' u hu1)
            · exact Or.inr ⟨hu, by simpa using hu1⟩
          obtain ⟨G3, V3, e3, m3, n3, c3, k3, u3⟩ := ihl G2 V2 h2 hk2
          refine ⟨G3, V3, ?_, fun x hx => m3 x (m2 x hx), ?_, ?_, ?_, ?_⟩
          · rw [foldlM_cons_some]
            simp only []
            rw [e2]
            exact e3
          · intro d' hd'
            rcases List.mem_cons.mp hd' with rfl | hd'
            · exact m3 _ n2
            · exact n3 d' hd'
          · intro x hx3 hx1
            by_cases hx2 : V2 x = true
            · obtain ⟨cl, re⟩ := c2 x hx2 hx1
              exact ⟨fun y hy => m3 y (cl y hy), ⟨d, List.mem_cons_self _ _, re⟩⟩
            · have hx2f : V2 x = false := by simpa using hx2
              obtain ⟨cl, ⟨d', hd', re⟩⟩ := c3 x hx3 hx2f
              exact ⟨cl, ⟨d', List.mem_cons_of_mem _ hd', re⟩⟩
          · intro u
            rw [k3 u, k2 u]
            constructor
            · rintro ((h | ⟨h2', h1'⟩) | h | ⟨h3', h2'⟩)
              · by_cases hud : u = d
                · subst hud; exact Or.inr (Or.inl (List.mem_cons_self _ _))
                · left; simpa [Function.update_noteq hud] using h
              · exact Or.inr (Or.inr ⟨m3 u h2', h1'⟩)
              · exact Or.inr (Or.inl (List.mem_cons_of_mem _ h))
              · by_cases hu1 : V1 u = true
                · exact absurd (m2 u hu1) (by simp [h2'])
                · exact Or.inr (Or.inr ⟨h3', by simpa using hu1⟩)
            · rintro (h | h | ⟨h3', h1'⟩)
              · exact Or.inl (Or.inl (by
                  by_cases hud : u = d
                  · subst hud; simp
                  · simpa [Function.update_noteq hud] using h))
              · rcases List.mem_cons.mp h with rfl | h
                · exact Or.inl (Or.inl (by simp))
                · exact Or.inr (Or.inl h)
              · by_cases hu2 : V2 u = true
                · exact Or.inl (Or.inr ⟨hu2, h1'⟩)
                · exact Or.inr (Or.inr ⟨h3', by simpa using hu2⟩)
          · intro u m
            rw [u3 u m, u2 u m]
            have e0 : ((Function.update G1 d (some ((G1 d).getD [] ++ [node])) u).getD []).count m
                = ((G1 u).getD []).count m + (if m = node then (if u = d then 1 else 0) else 0) := by
              by_cases hud : u = d
              · subst hud
                by_cases hmn : m = node
                · subst hmn; simp
                · have : ¬ (node = m) := fun h => hmn h.symm
                  simp [hmn, List.count_cons, this]
              · simp [Function.update_noteq hud, hud]
            rw [e0]
            have ec : (d :: l).count u = l.count u + (if u = d then 1 else 0) := by
              rw [List.count_cons]
              by_cases hud : u = d
              · subst hud; simp
              · have : ¬ (d = u) := fun h => hud h.symm
                simp [hud, this]
            rw [ec]
            have en : (if V3 m = true ∧ V1 m = false then (a m).Dependencies.count u else 0)
                = (if V2 m = true ∧ V1 m = false then (a m).Dependencies.count u else 0)
                + (if V3 m = true ∧ V2 m = false then (a m).Dependencies.count u else 0) := by
              by_cases hm1 : V1 m = true
              · have hm2 := m2 m hm1
                simp [hm1, hm2]
              · by_cases hm2 : V2 m = true
                · have hm3 := m3 m hm2
                  simp [hm1, hm2, hm3]
                · simp [hm1, hm2]
            rw [en]
            by_cases hmn : m = node <;> simp [hmn] <;> omega
      have h1 : n < f + setCard (Function.update V node true) := by
        rw [setCard_update V node hvf]
        omega
      have hk1 : ∀ u, Function.update V node true u = true →
          ((if (G node).isSome then G else Function.update G node (some [])) u).isSome
            = true := by
        intro u hu
        by_cases hun : u = node
        · subst hun
          by_cases hg : (G u).isSome = true
          · simp [hg]
          · simp [hg]
        · have hu' : V u = true := by simpa [Function.update_noteq hun] using hu
          by_cases hg : (G node).isSome = true
          · simpa [hg] using hk u hu'
          · simpa [hg, Function.update_noteq hun] using hk u hu'
      have hg1 : ∀ u, ((if (G node).isSome then G else Function.update G node (some [])) u).getD []
          = (G u).getD [] := by
        intro u
        by_cases hg : (G node).isSome = true
        · simp [hg]
        · by_cases hun : u = node
          · subst hun
            have : G u = none := by simpa using hg
            simp [this]
          · simp [hg, Function.update_noteq hun]
      obtain ⟨G', V', e, m, nn, c, k, u⟩ := key (a node).Dependencies _ _ h1 hk1
      have hnode' : V' node = true := m _ (by simp)
      refine ⟨G', V', ?_, ?_, hnode', ?_, ?_, ?_⟩
      · simp only [buildGraph, hvf]
        exact e
      · intro x hx
        apply m
        by_cases hxn : x = node
        · subst hxn; simp
        · simpa [Function.update_noteq hxn] using hx
      · intro x hx hxV
        by_cases hxn : x = node
        · subst hxn
          exact ⟨nn, Relation.ReflTransGen.refl⟩
        · have hx1 : Function.update V node true x = false := by
            simpa [Function.update_noteq hxn] using hxV
          obtain ⟨cl, ⟨d, hd, re⟩⟩ := c x hx hx1
          exact ⟨cl, Relation.ReflTransGen.head hd re⟩
      · intro x
        rw [k x]
        constructor
        · rintro (h | h | ⟨h1', h2'⟩)
          · by_cases hxn : x = node
            · subst hxn; exact Or.inr ⟨hnode', hvf⟩
            · left
              by_cases hg : (G node).isSome = true
              · simpa [hg] using h
              · simpa [hg, Function.update_noteq hxn] using h
          · by_cases hxv : V x = true
            · exact Or.inl (hk x hxv)
            · exact Or.inr ⟨nn x h, by simpa using hxv⟩
          · refine Or.inr ⟨h1', ?_⟩
            by_cases hxn : x = node
            · subst hxn; exact hvf
            · simpa [Function.update_noteq hxn] using h2'
        · rintro (h | ⟨h1', h2'⟩)
          · left
            by_cases hg : (G node).isSome = true
            · simpa [hg] using h
            · by_cases hxn : x = node
              · subst hxn; exact absurd h hg
              · simpa [hg, Function.update_noteq hxn] using h
          · by_cases hxn : x = node
            · subst hxn
              exact Or.inl (hk1 x (by simp))
            · exact Or.inr (Or.inr ⟨h1', by simpa [Function.update_noteq hxn] using h2'⟩)
      · intro x y
        rw [u x y, hg1 x]
        by_cases hyn : y = node
        · subst hyn
          simp [hnode', hvf]
        · simp [hyn, Function.update_noteq hyn]

theorem buildGraph_init {n : Nat} (a : Arena n) (root : Fin n) :
    ∃ G V, buildGraph a (n + 1) root (fun _ => none, fun _ => false) = some (G, V) ∧
      (∀ u, (G u).isSome = true ↔ Reachable a root u) ∧
      (∀ u m, Reachable a root m → ((G u).getD []).count m = (a m).Dependencies.count u) ∧
      (∀ u m, ¬ Reachable a root m → ((G u).getD []).count m = 0) := by
  obtain ⟨G, V, e, _, nn, c, k, u⟩ :=
    buildGraph_spec a (n + 1) root (fun _ => none) (fun _ => false) (by omega) (by simp)
  have hall : ∀ y, Reachable a root y → V y = true := by
    intro y hy
    induction hy with
    | refl => exact nn
    | tail _ hbc ihb => exact (c _ ihb rfl).1 _ hbc
  have hiff : ∀ y, V y = true ↔ Reachable a root y :=
    fun y => ⟨fun h => (c y h rfl).2, hall y⟩
  refine ⟨G, V, e, ?_, ?_, ?_⟩
  · intro x
    rw [k x, ← hiff x]
    simp
  · intro x m hm
    rw [u x m]
    simp [(hiff m).mpr hm]
  · intro x m hm
    rw [u x m]
    have : ¬ V m = true := fun h => hm ((hiff m).mp h)
    simp [this]

theorem buildInDegree_init {n : Nat} (a : Arena n) (root : Fin n) :
    ∃ ind V, buildInDegree a (n + 1) root (fun _ => 0, fun _ => false) = some (ind, V) ∧
      (∀ x, Reachable a root x → ind x = ((a x).Dependencies.length : Int)) := by
  obtain ⟨ind, V, e, _, nn, c, _⟩ :=
    buildInDegree_spec a (n + 1) root (fun _ => 0) (fun _ => false) (by omega)
  have hall : ∀ y, Reachable a root y → V y = true := by
    intro y hy
    induction hy with
    | refl => exact nn
    | tail _ hbc ihb => exact (c _ ihb rfl).1 _ hbc
  exact ⟨ind, V, e, fun x hx => (c x (hall x hx) rfl).2.2⟩

theorem Inv.closed_star {n : Nat} {a : Arena n} {root : Fin n} {d : Bool} {st : SeqState n}
    (h : Inv a root d st) {p y : Fin n} (hp : Reachable a root p) (hg : st.graph p = none)
    (hpy : Relation.ReflTransGen (DependsOn a) p y) : st.graph y = none := by
  induction hpy with
  | refl => exact hg
  | tail hpb hbc ihb => exact h.closed _ (hp.trans hpb) ihb _ hbc

/-- Forward edges of the remaining graph are the reversed dependency edges
between reachable nodes. -/
theorem Inv.edge_iff {n : Nat} {a : Arena n} {root : Fin n} {d : Bool} {st : SeqState n}
    (h : Inv a root d st) {u m : Fin n} (hu : (st.graph u).isSome = true) :
    Edge st.graph u m ↔ Reachable a root m ∧ DependsOn a m u := by
  unfold Edge DependsOn
  by_cases hm : Reachable a root m
  · rw [← List.count_pos_iff, h.adj u m hu hm, List.count_pos_iff]
    simp [hm]
  · have := h.adjz u m hm
    rw [List.count_eq_zero] at this
    simp [hm, this]

theorem Inv.forward_iff {n : Nat} {a : Arena n} {root : Fin n} {d : Bool} {st : SeqState n}
    (h : Inv a root d st) {node x : Fin n} (hk : (st.graph node).isSome = true) :
    Relation.ReflTransGen (Edge st.graph) node x ↔
      Reachable a root x ∧ Relation.ReflTransGen (DependsOn a) x node := by
  constructor
  · intro hx
    induction hx with
    | refl => exact ⟨h.reach _ hk, Relation.ReflTransGen.refl⟩
    | @tail b c _ hbc ihb =>
      have hb : (st.graph b).isSome = true := by
        by_contra hc
        have hnone : st.graph b = none := by simpa using hc
        have := h.closed_star ihb.1 hnone ihb.2
        rw [this] at hk
        simp at hk
      obtain ⟨hc1, hc2⟩ := (h.edge_iff hb).mp hbc
      exact ⟨hc1, Relation.ReflTransGen.head hc2 ihb.2⟩
  · rintro ⟨hx, hxn⟩
    induction hxn using Relation.ReflTransGen.head_induction_on with
    | refl => exact Relation.ReflTransGen.refl
    | @head x' b hab hbc ihb =>
      have hb : Reachable a root b := hx.tail hab
      have hbk : (st.graph b).isSome = true := by
        by_contra hc
        have hnone : st.graph b = none := by simpa using hc
        have := h.closed_star hb hnone hbc
        rw [this] at hk
        simp at hk
      exact (ihb hb).tail ((h.edge_iff hbk).mpr ⟨hx, hab⟩)

theorem decr_fold {n : Nat} (l : List (Fin n)) (ind : Fin n → Int) (m : Fin n) :
    (l.foldl (fun indegree tonode => Function.update indegree tonode (indegree tonode - 1))
      ind) m = ind m - (l.count m : Int) := by
  induction l generalizing ind with
  | nil => simp
  | cons t l ih =>
    rw [List.foldl_cons, ih, List.count_cons]
    by_cases htm : m = t
    · subst htm
      simp
      omega
    · have : ¬ (t = m) := fun h => htm h.symm
      simp [Function.update_noteq htm, this]

theorem filter_remove {n : Nat} (g : GraphMap n) (node : Fin n)
    (hk : (g node).isSome = true) (l : List (Fin n)) :
    ((l.filter (fun y => ((Function.update g node none) y).isSome)).length : Int)
      = (l.filter (fun y => (g y).isSome)).length - (l.count node : Int) := by
  induction l with
  | nil => simp
  | cons t l ih =>
    by_cases htn : t = node
    · subst htn
      simp only [List.filter_cons, Function.update_same, Option.isSome_none, hk,
        List.count_cons_self]
      simp only [Bool.false_eq_true, if_false, if_true, List.length_cons]
      push_cast
      omega
    · have e1 : (Function.update g node none) t = g t := Function.update_noteq htn _ _
      have e2 : List.count node (t :: l) = List.count node l :=
        List.count_cons_of_ne (fun h => htn h.symm) l
      rw [e2]
      by_cases hg : (g t).isSome = true
      · simp only [List.filter_cons, e1, hg, if_true, List.length_cons]
        push_cast
        omega
      · simp only [List.filter_cons, e1, hg]
        exact ih

theorem update_none_eq {n : Nat} (g : GraphMap n) (node y : Fin n) (h : g y = none) :
    Function.update g node none y = none := by
  by_cases hy : y = node
  · subst hy; simp
  · simpa [Function.update_noteq hy] using h

theorem update_none_isSome {n : Nat} (g : GraphMap n) (node u : Fin n)
    (h : (Function.update g node none u).isSome = true) :
    u ≠ node ∧ (g u).isSome = true ∧ Function.update g node none u = g u := by
  by_cases hu : u = node
  · subst hu; simp at h
  · exact ⟨hu, by simpa [Function.update_noteq hu] using h, Function.update_noteq hu _ _⟩

/-- One pass of the body of the inner loop, on a node that is still a key and
whose dependencies have all been processed. -/
theorem visitNode_spec {n : Nat} {a : Arena n} {root : Fin n} {d : Bool} {st : SeqState n}
    (h : Inv a root d st) (cur : List (Fin n)) (node : Fin n)
    (hk : (st.graph node).isSome = true)
    (hd : ∀ y ∈ (a node).Dependencies, st.graph y = none) :
    ∃ st' cur', visitNode a d (st, cur) node = some (st', cur') ∧
      Inv a root d st' ∧ st'.graph = Function.update st.graph node none ∧
      (NeedsUpdate a d node → cur' = cur ++ [node]) ∧
      (¬ NeedsUpdate a d node → cur' = cur) := by
  have hnode : Reachable a root node := h.reach node hk
  -- the structural part of the invariant, for any new tainted set
  have build : ∀ T' : NodeSet n,
      (∀ x, T' x = true ↔ (Reachable a root x ∧ ∃ y, Reachable a root y ∧
        Function.update st.graph node none y = none ∧ ownNeedUpdate a d y = true ∧
        Relation.ReflTransGen (DependsOn a) x y)) →
      Inv a root d
        { graph := Function.update st.graph node none
          indegree := ((st.graph node).getD []).foldl
            (fun indegree tonode => Function.update indegree tonode (indegree tonode - 1))
            st.indegree
          indiredNeedUpdate := T' } := by
    intro T' hT
    refine ⟨?_, ?_, ?_, ?_, ?_, hT⟩
    · intro u hu
      exact h.reach u (update_none_isSome _ _ _ hu).2.1
    · intro u m hu hm
      obtain ⟨_, h2, h3⟩ := update_none_isSome _ _ _ hu
      simp only [h3]
      exact h.adj u m h2 hm
    · intro u m hm
      by_cases hu : u = node
      · subst hu; simp
      · simp only [Function.update_noteq hu]
        exact h.adjz u m hm
    · intro p hp hg y hy
      apply update_none_eq
      by_cases hpn : p = node
      · subst hpn; exact hd y hy
      · exact h.closed p hp (by simpa [Function.update_noteq hpn] using hg) y hy
    · intro m hm
      obtain ⟨_, h2, _⟩ := update_none_isSome _ _ _ hm
      simp only []
      rw [decr_fold, h.indeg m h2, h.adj node m hk (h.reach m h2),
        filter_remove st.graph node hk]
  -- the three branches of the `if`
  by_cases ht : st.indiredNeedUpdate node = true
  · have hN : NeedsUpdate a d node := by
      obtain ⟨_, y, _, _, hy, hxy⟩ := (h.taint node).mp ht
      exact ⟨y, hxy, hy⟩
    refine ⟨_, cur ++ [node], ?_, build st.indiredNeedUpdate ?_, rfl,
      fun _ => rfl, fun hc => absurd hN hc⟩
    · simp [visitNode, ht]
    · intro x
      rw [h.taint x]
      constructor
      · rintro ⟨hx, y, hy, hg, ho, hxy⟩
        exact ⟨hx, y, hy, update_none_eq _ _ _ hg, ho, hxy⟩
      · rintro ⟨hx, y, hy, hg, ho, hxy⟩
        by_cases hyn : y = node
        · subst hyn
          obtain ⟨_, z, hz, hgz, hoz, hyz⟩ := (h.taint y).mp ht
          exact ⟨hx, z, hz, hgz, hoz, hxy.trans hyz⟩
        · exact ⟨hx, y, hy, by simpa [Function.update_noteq hyn] using hg, ho, hxy⟩
  · have htf : st.indiredNeedUpdate node = false := by simpa using ht
    by_cases ho : ownNeedUpdate a d node = true
    · obtain ⟨T', V', e, hT'⟩ := taintOthers_fresh st.graph node st.indiredNeedUpdate
      refine ⟨_, cur ++ [node], ?_, build T' ?_, rfl, fun _ => rfl,
        fun hc => absurd ⟨node, Relation.ReflTransGen.refl, ho⟩ hc⟩
      · simp [visitNode, htf, ho, e]
      · intro x
        rw [hT' x, h.forward_iff hk, h.taint x]
        constructor
        · rintro (⟨hx, y, hy, hg, hoy, hxy⟩ | ⟨hx, hxn⟩)
          · exact ⟨hx, y, hy, update_none_eq _ _ _ hg, hoy, hxy⟩
          · exact ⟨hx, node, hnode, by simp, ho, hxn⟩
        · rintro ⟨hx, y, hy, hg, hoy, hxy⟩
          by_cases hyn : y = node
          · subst hyn
            exact Or.inr ⟨hx, hxy⟩
          · exact Or.inl ⟨hx, y, hy, by simpa [Function.update_noteq hyn] using hg, hoy, hxy⟩
    · have hof : ownNeedUpdate a d node = false := by simpa using ho
      have hN : ¬ NeedsUpdate a d node := by
        rintro ⟨y, hxy, hoy⟩
        rcases Relation.ReflTransGen.cases_head hxy with rfl | ⟨z, hz, hzy⟩
        · exact ho hoy
        · have hzr : Reachable a root z := hnode.tail hz
          have hgy := h.closed_star hzr (hd z hz) hzy
          exact ht ((h.taint node).mpr
            ⟨hnode, y, hzr.trans hzy, hgy, hoy, hxy⟩)
      refine ⟨_, cur, ?_, build st.indiredNeedUpdate ?_, rfl,
        fun hc => absurd hc hN, fun _ => rfl⟩
      · simp [visitNode, htf, hof]
      · intro x
        rw [h.taint x]
        constructor
        · rintro ⟨hx, y, hy, hg, hoy, hxy⟩
          exact ⟨hx, y, hy, update_none_eq _ _ _ hg, hoy, hxy⟩
        · rintro ⟨hx, y, hy, hg, hoy, hxy⟩
          by_cases hyn : y = node
          · subst hyn
            exact absurd hoy ho
          · exact ⟨hx, y, hy, by simpa [Function.update_noteq hyn] using hg, hoy, hxy⟩

open Classical in
/-- A whole round: the nodes of `F` are visited in order; those that need an
update are appended to the round's list in that order. -/
theorem round_spec {n : Nat} {a : Arena n} {root : Fin n} {d : Bool} :
    ∀ (F : List (Fin n)) (st : SeqState n) (cur : List (Fin n)),
      Inv a root d st → F.Nodup →
      (∀ x ∈ F, (st.graph x).isSome = true ∧ ∀ y ∈ (a x).Dependencies, st.graph y = none) →
      ∃ st', F.foldlM (visitNode a d) (st, cur)
          = some (st', cur ++ F.filter (fun x => decide (NeedsUpdate a d x))) ∧
        Inv a root d st' ∧ (∀ u, st'.graph u = if u ∈ F then none else st.graph u) := by
  intro F
  induction F with
  | nil =>
    intro st cur h _ _
    exact ⟨st, by simp [foldlM_nil_some], h, by simp⟩
  | cons x F ih =>
    intro st cur h hnd hF
    obtain ⟨hxk, hxd⟩ := hF x (List.mem_cons_self _ _)
    obtain ⟨st1, cur1, e1, h1, g1, c1, c2⟩ := visitNode_spec h cur x hxk hxd
    have hxF : x ∉ F := (List.nodup_cons.mp hnd).1
    have hF1 : ∀ y ∈ F, (st1.graph y).isSome = true ∧
        ∀ z ∈ (a y).Dependencies, st1.graph z = none := by
      intro y hy
      obtain ⟨hyk, hyd⟩ := hF y (List.mem_cons_of_mem _ hy)
      have hyx : y ≠ x := fun hc => hxF (hc ▸ hy)
      rw [g1]
      exact ⟨by simpa [Function.update_noteq hyx] using hyk,
        fun z hz => update_none_eq _ _ _ (hyd z hz)⟩
    obtain ⟨st2, e2, h2, g2⟩ := ih st1 cur1 h1 (List.nodup_cons.mp hnd).2 hF1
    refine ⟨st2, ?_, h2, ?_⟩
    · rw [foldlM_cons_some, e1]
      simp only [Option.some_bind]
      rw [e2]
      by_cases hN : NeedsUpdate a d x
      · rw [c1 hN]
        simp [List.filter_cons, hN]
      · rw [c2 hN]
        simp [List.filter_cons, hN]
    · intro u
      rw [g2 u, g1]
      by_cases hux : u = x
      · subst hux
        simp
      · by_cases huF : u ∈ F
        · simp [huF]
        · simp [huF, hux, Function.update_noteq hux]

theorem keys_nodup {n : Nat} (g : GraphMap n) : (keys g).Nodup :=
  (List.nodup_finRange n).filter _

theorem mem_keys {n : Nat} (g : GraphMap n) (x : Fin n) :
    x ∈ keys g ↔ (g x).isSome = true := by
  simp [keys, List.mem_finRange]

theorem frontier_nodup {n : Nat} (ord : MapOrder n) (round : Nat) (st : SeqState n) :
    (frontier ord round st).Nodup :=
  (((ord.perm round (keys st.graph)).nodup_iff).mpr (keys_nodup st.graph)).filter _

theorem mem_frontier {n : Nat} {a : Arena n} {root : Fin n} {d : Bool} {st : SeqState n}
    (h : Inv a root d st) (ord : MapOrder n) (round : Nat) (x : Fin n) :
    x ∈ frontier ord round st ↔
      ((st.graph x).isSome = true ∧ ∀ y ∈ (a x).Dependencies, st.graph y = none) := by
  unfold frontier
  rw [List.mem_filter, (ord.perm round (keys st.graph)).mem_iff, mem_keys]
  constructor
  · rintro ⟨hk, hz⟩
    refine ⟨hk, fun y hy => ?_⟩
    have h0 : st.indegree x = 0 := by simpa using hz
    rw [h.indeg x hk] at h0
    have h1 : ((a x).Dependencies.filter (fun y => (st.graph y).isSome)) = [] := by
      apply List.eq_nil_of_length_eq_zero
      exact_mod_cast h0
    have h2 := List.filter_eq_nil_iff.mp h1 y hy
    simpa using h2
  · rintro ⟨hk, hd⟩
    refine ⟨hk, ?_⟩
    have h1 : ((a x).Dependencies.filter (fun y => (st.graph y).isSome)) = [] := by
      apply List.filter_eq_nil_iff.mpr
      intro y hy
      simp [hd y hy]
    simp [h.indeg x hk, h1]

/-- In an acyclic graph a non-empty remaining graph has a node all of whose
dependencies have been processed. -/
theorem exists_frontier {n : Nat} {a : Arena n} {root : Fin n} {d : Bool} {st : SeqState n}
    (h : Inv a root d st) (hac : Acyclic a root) (x0 : Fin n)
    (hx0 : (st.graph x0).isSome = true) :
    ∃ x, (st.graph x).isSome = true ∧ ∀ y ∈ (a x).Dependencies, st.graph y = none := by
  let r : Fin n → Fin n → Prop :=
    fun y x => Reachable a root x ∧ Relation.TransGen (DependsOn a) x y
  haveI : IsTrans (Fin n) r := ⟨fun z y x hzy hyx => ⟨hyx.1, hyx.2.trans hzy.2⟩⟩
  haveI : IsIrrefl (Fin n) r := ⟨fun x hx => hac x hx.1 hx.2⟩
  have wf : WellFounded r := Finite.wellFounded_of_trans_of_irrefl r
  obtain ⟨x, hx, hmin⟩ := wf.has_min {x | (st.graph x).isSome = true} ⟨x0, hx0⟩
  refine ⟨x, hx, fun y hy => ?_⟩
  by_contra hc
  have hyk : (st.graph y).isSome = true := by
    cases hg : st.graph y with
    | none => exact absurd hg hc
    | some l => rfl
  exact hmin y hyk ⟨h.reach x hx, Relation.TransGen.single hy⟩

/-- A node on a dependency cycle is never in the frontier. -/
theorem cycle_not_frontier {n : Nat} {a : Arena n} {root : Fin n} {d : Bool} {st : SeqState n}
    (h : Inv a root d st) (x : Fin n) (hk : (st.graph x).isSome = true)
    (hc : Relation.TransGen (DependsOn a) x x) :
    ¬ (∀ y ∈ (a x).Dependencies, st.graph y = none) := by
  intro hd
  obtain ⟨z, hz, hzx⟩ := Relation.TransGen.head'_iff.mp hc
  have hzr : Reachable a root z := (h.reach x hk).tail hz
  have := h.closed_star hzr (hd z hz) hzx
  rw [this] at hk
  simp at hk

theorem keys_length_lt {n : Nat} (g g' : GraphMap n) (F : List (Fin n))
    (hg : ∀ u, g' u = if u ∈ F then none else g u) (x : Fin n) (hx : x ∈ F)
    (hk : (g x).isSome = true) : (keys g').length < (keys g).length := by
  have e : keys g' = (keys g).filter (fun u => decide (u ∉ F)) := by
    unfold keys
    rw [List.filter_filter]
    apply List.filter_congr
    intro u _
    rw [hg u]
    by_cases hu : u ∈ F <;> simp [hu]
  rw [e]
  apply List.length_filter_lt_length_iff_exists.mpr
  exact ⟨x, (mem_keys g x).mpr hk, by simp [hx]⟩

theorem buildLoop_succ {n : Nat} (a : Arena n) (ord : MapOrder n) (d : Bool)
    (fuel round : Nat) (st : SeqState n) (result : List (List (Fin n))) :
    buildLoop a ord d (fuel + 1) round st result =
      if (keys st.graph).length > 0 then
        if (frontier ord round st).length == 0 then
          some (SeqResult.error "circular dependency detected")
        else
          match (frontier ord round st).foldlM (visitNode a d) (st, []) with
          | none => none
          | some (st', roundNeedUpdateWorkflows) =>
            buildLoop a ord d fuel (round + 1) st'
              (if roundNeedUpdateWorkflows.length != 0 then
                result ++ [roundNeedUpdateWorkflows]
              else result)
      else some (SeqResult.ok result) := rfl

open Classical in
/-- Induction principle for the main loop: a property of the remaining state
and of the levels emitted so far that every round preserves holds of the
returned sequence. The loop returns; it returns a sequence when the graph is
acyclic and the error when a node on a cycle is among the keys. -/
theorem buildLoop_spec {n : Nat} {a : Arena n} {root : Fin n} {d : Bool} (ord : MapOrder n)
    (P : SeqState n → List (List (Fin n)) → Prop)
    (hstep : ∀ (st st' : SeqState n) (result : List (List (Fin n))) (F : List (Fin n)),
      Inv a root d st → P st result → F ≠ [] → F.Nodup →
      (∀ x, x ∈ F ↔
        ((st.graph x).isSome = true ∧ ∀ y ∈ (a x).Dependencies, st.graph y = none)) →
      Inv a root d st' → (∀ u, st'.graph u = if u ∈ F then none else st.graph u) →
      P st' (if (F.filter (fun x => decide (NeedsUpdate a d x))).length != 0 then
          result ++ [F.filter (fun x => decide (NeedsUpdate a d x))]
        else result)) :
    ∀ (fuel round : Nat) (st : SeqState n) (result : List (List (Fin n))),
      (keys st.graph).length < fuel → Inv a root d st → P st result →
      ∃ r, buildLoop a ord d fuel round st result = some r ∧
        (Acyclic a root → ∃ seq st', r = SeqResult.ok seq ∧ Inv a root d st' ∧
          (∀ u, st'.graph u = none) ∧ P st' seq) ∧
        ((∃ x, (st.graph x).isSome = true ∧ Relation.TransGen (DependsOn a) x x) →
          r = SeqResult.error "circular dependency detected") := by
  intro fuel
  induction fuel with
  | zero =>
    intro round st result hf _ _
    omega
  | succ f ih =>
    intro round st result hf h hP
    rw [buildLoop_succ]
    by_cases hkeys : (keys st.graph).length > 0
    · rw [if_pos hkeys]
      by_cases hF : (frontier ord round st).length = 0
      · have hF' : ((frontier ord round st).length == 0) = true := by simp [hF]
        rw [if_pos hF']
        refine ⟨_, rfl, ?_, fun _ => rfl⟩
        intro hac
        exfalso
        obtain ⟨x0, hx0⟩ := List.exists_mem_of_length_pos hkeys
        obtain ⟨x, hx⟩ := exists_frontier h hac x0 ((mem_keys _ _).mp hx0)
        have hxF := (mem_frontier h ord round x).mpr hx
        rw [List.eq_nil_of_length_eq_zero hF] at hxF
        simp at hxF
      · have hF' : ¬ ((frontier ord round st).length == 0) = true := by simp [hF]
        rw [if_neg hF']
        have hFne : frontier ord round st ≠ [] := fun hc => hF (by simp [hc])
        obtain ⟨st', e, h', g'⟩ := round_spec (frontier ord round st) st [] h
          (frontier_nodup ord round st)
          (fun x hx => (mem_frontier h ord round x).mp hx)
        rw [e]
        simp only [List.nil_append]
        obtain ⟨x, hx⟩ := List.exists_mem_of_ne_nil _ hFne
        have hlt := keys_length_lt st.graph st'.graph _ g' x hx
          ((mem_frontier h ord round x).mp hx).1
        have hP' := hstep st st' result _ h hP hFne (frontier_nodup ord round st)
          (mem_frontier h ord round) h' g'
        obtain ⟨r, er, hok, herr⟩ := ih (round + 1) st' _ (by omega) h' hP'
        refine ⟨r, er, hok, ?_⟩
        rintro ⟨y, hy, hcyc⟩
        apply herr
        refine ⟨y, ?_, hcyc⟩
        have hyF : y ∉ frontier ord round st := fun hc =>
          cycle_not_frontier h y hy hcyc ((mem_frontier h ord round y).mp hc).2
        rw [g' y, if_neg hyF]
        exact hy
    · rw [if_neg hkeys]
      have hnil : keys st.graph = [] := by
        apply List.eq_nil_of_length_eq_zero
        omega
      have hnone : ∀ u, st.graph u = none := by
        intro u
        have : u ∉ keys st.graph := by simp [hnil]
        rw [mem_keys] at this
        simpa using this
      refine ⟨_, rfl, fun _ => ⟨result, st, rfl, h, hnone, hP⟩, ?_⟩
      rintro ⟨x, hx, _⟩
      rw [hnone x] at hx
      simp at hx

theorem not_acyclic_iff {n : Nat} (a : Arena n) (root : Fin n) :
    ¬ Acyclic a root ↔ HasCycle a root := by
  unfold Acyclic HasCycle
  push_neg
  rfl

/-- After the two walks the loop invariant holds and the keys of `graph` are
the reachable nodes. -/
theorem initial_inv {n : Nat} (a : Arena n) (root : Fin n) (d : Bool) :
    ∃ G V ind V2,
      buildGraph a (n + 1) root (fun _ => none, fun _ => false) = some (G, V) ∧
      buildInDegree a (n + 1) root (fun _ => 0, fun _ => false) = some (ind, V2) ∧
      Inv a root d { graph := G, indegree := ind, indiredNeedUpdate := fun _ => false } ∧
      (∀ u, (G u).isSome = true ↔ Reachable a root u) := by
  obtain ⟨G, V, eG, hk, hadj, hadjz⟩ := buildGraph_init a root
  obtain ⟨ind, V2, eI, hind⟩ := buildInDegree_init a root
  have hsome : ∀ p, Reachable a root p → G p ≠ none := by
    intro p hp hc
    have := (hk p).mpr hp
    rw [hc] at this
    simp at this
  refine ⟨G, V, ind, V2, eG, eI, ⟨?_, ?_, ?_, ?_, ?_, ?_⟩, hk⟩
  · exact fun u hu => (hk u).mp hu
  · exact fun u m _ hm => hadj u m hm
  · exact fun u m hm => hadjz u m hm
  · exact fun p hp hg => absurd hg (hsome p hp)
  · intro m hm
    have hmr : Reachable a root m := (hk m).mp hm
    have : (a m).Dependencies.filter (fun y => (G y).isSome) = (a m).Dependencies := by
      apply List.filter_eq_self.mpr
      intro y hy
      exact (hk y).mpr (hmr.tail hy)
    simp only [this]
    exact hind m hmr
  · intro x
    constructor
    · intro hx
      simp at hx
    · rintro ⟨_, y, hy, hg, _⟩
      exact absurd hg (hsome y hy)

open Classical in
/-- Induction principle for `caculateBuildSequence`: it always returns; on an
acyclic graph it returns a sequence satisfying every property `P` that holds
initially and is preserved by each round, and on a cyclic graph it returns the
error. -/
theorem caculateBuildSequence_spec {n : Nat} (a : Arena n) (ord : MapOrder n) (root : Fin n)
    (d : Bool) (P : SeqState n → List (List (Fin n)) → Prop)
    (hinit : ∀ st : SeqState n, Inv a root d st →
      (∀ u, (st.graph u).isSome = true ↔ Reachable a root u) → P st [])
    (hstep : ∀ (st st' : SeqState n) (result : List (List (Fin n))) (F : List (Fin n)),
      Inv a root d st → P st result → F ≠ [] → F.Nodup →
      (∀ x, x ∈ F ↔
        ((st.graph x).isSome = true ∧ ∀ y ∈ (a x).Dependencies, st.graph y = none)) →
      Inv a root d st' → (∀ u, st'.graph u = if u ∈ F then none else st.graph u) →
      P st' (if (F.filter (fun x => decide (NeedsUpdate a d x))).length != 0 then
          result ++ [F.filter (fun x => decide (NeedsUpdate a d x))]
        else result)) :
    ∃ r, caculateBuildSequence a ord root d = some r ∧
      (Acyclic a root → ∃ seq st', r = SeqResult.ok seq ∧ Inv a root d st' ∧
        (∀ u, st'.graph u = none) ∧ P st' seq) ∧
      (HasCycle a root → r = SeqResult.error "circular dependency detected") := by
  obtain ⟨G, V, ind, V2, eG, eI, h0, hk⟩ := initial_inv a root d
  have hlen : (keys G).length < n + 1 := by
    have h1 : (keys G).length ≤ (List.finRange n).length := List.length_filter_le _ _
    rw [List.length_finRange] at h1
    omega
  obtain ⟨r, er, hok, herr⟩ := buildLoop_spec ord P hstep (n + 1) 0
    { graph := G, indegree := ind, indiredNeedUpdate := fun _ => false } [] hlen h0
    (hinit _ h0 hk)
  refine ⟨r, ?_, hok, ?_⟩
  · simp only [caculateBuildSequence, eG, eI]
    exact er
  · rintro ⟨x, hx, hc⟩
    exact herr ⟨x, (hk x).mpr hx, hc⟩

theorem RInv.at_start {n : Nat} (a : Arena n) (root : Fin n) (d : Bool) (st : SeqState n)
    (hk : ∀ u, (st.graph u).isSome = true ↔ Reachable a root u) : RInv a root d st [] := by
  refine ⟨by simp, ?_, by simp, by simp, by simp⟩
  intro x
  constructor
  · intro hx
    simp at hx
  · rintro ⟨hx, hg, _⟩
    have := (hk x).mpr hx
    rw [hg] at this
    simp at this

open Classical in
theorem RInv.after_round {n : Nat} {a : Arena n} {root : Fin n} {d : Bool}
    (st st' : SeqState n) (result : List (List (Fin n))) (F : List (Fin n))
    (h : Inv a root d st) (hR : RInv a root d st result) (_ : F ≠ []) (hnd : F.Nodup)
    (hF : ∀ x, x ∈ F ↔
      ((st.graph x).isSome = true ∧ ∀ y ∈ (a x).Dependencies, st.graph y = none))
    (_ : Inv a root d st') (hg : ∀ u, st'.graph u = if u ∈ F then none else st.graph u) :
    RInv a root d st'
      (if (F.filter (fun x => decide (NeedsUpdate a d x))).length != 0 then
          result ++ [F.filter (fun x => decide (NeedsUpdate a d x))]
        else result) := by
  have hsome : ∀ x, x ∈ F → st.graph x ≠ none := by
    intro x hx hc
    have := ((hF x).mp hx).1
    rw [hc] at this
    simp at this
  have hg' : ∀ x, st'.graph x = none ↔ (x ∈ F ∨ st.graph x = none) := by
    intro x
    rw [hg x]
    by_cases hx : x ∈ F <;> simp [hx]
  by_cases hne : (F.filter (fun x => decide (NeedsUpdate a d x))).length = 0
  · have hne' : ¬ ((F.filter (fun x => decide (NeedsUpdate a d x))).length != 0) = true := by
      simp [hne]
    rw [if_neg hne']
    have hnil := List.eq_nil_of_length_eq_zero hne
    refine ⟨hR.nodup, ?_, hR.later, hR.within, hR.nonempty⟩
    intro x
    rw [hR.mem x, hg' x]
    constructor
    · rintro ⟨h1, h2, h3⟩
      exact ⟨h1, Or.inr h2, h3⟩
    · rintro ⟨h1, h2 | h2, h3⟩
      · have : x ∈ F.filter (fun x => decide (NeedsUpdate a d x)) := by
          simp [List.mem_filter, h2, h3]
        rw [hnil] at this
        simp at this
      · exact ⟨h1, h2, h3⟩
  · have hne' : ((F.filter (fun x => decide (NeedsUpdate a d x))).length != 0) = true := by
      simp [hne]
    rw [if_pos hne']
    have hmemF : ∀ x, x ∈ F.filter (fun x => decide (NeedsUpdate a d x)) ↔
        (x ∈ F ∧ NeedsUpdate a d x) := by
      intro x
      simp [List.mem_filter]
    refine ⟨?_, ?_, ?_, ?_, ?_⟩
    · rw [List.flatten_append, List.nodup_append]
      refine ⟨hR.nodup, by simpa using hnd.filter _, ?_⟩
      intro x hx1 hx2
      have h1 := ((hR.mem x).mp hx1).2.1
      have h2 : x ∈ F := by
        have : x ∈ F.filter (fun x => decide (NeedsUpdate a d x)) := by simpa using hx2
        exact ((hmemF x).mp this).1
      exact hsome x h2 h1
    · intro x
      rw [List.flatten_append, List.mem_append, hR.mem x, hg' x]
      have e : x ∈ [F.filter (fun x => decide (NeedsUpdate a d x))].flatten ↔
          (x ∈ F ∧ NeedsUpdate a d x) := by
        simp
      rw [e]
      constructor
      · rintro (⟨h1, h2, h3⟩ | ⟨h1, h2⟩)
        · exact ⟨h1, Or.inr h2, h3⟩
        · exact ⟨h.reach x ((hF x).mp h1).1, Or.inl h1, h2⟩
      · rintro ⟨h1, h2 | h2, h3⟩
        · exact Or.inr ⟨h2, h3⟩
        · exact Or.inl ⟨h1, h2, h3⟩
    · rw [List.pairwise_append]
      refine ⟨hR.later, by simp, ?_⟩
      intro L1 hL1 L2 hL2 x hx y hy hdep
      have hL2' : L2 = F.filter (fun x => decide (NeedsUpdate a d x)) := by simpa using hL2
      subst hL2'
      have hxm := (hR.mem x).mp (List.mem_flatten.mpr ⟨L1, hL1, hx⟩)
      have hyn := h.closed x hxm.1 hxm.2.1 y hdep
      exact hsome y ((hmemF y).mp hy).1 hyn
    · intro L hL x hx y hy hdep
      rcases List.mem_append.mp hL with hL | hL
      · exact hR.within L hL x hx y hy hdep
      · have hL' : L = F.filter (fun x => decide (NeedsUpdate a d x)) := by simpa using hL
        subst hL'
        have hxF := ((hmemF x).mp hx).1
        have hyn := ((hF x).mp hxF).2 y hdep
        exact hsome y ((hmemF y).mp hy).1 hyn
    · intro L hL
      rcases List.mem_append.mp hL with hL | hL
      · exact hR.nonempty L hL
      · have hL' : L = F.filter (fun x => decide (NeedsUpdate a d x)) := by simpa using hL
        subst hL'
        intro hc
        rw [hc] at hne
        simp at hne

/-- Summary of the sequencer on an acyclic graph. -/
theorem caculateBuildSequence_acyclic {n : Nat} (a : Arena n) (ord : MapOrder n)
    (root : Fin n) (d : Bool) (hac : Acyclic a root) :
    ∃ seq, caculateBuildSequence a ord root d = some (SeqResult.ok seq) ∧
      seq.flatten.Nodup ∧
      (∀ x, x ∈ seq.flatten ↔ (Reachable a root x ∧ NeedsUpdate a d x)) ∧
      seq.Pairwise (fun L1 L2 => ∀ x ∈ L1, ∀ y ∈ L2, ¬ DependsOn a x y) ∧
      (∀ L ∈ seq, ∀ x ∈ L, ∀ y ∈ L, ¬ DependsOn a x y) ∧
      (∀ L ∈ seq, L ≠ []) := by
  obtain ⟨r, er, hok, _⟩ := caculateBuildSequence_spec a ord root d (RInv a root d)
    (fun st _ hk => RInv.at_start a root d st hk)
    (fun st st' result F h hR hne hnd hF h' hg => RInv.after_round st st' result F h hR hne hnd hF h' hg)
  obtain ⟨seq, st', rfl, _, hnone, hR⟩ := hok hac
  refine ⟨seq, er, hR.nodup, ?_, hR.later, hR.within, hR.nonempty⟩
  intro x
  rw [hR.mem x]
  constructor
  · rintro ⟨h1, _, h3⟩
    exact ⟨h1, h3⟩
  · rintro ⟨h1, h3⟩
    exact ⟨h1, hnone x, h3⟩

theorem atLevel_mem {n : Nat} {seq : List (List (Fin n))} {i : Nat} {x : Fin n}
    (h : AtLevel seq i x) : x ∈ seq.flatten := by
  obtain ⟨L, hL, hx⟩ := h
  exact List.mem_flatten.mpr ⟨L, List.mem_iff_getElem?.mpr ⟨i, hL⟩, hx⟩

theorem atLevel_of_mem {n : Nat} {seq : List (List (Fin n))} {x : Fin n}
    (h : x ∈ seq.flatten) : ∃ i, AtLevel seq i x := by
  obtain ⟨L, hL, hx⟩ := List.mem_flatten.mp h
  obtain ⟨i, hi⟩ := List.mem_iff_getElem?.mp hL
  exact ⟨i, L, hi, hx⟩

theorem atLevel_unique {n : Nat} {seq : List (List (Fin n))} (hnd : seq.flatten.Nodup)
    {i j : Nat} {x : Fin n} (hi : AtLevel seq i x) (hj : AtLevel seq j x) : i = j := by
  have hpw := (List.nodup_flatten.mp hnd).2
  rw [List.pairwise_iff_getElem] at hpw
  obtain ⟨Li, hLi, hxi⟩ := hi
  obtain ⟨Lj, hLj, hxj⟩ := hj
  obtain ⟨hi', rfl⟩ := List.getElem?_eq_some.mp hLi
  obtain ⟨hj', rfl⟩ := List.getElem?_eq_some.mp hLj
  rcases Nat.lt_trichotomy i j with hlt | heq | hgt
  · exact absurd hxj (List.disjoint_left.mp (hpw i j hi' hj' hlt) hxi)
  · exact heq
  · exact absurd hxi (List.disjoint_left.mp (hpw j i hj' hi' hgt) hxj)

theorem level_lt_of_dep {n : Nat} {a : Arena n} {seq : List (List (Fin n))}
    (hlater : seq.Pairwise (fun L1 L2 => ∀ x ∈ L1, ∀ y ∈ L2, ¬ DependsOn a x y))
    (hwithin : ∀ L ∈ seq, ∀ x ∈ L, ∀ y ∈ L, ¬ DependsOn a x y)
    {i j : Nat} {x y : Fin n} (hi : AtLevel seq i x) (hj : AtLevel seq j y)
    (hdep : DependsOn a x y) : j < i := by
  rw [List.pairwise_iff_getElem] at hlater
  obtain ⟨Li, hLi, hxi⟩ := hi
  obtain ⟨Lj, hLj, hyj⟩ := hj
  obtain ⟨hi', rfl⟩ := List.getElem?_eq_some.mp hLi
  obtain ⟨hj', rfl⟩ := List.getElem?_eq_some.mp hLj
  rcases Nat.lt_trichotomy i j with hlt | heq | hgt
  · exact absurd hdep (hlater i j hi' hj' hlt x hxi y hyj)
  · subst heq
    exact absurd hdep (hwithin _ (List.getElem_mem _) x hxi y hyj)
  · exact hgt

theorem NeedsUpdate.of_dependency {n : Nat} {a : Arena n} {d : Bool} {x y : Fin n}
    (hxy : Relation.ReflTransGen (DependsOn a) x y) (hy : NeedsUpdate a d y) :
    NeedsUpdate a d x := by
  obtain ⟨z, hyz, hz⟩ := hy
  exact ⟨z, hxy.trans hyz, hz⟩

/-- A node needs an update when its own predicate resolves to true or when it
is tainted by a dependency that needs an update. -/
theorem needsUpdate_iff {n : Nat} (a : Arena n) (d : Bool) (x : Fin n) :
    NeedsUpdate a d x ↔
      (ownNeedUpdate a d x = true ∨ ∃ y, DependsOn a x y ∧ NeedsUpdate a d y) := by
  constructor
  · rintro ⟨z, hxz, hz⟩
    rcases Relation.ReflTransGen.cases_head hxz with rfl | ⟨y, hxy, hyz⟩
    · exact Or.inl hz
    · exact Or.inr ⟨y, hxy, z, hyz, hz⟩
  · rintro (h | ⟨y, hxy, hy⟩)
    · exact ⟨x, Relation.ReflTransGen.refl, h⟩
    · exact NeedsUpdate.of_dependency (Relation.ReflTransGen.single hxy) hy

/-- In the returned sequence a node sits strictly later than each of its
transitive dependencies that is also in the sequence. -/
theorem level_lt_of_transDep {n : Nat} {a : Arena n} {root : Fin n} {d : Bool}
    {seq : List (List (Fin n))}
    (hmem : ∀ x, x ∈ seq.flatten ↔ (Reachable a root x ∧ NeedsUpdate a d x))
    (hlater : seq.Pairwise (fun L1 L2 => ∀ x ∈ L1, ∀ y ∈ L2, ¬ DependsOn a x y))
    (hwithin : ∀ L ∈ seq, ∀ x ∈ L, ∀ y ∈ L, ¬ DependsOn a x y)
    {x y : Fin n} (hxy : Relation.TransGen (DependsOn a) x y) :
    ∀ {i j : Nat}, AtLevel seq i x → AtLevel seq j y → j < i := by
  induction hxy using Relation.TransGen.head_induction_on with
  | base hdep =>
    intro i j hi hj
    exact level_lt_of_dep hlater hwithin hi hj hdep
  | @ih x' z hdep hzy ih =>
    intro i j hi hj
    have hx := (hmem x').mp (atLevel_mem hi)
    have hy := (hmem y).mp (atLevel_mem hj)
    have hz : z ∈ seq.flatten :=
      (hmem z).mpr ⟨hx.1.tail hdep, NeedsUpdate.of_dependency hzy.to_reflTransGen hy.2⟩
    obtain ⟨k, hk⟩ := atLevel_of_mem hz
    have h1 : k < i := level_lt_of_dep hlater hwithin hi hk hdep
    have h2 : j < k := ih hk hj
    omega

/-- A rank that decreases along every dependency edge excludes cycles. -/
theorem acyclic_of_rank {n : Nat} (a : Arena n) (root : Fin n) (rank : Fin n → Nat)
    (h : ∀ x, ∀ y ∈ (a x).Dependencies, rank y < rank x) : Acyclic a root := by
  have key : ∀ x y, Relation.TransGen (DependsOn a) x y → rank y < rank x := by
    intro x y hxy
    induction hxy with
    | single hd => exact h _ _ hd
    | tail _ hd ih => exact lt_trans (h _ _ hd) ih
  intro x _ hc
  exact lt_irrefl _ (key x x hc)

theorem keys_congr {n : Nat} (g1 g2 : GraphMap n)
    (h : ∀ u, (g1 u).isSome = (g2 u).isSome) : keys g1 = keys g2 := by
  unfold keys
  apply List.filter_congr
  intro u _
  exact h u

open Classical in
/-- The main loop run under two iteration orders, from states with the same
keys, yields the same levels up to the order inside each level. -/
theorem buildLoop_order {n : Nat} {a : Arena n} {root : Fin n} {d : Bool}
    (ord1 ord2 : MapOrder n) :
    ∀ (fuel round : Nat) (st1 st2 : SeqState n) (res1 res2 : List (List (Fin n))),
      (keys st1.graph).length < fuel → Inv a root d st1 → Inv a root d st2 →
      (∀ u, (st1.graph u).isSome = (st2.graph u).isSome) → SameLevels res1 res2 →
      ∃ o1 o2, buildLoop a ord1 d fuel round st1 res1 = some o1 ∧
        buildLoop a ord2 d fuel round st2 res2 = some o2 ∧ SameResult o1 o2 := by
  intro fuel
  induction fuel with
  | zero =>
    intro round st1 st2 res1 res2 hf
    omega
  | succ f ih =>
    intro round st1 st2 res1 res2 hf h1 h2 hk hres
    have hkeys : keys st1.graph = keys st2.graph := keys_congr _ _ hk
    have hmemF : ∀ x, x ∈ frontier ord1 round st1 ↔ x ∈ frontier ord2 round st2 := by
      intro x
      rw [mem_frontier h1, mem_frontier h2, hk x]
      have : ∀ y, st1.graph y = none ↔ st2.graph y = none := by
        intro y
        have := hk y
        cases h1y : st1.graph y <;> cases h2y : st2.graph y <;> simp [h1y, h2y] at this ⊢
      simp only [this]
    have hperm : (frontier ord1 round st1).Perm (frontier ord2 round st2) :=
      (List.perm_ext_iff_of_nodup (frontier_nodup _ _ _) (frontier_nodup _ _ _)).mpr hmemF
    rw [buildLoop_succ, buildLoop_succ, ← hkeys]
    by_cases hkl : (keys st1.graph).length > 0
    · rw [if_pos hkl, if_pos hkl]
      by_cases hF : (frontier ord1 round st1).length = 0
      · have hF2 : (frontier ord2 round st2).length = 0 := by rw [← hperm.length_eq]; exact hF
        have hF' : ((frontier ord1 round st1).length == 0) = true := by simp [hF]
        have hF2' : ((frontier ord2 round st2).length == 0) = true := by simp [hF2]
        rw [if_pos hF', if_pos hF2']
        exact ⟨_, _, rfl, rfl, Or.inl ⟨rfl, rfl⟩⟩
      · have hF2 : ¬ (frontier ord2 round st2).length = 0 := by rw [← hperm.length_eq]; exact hF
        have hF' : ¬ ((frontier ord1 round st1).length == 0) = true := by simp [hF]
        have hF2' : ¬ ((frontier ord2 round st2).length == 0) = true := by simp [hF2]
        rw [if_neg hF', if_neg hF2']
        obtain ⟨st1', e1, h1', g1'⟩ := round_spec (frontier ord1 round st1) st1 [] h1
          (frontier_nodup ord1 round st1) (fun x hx => (mem_frontier h1 ord1 round x).mp hx)
        obtain ⟨st2', e2, h2', g2'⟩ := round_spec (frontier ord2 round st2) st2 [] h2
          (frontier_nodup ord2 round st2) (fun x hx => (mem_frontier h2 ord2 round x).mp hx)
        rw [e1, e2]
        simp only [List.nil_append]
        have hFne : frontier ord1 round st1 ≠ [] := fun hc => hF (by simp [hc])
        obtain ⟨x, hx⟩ := List.exists_mem_of_ne_nil _ hFne
        have hlt := keys_length_lt st1.graph st1'.graph _ g1' x hx
          ((mem_frontier h1 ord1 round x).mp hx).1
        have hk' : ∀ u, (st1'.graph u).isSome = (st2'.graph u).isSome := by
          intro u
          rw [g1' u, g2' u]
          by_cases hu : u ∈ frontier ord1 round st1
          · rw [if_pos hu, if_pos ((hmemF u).mp hu)]
          · rw [if_neg hu, if_neg (fun hc => hu ((hmemF u).mpr hc))]
            exact hk u
        have hneed : ((frontier ord1 round st1).filter
            (fun x => decide (NeedsUpdate a d x))).Perm
            ((frontier ord2 round st2).filter (fun x => decide (NeedsUpdate a d x))) :=
          hperm.filter _
        have hres' : SameLevels
            (if ((frontier ord1 round st1).filter
                (fun x => decide (NeedsUpdate a d x))).length != 0 then
              res1 ++ [(frontier ord1 round st1).filter (fun x => decide (NeedsUpdate a d x))]
            else res1)
            (if ((frontier ord2 round st2).filter
                (fun x => decide (NeedsUpdate a d x))).length != 0 then
              res2 ++ [(frontier ord2 round st2).filter (fun x => decide (NeedsUpdate a d x))]
            else res2) := by
          rw [← hneed.length_eq]
          split
          · exact List.rel_append hres (List.Forall₂.cons hneed List.Forall₂.nil)
          · exact hres
        exact ih (round + 1) st1' st2' _ _ (by omega) h1' h2' hk' hres'
    · rw [if_neg hkl, if_neg hkl]
      exact ⟨_, _, rfl, rfl, Or.inr ⟨res1, res2, rfl, rfl, hres⟩⟩

/-- The sequence does not depend on the map iteration order, up to the order
of the nodes inside each level. -/
theorem caculateBuildSequence_order {n : Nat} (a : Arena n) (ord1 ord2 : MapOrder n)
    (root : Fin n) (d : Bool) :
    ∃ o1 o2, caculateBuildSequence a ord1 root d = some o1 ∧
      caculateBuildSequence a ord2 root d = some o2 ∧ SameResult o1 o2 := by
  obtain ⟨G, V, ind, V2, eG, eI, h0, hk⟩ := initial_inv a root d
  have hlen : (keys G).length < n + 1 := by
    have h1 : (keys G).length ≤ (List.finRange n).length := List.length_filter_le _ _
    rw [List.length_finRange] at h1
    omega
  obtain ⟨o1, o2, e1, e2, hs⟩ := buildLoop_order ord1 ord2 (n + 1) 0
    { graph := G, indegree := ind, indiredNeedUpdate := fun _ => false }
    { graph := G, indegree := ind, indiredNeedUpdate := fun _ => false } [] []
    hlen h0 h0 (fun _ => rfl) List.Forall₂.nil
  refine ⟨o1, o2, ?_, ?_, hs⟩
  · simp only [caculateBuildSequence, eG, eI]
    exact e1
  · simp only [caculateBuildSequence, eG, eI]
    exact e2

theorem abcIdle_acyclic (root : Fin 3) : Acyclic abcIdle root :=
  acyclic_of_rank abcIdle root (fun x => x.val) (by decide)

theorem abcRoot_acyclic (root : Fin 4) : Acyclic abcRoot root :=
  acyclic_of_rank abcRoot root (fun x => x.val) (by decide)

/-- C2: taint propagation. On an acyclic graph, if `A`'s `needsUpdate` resolves
to true then every reachable node `B` that transitively depends on `A` is in
the returned sequence, whatever its own predicate returns, in a level no
earlier than the level of `A`. -/
theorem taint_propagation {n : Nat} (a : Arena n) (ord : MapOrder n) (root : Fin n)
    (defaultNeedUpdate : Bool) (hac : Acyclic a root) (A B : Fin n)
    (hB : Reachable a root B) (hBA : Relation.TransGen (DependsOn a) B A)
    (hA : NeedsUpdate a defaultNeedUpdate A) :
    ∃ seq, caculateBuildSequence a ord root defaultNeedUpdate = some (SeqResult.ok seq) ∧
      ∃ i j, AtLevel seq i A ∧ AtLevel seq j B ∧ i ≤ j := by
  obtain ⟨seq, e, _, hmem, hlater, hwithin, _⟩ :=
    caculateBuildSequence_acyclic a ord root defaultNeedUpdate hac
  have hAm : A ∈ seq.flatten := (hmem A).mpr ⟨hB.trans hBA.to_reflTransGen, hA⟩
  have hBm : B ∈ seq.flatten :=
    (hmem B).mpr ⟨hB, NeedsUpdate.of_dependency hBA.to_reflTransGen hA⟩
  obtain ⟨i, hi⟩ := atLevel_of_mem hAm
  obtain ⟨j, hj⟩ := atLevel_of_mem hBm
  exact ⟨seq, e, i, j, hi, hj, Nat.le_of_lt (level_lt_of_transDep hmem hlater hwithin hBA hj hi)⟩

theorem taint_propagation_witness :
    Acyclic abcRoot 3 ∧ Reachable abcRoot 3 1 ∧
    Relation.TransGen (DependsOn abcRoot) 1 0 ∧ NeedsUpdate abcRoot false 0 ∧
    ownNeedUpdate abcRoot false 1 = false ∧
    ∃ seq, caculateBuildSequence abcRoot (MapOrder.ascending 4) 3 false
        = some (SeqResult.ok seq) ∧
      ∃ i j, AtLevel seq i 0 ∧ AtLevel seq j 1 ∧ i ≤ j :=
  have hB : Reachable abcRoot 3 1 :=
    Relation.ReflTransGen.single (show (1 : Fin 4) ∈ (abcRoot 3).Dependencies by decide)
  have hBA : Relation.TransGen (DependsOn abcRoot) 1 0 :=
    Relation.TransGen.single (show (0 : Fin 4) ∈ (abcRoot 1).Dependencies by decide)
  have hA : NeedsUpdate abcRoot false 0 := ⟨0, Relation.ReflTransGen.refl, by decide⟩
  ⟨abcRoot_acyclic 3, hB, hBA, hA, by decide,
    taint_propagation abcRoot (MapOrder.ascending 4) 3 false (abcRoot_acyclic 3) 0 1 hB hBA hA⟩

/-- C3: `caculateBuildSequence` always returns; it returns the error
`circular dependency detected`, which carries no sequence, exactly when the
graph reachable from the root has a cycle (a node listing itself as a
dependency is one), and a sequence with no error otherwise. -/
theorem circular_dependency_iff {n : Nat} (a : Arena n) (ord : MapOrder n) (root : Fin n)
    (defaultNeedUpdate : Bool) :
    (caculateBuildSequence a ord root defaultNeedUpdate
        = some (SeqResult.error "circular dependency detected") ↔ HasCycle a root) ∧
    (¬ HasCycle a root →
      ∃ seq, caculateBuildSequence a ord root defaultNeedUpdate = some (SeqResult.ok seq)) ∧
    (∀ x, Reachable a root x → DependsOn a x x →
      caculateBuildSequence a ord root defaultNeedUpdate
        = some (SeqResult.error "circular dependency detected")) := by
  obtain ⟨r, er, hok, herr⟩ := caculateBuildSequence_spec a ord root defaultNeedUpdate
    (fun _ _ => True) (fun _ _ _ => trivial) (fun _ _ _ _ _ _ _ _ _ _ _ => trivial)
  have hiff : caculateBuildSequence a ord root defaultNeedUpdate
      = some (SeqResult.error "circular dependency detected") ↔ HasCycle a root := by
    constructor
    · intro he
      by_contra hc
      have hac : Acyclic a root := by
        by_contra hna
        exact hc ((not_acyclic_iff a root).mp hna)
      obtain ⟨seq, _, rfl, _⟩ := hok hac
      rw [er] at he
      simp at he
    · intro hc
      rw [er, herr hc]
  refine ⟨hiff, ?_, ?_⟩
  · intro hc
    have hac : Acyclic a root := by
      by_contra hna
      exact hc ((not_acyclic_iff a root).mp hna)
    obtain ⟨seq, _, rfl, _⟩ := hok hac
    exact ⟨seq, er⟩
  · intro x hx hxx
    exact hiff.mpr ⟨x, hx, Relation.TransGen.single hxx⟩

/-- C4: on an acyclic graph, in the returned sequence every node sits in a
strictly later level than each of its direct or transitive dependencies that is
also in the sequence; hence no two nodes of one level are joined by a
dependency path. -/
theorem levels_respect_dependencies {n : Nat} (a : Arena n) (ord : MapOrder n)
    (root : Fin n) (defaultNeedUpdate : Bool) (hac : Acyclic a root) :
    ∃ seq, caculateBuildSequence a ord root defaultNeedUpdate = some (SeqResult.ok seq) ∧
      (∀ N D i j, AtLevel seq i N → AtLevel seq j D → DependsOn a N D → j < i) ∧
      (∀ N D i j, AtLevel seq i N → AtLevel seq j D →
        Relation.TransGen (DependsOn a) N D → j < i) ∧
      (∀ i x y, AtLevel seq i x → AtLevel seq i y →
        ¬ Relation.TransGen (DependsOn a) x y) := by
  obtain ⟨seq, e, _, hmem, hlater, hwithin, _⟩ :=
    caculateBuildSequence_acyclic a ord root defaultNeedUpdate hac
  refine ⟨seq, e, ?_, ?_, ?_⟩
  · intro N D i j hi hj hdep
    exact level_lt_of_dep hlater hwithin hi hj hdep
  · intro N D i j hi hj hdep
    exact level_lt_of_transDep hmem hlater hwithin hdep hi hj
  · intro i x y hx hy hdep
    exact lt_irrefl i (level_lt_of_transDep hmem hlater hwithin hdep hx hy)

theorem levels_respect_dependencies_witness :
    Acyclic abcRoot 3 ∧
    ∃ seq, caculateBuildSequence abcRoot (MapOrder.ascending 4) 3 false
        = some (SeqResult.ok seq) ∧
      (∀ N D i j, AtLevel seq i N → AtLevel seq j D → DependsOn abcRoot N D → j < i) ∧
      (∀ N D i j, AtLevel seq i N → AtLevel seq j D →
        Relation.TransGen (DependsOn abcRoot) N D → j < i) ∧
      (∀ i x y, AtLevel seq i x → AtLevel seq i y →
        ¬ Relation.TransGen (DependsOn abcRoot) x y) :=
  ⟨abcRoot_acyclic 3,
    levels_respect_dependencies abcRoot (MapOrder.ascending 4) 3 false (abcRoot_acyclic 3)⟩

theorem sameLevels_three {n : Nat} {s : List (List (Fin n))} {l0 l1 l2 : List (Fin n)}
    (h : SameLevels s [l0, l1, l2]) :
    ∃ m0 m1 m2, s = [m0, m1, m2] ∧ m0.Perm l0 ∧ m1.Perm l1 ∧ m2.Perm l2 := by
  unfold SameLevels at h
  obtain ⟨m0, t0, h0, ht0, rfl⟩ := List.forall₂_cons_right_iff.mp h
  obtain ⟨m1, t1, h1, ht1, rfl⟩ := List.forall₂_cons_right_iff.mp ht0
  obtain ⟨m2, t2, h2, ht2, rfl⟩ := List.forall₂_cons_right_iff.mp ht1
  have := List.forall₂_nil_right_iff.mp ht2
  subst this
  exact ⟨m0, m1, m2, rfl, h0, h1, h2⟩

theorem perm_pair {α : Type} {x y : α} {l : List α} (h : l.Perm [x, y]) :
    l = [x, y] ∨ l = [y, x] := by
  have hlen := h.length_eq
  match l, hlen with
  | [p, q], _ =>
    have hp : p ∈ [x, y] := h.subset (List.mem_cons_self _ _)
    have hq : q ∈ [x, y] := h.subset (List.mem_cons_of_mem _ (List.mem_cons_self _ _))
    have hx : x ∈ [p, q] := h.symm.subset (List.mem_cons_self _ _)
    have hy : y ∈ [p, q] := h.symm.subset (List.mem_cons_of_mem _ (List.mem_cons_self _ _))
    simp only [List.mem_cons, List.mem_singleton, List.not_mem_nil, or_false] at hp hq hx hy
    rcases hp with rfl | rfl
    · rcases hq with rfl | rfl
      · rcases hy with rfl | rfl <;> simp
      · simp
    · rcases hq with rfl | rfl
      · simp
      · rcases hx with rfl | rfl <;> simp

/-- On an acyclic graph none of whose reachable nodes has an own `needsUpdate`
resolving to true, the sequence is empty. -/
theorem caculateBuildSequence_idle {n : Nat} (a : Arena n) (ord : MapOrder n) (root : Fin n)
    (d : Bool) (hac : Acyclic a root)
    (hno : ∀ x, Reachable a root x → ownNeedUpdate a d x = false) :
    caculateBuildSequence a ord root d = some (SeqResult.ok []) := by
  obtain ⟨seq, e, _, hmem, _, _, hne⟩ := caculateBuildSequence_acyclic a ord root d hac
  have hnil : seq = [] := by
    cases seq with
    | nil => rfl
    | cons L rest =>
      exfalso
      obtain ⟨x, hx⟩ := List.exists_mem_of_ne_nil L (hne L (List.mem_cons_self _ _))
      obtain ⟨hxr, y, hxy, hy⟩ :=
        (hmem x).mp (List.mem_flatten.mpr ⟨L, List.mem_cons_self _ _, hx⟩)
      rw [hno y (hxr.trans hxy)] at hy
      simp at hy
  rw [e, hnil]

/-- C5, as stated, fails: whichever of `A`, `B`, `C` is passed as the root, the
sequence computed for the three-node graph is `[[A]]`, `[[A], [B]]` or
`[[A], [C]]`, never `[A]` followed by a level holding both `B` and `C`. -/
theorem abc_sequence_not_two_levels :
    caculateBuildSequence abc (MapOrder.ascending 3) 0 false = some (SeqResult.ok [[0]]) ∧
    caculateBuildSequence abc (MapOrder.ascending 3) 1 false
      = some (SeqResult.ok [[0], [1]]) ∧
    caculateBuildSequence abc (MapOrder.ascending 3) 2 false
      = some (SeqResult.ok [[0], [2]]) ∧
    ¬ ∃ root : Fin 3,
      caculateBuildSequence abc (MapOrder.ascending 3) root false
          = some (SeqResult.ok [[0], [1, 2]]) ∨
      caculateBuildSequence abc (MapOrder.ascending 3) root false
          = some (SeqResult.ok [[0], [2, 1]]) := by
  decide

/-- C5, amended: with a root `R` whose `Dependencies` are `[B, C]` above the
nodes `A`, `B`, `C` and `defaultNeedUpdate = false`, the sequence computed from
`R` is, for every iteration order, exactly three levels: `[A]`, then `B` and
`C` in either order, then `[R]`. -/
theorem abcRoot_sequence (ord : MapOrder 4) :
    caculateBuildSequence abcRoot ord 3 false = some (SeqResult.ok [[0], [1, 2], [3]]) ∨
    caculateBuildSequence abcRoot ord 3 false = some (SeqResult.ok [[0], [2, 1], [3]]) := by
  obtain ⟨o1, o2, e1, e2, hs⟩ :=
    caculateBuildSequence_order abcRoot ord (MapOrder.ascending 4) 3 false
  have hasc : caculateBuildSequence abcRoot (MapOrder.ascending 4) 3 false
      = some (SeqResult.ok [[0], [1, 2], [3]]) := by decide
  rw [hasc] at e2
  have ho2 : o2 = SeqResult.ok [[0], [1, 2], [3]] := (Option.some.inj e2).symm
  subst ho2
  rcases hs with ⟨_, h2⟩ | ⟨s1, s2, rfl, h2, hsame⟩
  · simp at h2
  · have hs2 : s2 = [[0], [1, 2], [3]] := (SeqResult.ok.inj h2).symm
    subst hs2
    obtain ⟨m0, m1, m2, rfl, p0, p1, p2⟩ := sameLevels_three hsame
    rw [List.perm_singleton.mp p0, List.perm_singleton.mp p2] at e1
    rcases perm_pair p1 with rfl | rfl
    · exact Or.inl e1
    · exact Or.inr e1

/-- C6: on an acyclic graph in which no reachable node's own `needsUpdate`
resolves to true, `caculateBuildSequence` returns the empty sequence with no
error and `AllUpToDate` returns `(true, nil)`. -/
theorem nothing_to_update {n : Nat} (a : Arena n) (ord : MapOrder n) (root : Fin n)
    (defaultNeedUpdate : Bool) (hac : Acyclic a root)
    (hno : ∀ x, Reachable a root x → ownNeedUpdate a defaultNeedUpdate x = false) :
    caculateBuildSequence a ord root defaultNeedUpdate = some (SeqResult.ok []) ∧
    AllUpToDate a ord root = some (true, none) := by
  refine ⟨caculateBuildSequence_idle a ord root defaultNeedUpdate hac hno, ?_⟩
  have hno' : ∀ x, Reachable a root x → ownNeedUpdate a false x = false := by
    intro x hx
    have := hno x hx
    unfold ownNeedUpdate at this ⊢
    cases hp : (a x).NeedUpdate with
    | none => rfl
    | some b => simpa [hp] using this
  simp [AllUpToDate, caculateBuildSequence_idle a ord root false hac hno']

theorem nothing_to_update_witness :
    (Acyclic abcIdle 0 ∧ (∀ x, Reachable abcIdle 0 x → ownNeedUpdate abcIdle false x = false) ∧
      caculateBuildSequence abcIdle (MapOrder.ascending 3) 0 false = some (SeqResult.ok []) ∧
      AllUpToDate abcIdle (MapOrder.ascending 3) 0 = some (true, none)) ∧
    (Acyclic abcIdle 1 ∧ (∀ x, Reachable abcIdle 1 x → ownNeedUpdate abcIdle false x = false) ∧
      caculateBuildSequence abcIdle (MapOrder.ascending 3) 1 false = some (SeqResult.ok []) ∧
      AllUpToDate abcIdle (MapOrder.ascending 3) 1 = some (true, none)) ∧
    (Acyclic abcIdle 2 ∧ (∀ x, Reachable abcIdle 2 x → ownNeedUpdate abcIdle false x = false) ∧
      caculateBuildSequence abcIdle (MapOrder.ascending 3) 2 false = some (SeqResult.ok []) ∧
      AllUpToDate abcIdle (MapOrder.ascending 3) 2 = some (true, none)) :=
  have hno : ∀ (root x : Fin 3), Reachable abcIdle root x →
      ownNeedUpdate abcIdle false x = false :=
    fun _ x _ => (by decide : ∀ x : Fin 3, ownNeedUpdate abcIdle false x = false) x
  ⟨⟨abcIdle_acyclic 0, hno 0,
      nothing_to_update abcIdle (MapOrder.ascending 3) 0 false (abcIdle_acyclic 0) (hno 0)⟩,
    ⟨abcIdle_acyclic 1, hno 1,
      nothing_to_update abcIdle (MapOrder.ascending 3) 1 false (abcIdle_acyclic 1) (hno 1)⟩,
    ⟨abcIdle_acyclic 2, hno 2,
      nothing_to_update abcIdle (MapOrder.ascending 3) 2 false (abcIdle_acyclic 2) (hno 2)⟩⟩


/-! ## The workflow runner -/

/-- The sequencer always returns, and returns the error on a cyclic graph. -/
theorem caculateBuildSequence_total {n : Nat} (a : Arena n) (ord : MapOrder n) (root : Fin n)
    (d : Bool) :
    ∃ r, caculateBuildSequence a ord root d = some r ∧
      (HasCycle a root → r = SeqResult.error "circular dependency detected") := by
  obtain ⟨r, er, _, herr⟩ := caculateBuildSequence_spec a ord root d
    (fun _ _ => True) (fun _ _ _ => trivial) (fun _ _ _ _ _ _ _ _ _ _ _ => trivial)
  exact ⟨r, er, herr⟩

theorem startWorkflow_valid {n : Nat} (node : Fin n) (o : WorkflowStartOption n)
    (hdir : o.OutputDir ≠ "") (hfn : o.OutputFileNameFn ≠ none) :
    StartWorkflow node (some o)
      = { handler := some newRunningHandler, err := none, spawned := some (node, o) } := by
  cases hf : o.OutputFileNameFn with
  | none => exact absurd hf hfn
  | some f => simp [StartWorkflow, hdir, hf]

theorem startWorkflow_invalid {n : Nat} (node : Fin n) (o : WorkflowStartOption n)
    (h : o.OutputDir = "" ∨ o.OutputFileNameFn = none) :
    StartWorkflow node (some o)
      = { handler := none, err := some "invalid workflow start option", spawned := none } := by
  rcases h with h | h
  · simp [StartWorkflow, h]
  · simp [StartWorkflow, h]

/-- C18: `StartWorkflow` returns a nil handle and a non-nil error exactly when
the option is nil, its `OutputDir` is empty or its `OutputFileNameFn` is nil;
it then returns before the `go` statement, so that no background task exists:
the build sequence is not computed and nothing of a node runs. Otherwise it
returns a handle and a nil error, and has started the background task. -/
theorem startWorkflow_validation {n : Nat} (a : Arena n) (ord : MapOrder n)
    (hooks : Fin n → NodeHooks) (env : RunEnv n) (node : Fin n)
    (opt : Option (WorkflowStartOption n)) :
    (((StartWorkflow node opt).handler = none ∧ (StartWorkflow node opt).err ≠ none) ↔
      (opt = none ∨ ∃ o, opt = some o ∧ (o.OutputDir = "" ∨ o.OutputFileNameFn = none))) ∧
    ((opt = none ∨ ∃ o, opt = some o ∧ (o.OutputDir = "" ∨ o.OutputFileNameFn = none)) →
      (StartWorkflow node opt).handler = none ∧
      (StartWorkflow node opt).err = some "invalid workflow start option" ∧
      (StartWorkflow node opt).spawned = none ∧
      startTrace a ord hooks env node opt = some []) ∧
    (¬ (opt = none ∨ ∃ o, opt = some o ∧ (o.OutputDir = "" ∨ o.OutputFileNameFn = none)) →
      ∃ o, opt = some o ∧
        (StartWorkflow node opt).handler = some newRunningHandler ∧
        (StartWorkflow node opt).err = none ∧
        (StartWorkflow node opt).spawned = some (node, o)) := by
  have hbad : (opt = none ∨ ∃ o, opt = some o ∧ (o.OutputDir = "" ∨ o.OutputFileNameFn = none)) →
      StartWorkflow node opt
        = { handler := none, err := some "invalid workflow start option", spawned := none } := by
    rintro (h | ⟨o, h, ho⟩)
    · subst h
      rfl
    · subst h
      exact startWorkflow_invalid node o ho
  have hgood :
      ¬ (opt = none ∨ ∃ o, opt = some o ∧ (o.OutputDir = "" ∨ o.OutputFileNameFn = none)) →
      ∃ o, opt = some o ∧ StartWorkflow node opt
        = { handler := some newRunningHandler, err := none, spawned := some (node, o) } := by
    intro h
    cases opt with
    | none => exact absurd (Or.inl rfl) h
    | some o =>
      refine ⟨o, rfl, startWorkflow_valid node o ?_ ?_⟩
      · intro hd
        exact h (Or.inr ⟨o, rfl, Or.inl hd⟩)
      · intro hf
        exact h (Or.inr ⟨o, rfl, Or.inr hf⟩)
  refine ⟨⟨?_, ?_⟩, ?_, ?_⟩
  · rintro ⟨hh, _⟩
    by_contra hc
    obtain ⟨o, _, e⟩ := hgood hc
    rw [e] at hh
    simp at hh
  · intro h
    rw [hbad h]
    simp
  · intro h
    simp [startTrace, hbad h]
  · intro h
    obtain ⟨o, ho, e⟩ := hgood h
    exact ⟨o, ho, by rw [e], by rw [e], by rw [e]⟩

theorem runLevel_append {n : Nat} (hooks : Fin n → NodeHooks) (env : RunEnv n)
    (opt : WorkflowStartOption n) (L R : List (Fin n)) (k : Nat) :
    runLevel hooks env opt k (L ++ R)
      = match (runLevel hooks env opt k L).2 with
        | none => ((runLevel hooks env opt k L).1, none)
        | some k' =>
          ((runLevel hooks env opt k L).1 ++ (runLevel hooks env opt k' R).1,
            (runLevel hooks env opt k' R).2) := by
  induction L generalizing k with
  | nil => simp [runLevel]
  | cons x L ih =>
    by_cases hx : (runNode hooks env opt k x).2 = true
    · rw [List.cons_append]
      simp only [runLevel, hx, if_true]
      rw [ih (k + 1)]
      cases h2 : (runLevel hooks env opt (k + 1) L).2 with
      | none => simp
      | some k' => simp
    · simp [runLevel, hx]

/-- The two nested loops walk the nodes of the sequence in flattened order, and
`nil` is sent on `finish` if no iteration returns. -/
theorem runLevels_flatten {n : Nat} (hooks : Fin n → NodeHooks) (env : RunEnv n)
    (opt : WorkflowStartOption n) (sequence : List (List (Fin n))) (k : Nat) :
    runLevels hooks env opt k sequence
      = (runLevel hooks env opt k sequence.flatten).1 ++
          (if ((runLevel hooks env opt k sequence.flatten).2).isSome then [Event.finish none]
            else []) := by
  induction sequence generalizing k with
  | nil => simp [runLevels, runLevel]
  | cons L sequence ih =>
    rw [List.flatten_cons, runLevel_append]
    cases h2 : (runLevel hooks env opt k L).2 with
    | none => simp [runLevels, h2]
    | some k' => simp [runLevels, h2, ih k']

theorem runNode_denied {n : Nat} (hooks : Fin n → NodeHooks) (env : RunEnv n)
    (opt : WorkflowStartOption n) (err : String)
    (hfail : ∀ k, env.MkdirAll k opt.OutputDir = some err) (k : Nat) (node : Fin n) :
    runNode hooks env opt k node
      = if noHooks hooks node then ([Event.skip node], true)
        else ([Event.mkdir opt.OutputDir, Event.finish (some err)], false) := by
  by_cases h : noHooks hooks node = true
  · simp [runNode, h]
  · simp [runNode, h, newRunnintCtx, hfail k]

theorem runLevel_denied {n : Nat} (hooks : Fin n → NodeHooks) (env : RunEnv n)
    (opt : WorkflowStartOption n) (err : String)
    (hfail : ∀ k, env.MkdirAll k opt.OutputDir = some err) (nodes : List (Fin n)) (k : Nat) :
    runLevel hooks env opt k nodes
      = ((nodes.takeWhile (noHooks hooks)).map Event.skip ++
          (if nodes.all (noHooks hooks) then []
            else [Event.mkdir opt.OutputDir, Event.finish (some err)]),
         if nodes.all (noHooks hooks) then some (k + nodes.length) else none) := by
  induction nodes generalizing k with
  | nil => simp [runLevel]
  | cons x nodes ih =>
    by_cases h : noHooks hooks x = true
    · simp only [runLevel, runNode_denied hooks env opt err hfail, h, if_true, ih (k + 1),
        List.takeWhile_cons, List.map_cons, List.all_cons, Bool.true_and, List.length_cons]
      by_cases h2 : nodes.all (noHooks hooks) = true
      · simp [h2]
        omega
      · simp [h2]
    · simp [runLevel, runNode_denied hooks env opt err hfail, h]

/-- C19, as stated, fails: with an output directory that cannot be created,
`StartWorkflow` on node `B` of the graph `abc` returns a handle and a nil
error; the build sequence is computed on the background task, and the failure
of `os.MkdirAll` is sent on `finish` from there. -/
theorem mkdir_failure_not_synchronous :
    (StartWorkflow (1 : Fin 3) (some outOption)).handler = some newRunningHandler ∧
    (StartWorkflow (1 : Fin 3) (some outOption)).err = none ∧
    startTrace abc (MapOrder.ascending 3) mainOnly deniedEnv 1 (some outOption)
      = some [Event.sequence false, Event.mkdir "out",
              Event.finish (some "permission denied")] := by
  decide

/-- C19, amended: with valid options and an output directory that cannot be
created, `StartWorkflow` returns a handle and a nil error; the background task
computes the build sequence, skips the nodes without hooks, and at the first
node with a hook sends the error of `os.MkdirAll` on `finish` and returns,
with no log file opened, no context created and no node run; if the sequence
holds no node with a hook the directory is never created and `nil` is sent. -/
theorem mkdir_failure_on_finish {n : Nat} (a : Arena n) (ord : MapOrder n)
    (hooks : Fin n → NodeHooks) (env : RunEnv n) (node : Fin n)
    (o : WorkflowStartOption n) (err : String)
    (hdir : o.OutputDir ≠ "") (hfn : o.OutputFileNameFn ≠ none)
    (hfail : ∀ k, env.MkdirAll k o.OutputDir = some err) :
    (StartWorkflow node (some o)).handler = some newRunningHandler ∧
    (StartWorkflow node (some o)).err = none ∧
    ∃ r, caculateBuildSequence a ord node o.NeedUpdateDefault = some r ∧
      startTrace a ord hooks env node (some o)
        = some (Event.sequence o.NeedUpdateDefault ::
            match r with
            | SeqResult.error msg => [Event.finish (some msg)]
            | SeqResult.ok sequence =>
              (sequence.flatten.takeWhile (noHooks hooks)).map Event.skip ++
                (if sequence.flatten.all (noHooks hooks) then [Event.finish none]
                  else [Event.mkdir o.OutputDir, Event.finish (some err)])) := by
  have hs := startWorkflow_valid node o hdir hfn
  obtain ⟨r, er, _⟩ := caculateBuildSequence_total a ord node o.NeedUpdateDefault
  refine ⟨by rw [hs], by rw [hs], r, er, ?_⟩
  simp only [startTrace, hs, workflowRun, er, Option.map_some']
  cases r with
  | error msg => rfl
  | ok sequence =>
    simp only [runLevels_flatten, runLevel_denied hooks env o err hfail]
    by_cases h2 : sequence.flatten.all (noHooks hooks) = true
    · simp [h2]
    · simp [h2]

/-- C19 on the graph `abc` from node `B`: the sequence is `[[A], [B]]`, node `A`
has a main action, and the failure to create `out` is the value on `finish`. -/
theorem mkdir_failure_on_finish_witness :
    (outOption : WorkflowStartOption 3).OutputDir ≠ "" ∧
    (∀ k, (deniedEnv : RunEnv 3).MkdirAll k (outOption : WorkflowStartOption 3).OutputDir
      = some "permission denied") ∧
    (StartWorkflow (1 : Fin 3) (some outOption)).handler = some newRunningHandler ∧
    (StartWorkflow (1 : Fin 3) (some outOption)).err = none :=
  ⟨by decide, fun _ => rfl,
    (mkdir_failure_on_finish abc (MapOrder.ascending 3) mainOnly deniedEnv 1 outOption
      "permission denied" (by decide) (by simp [outOption]) (fun _ => rfl)).1,
    (mkdir_failure_on_finish abc (MapOrder.ascending 3) mainOnly deniedEnv 1 outOption
      "permission denied" (by decide) (by simp [outOption]) (fun _ => rfl)).2.1⟩

/-- C20: when the graph reachable from the root has a dependency cycle, a run
started with valid options computes the sequence and sends the error
`circular dependency detected` on `finish`, once, and does nothing else: no
directory or log file is created, no context is built, `ctx.Run()` is never
called and no node is even skipped. -/
theorem cycle_reported_once {n : Nat} (a : Arena n) (ord : MapOrder n)
    (hooks : Fin n → NodeHooks) (env : RunEnv n) (node : Fin n)
    (o : WorkflowStartOption n)
    (hdir : o.OutputDir ≠ "") (hfn : o.OutputFileNameFn ≠ none) (hc : HasCycle a node) :
    (StartWorkflow node (some o)).handler = some newRunningHandler ∧
    (StartWorkflow node (some o)).err = none ∧
    ∃ tr, startTrace a ord hooks env node (some o) = some tr ∧
      tr = [Event.sequence o.NeedUpdateDefault,
            Event.finish (some "circular dependency detected")] ∧
      finishValues tr = [some "circular dependency detected"] ∧
      (∀ e ∈ tr, Event.executes e = false) := by
  have hs := startWorkflow_valid node o hdir hfn
  obtain ⟨r, er, herr⟩ := caculateBuildSequence_total a ord node o.NeedUpdateDefault
  have hr := herr hc
  subst hr
  refine ⟨by rw [hs], by rw [hs], _, ?_, rfl, ?_, ?_⟩
  · simp only [startTrace, hs, workflowRun, er, Option.map_some']
  · simp [finishValues]
  · intro e he
    simp only [List.mem_cons, List.mem_singleton, List.not_mem_nil, or_false] at he
    rcases he with he | he <;> subst he <;> rfl

/-- C20 on a node that lists itself as a dependency. -/
theorem cycle_reported_once_witness :
    HasCycle selfLoop 0 ∧
    startTrace selfLoop (MapOrder.ascending 1) mainOnly calmEnv 0 (some outOption)
      = some [Event.sequence false, Event.finish (some "circular dependency detected")] :=
  have hc : HasCycle selfLoop 0 :=
    ⟨0, Relation.ReflTransGen.refl,
      Relation.TransGen.single (show (0 : Fin 1) ∈ (selfLoop 0).Dependencies by decide)⟩
  ⟨hc, by
    obtain ⟨_, _, tr, e1, e2, _⟩ :=
      cycle_reported_once selfLoop (MapOrder.ascending 1) mainOnly calmEnv 0 outOption
        (by decide) (by simp [outOption]) hc
    rw [e1, e2]
    rfl⟩


/-! ## Shape of the build sequence -/

theorem sameLevels_atLevel {n : Nat} {s1 s2 : List (List (Fin n))} (h : SameLevels s1 s2) :
    s1.length = s2.length ∧ ∀ i x, AtLevel s1 i x ↔ AtLevel s2 i x := by
  unfold SameLevels at h
  induction h with
  | nil => exact ⟨rfl, fun i x => Iff.rfl⟩
  | @cons L1 L2 t1 t2 hp _ ih =>
    refine ⟨by simp [ih.1], ?_⟩
    intro i x
    cases i with
    | zero =>
      simp only [AtLevel, List.getElem?_cons_zero, Option.some.injEq, exists_eq_left']
      exact hp.mem_iff
    | succ i =>
      have := ih.2 i x
      simpa only [AtLevel, List.getElem?_cons_succ] using this

/-- C25, as stated, fails: on the graph `abcRoot` from its root, a computation
that iterates the graph map by increasing index returns `[[A], [B, C], [R]]`
and one that iterates it by decreasing index returns `[[A], [C, B], [R]]`. -/
theorem level_order_not_stable :
    caculateBuildSequence abcRoot (MapOrder.ascending 4) 3 false
      = some (SeqResult.ok [[0], [1, 2], [3]]) ∧
    caculateBuildSequence abcRoot (MapOrder.descending 4) 3 false
      = some (SeqResult.ok [[0], [2, 1], [3]]) ∧
    caculateBuildSequence abcRoot (MapOrder.ascending 4) 3 false
      ≠ caculateBuildSequence abcRoot (MapOrder.descending 4) 3 false := by
  decide

/-- C25, amended: two computations on the same graph with the same predicate
results and the same `defaultNeedUpdate` both return the error or both return
a sequence; the two sequences have the same number of levels and every node
sits at the same level index in both; the order inside a level is the order
in which the map iteration yields the nodes, so that two computations which
iterate the map in the same order return identical sequences. -/
theorem level_order_follows_map_order {n : Nat} (a : Arena n) (ord1 ord2 : MapOrder n)
    (root : Fin n) (defaultNeedUpdate : Bool) :
    ((∀ round ks, ord1.iter round ks = ord2.iter round ks) →
      caculateBuildSequence a ord1 root defaultNeedUpdate
        = caculateBuildSequence a ord2 root defaultNeedUpdate) ∧
    ∃ o1 o2, caculateBuildSequence a ord1 root defaultNeedUpdate = some o1 ∧
      caculateBuildSequence a ord2 root defaultNeedUpdate = some o2 ∧
      ((o1 = SeqResult.error "circular dependency detected" ∧
          o2 = SeqResult.error "circular dependency detected") ∨
        ∃ s1 s2, o1 = SeqResult.ok s1 ∧ o2 = SeqResult.ok s2 ∧
          s1.length = s2.length ∧ ∀ i x, AtLevel s1 i x ↔ AtLevel s2 i x) := by
  constructor
  · intro h
    have e : ord1 = ord2 := by
      cases ord1 with
      | mk i1 p1 =>
        cases ord2 with
        | mk i2 p2 =>
          have hi : i1 = i2 := funext (fun r => funext (fun ks => h r ks))
          subst hi
          rfl
    rw [e]
  · obtain ⟨o1, o2, e1, e2, hs⟩ := caculateBuildSequence_order a ord1 ord2 root defaultNeedUpdate
    refine ⟨o1, o2, e1, e2, ?_⟩
    rcases hs with h | ⟨s1, s2, h1, h2, h3⟩
    · exact Or.inl h
    · exact Or.inr ⟨s1, s2, h1, h2, sameLevels_atLevel h3⟩

/-- C27: on an acyclic graph any two orders of iterating the graph map give
sequences with the same number of levels whose levels at equal index are
permutations of each other, hence hold the same nodes. -/
theorem level_content_order_independent {n : Nat} (a : Arena n) (ord1 ord2 : MapOrder n)
    (root : Fin n) (defaultNeedUpdate : Bool) (hac : Acyclic a root) :
    ∃ s1 s2, caculateBuildSequence a ord1 root defaultNeedUpdate = some (SeqResult.ok s1) ∧
      caculateBuildSequence a ord2 root defaultNeedUpdate = some (SeqResult.ok s2) ∧
      s1.length = s2.length ∧
      List.Forall₂ List.Perm s1 s2 ∧
      (∀ (i : Nat) (L1 L2 : List (Fin n)), s1[i]? = some L1 → s2[i]? = some L2 →
        ∀ x, x ∈ L1 ↔ x ∈ L2) := by
  obtain ⟨t1, f1, _⟩ := caculateBuildSequence_acyclic a ord1 root defaultNeedUpdate hac
  obtain ⟨o1, o2, e1, e2, hs⟩ := caculateBuildSequence_order a ord1 ord2 root defaultNeedUpdate
  rcases hs with ⟨h1, _⟩ | ⟨s1, s2, h1, h2, h3⟩
  · rw [f1, h1] at e1
    simp at e1
  · subst h1 h2
    refine ⟨s1, s2, e1, e2, (sameLevels_atLevel h3).1, h3, ?_⟩
    intro i L1 L2 hL1 hL2 x
    have hx := (sameLevels_atLevel h3).2 i x
    simp only [AtLevel, hL1, hL2, Option.some.injEq, exists_eq_left'] at hx
    exact hx

/-- C27 on the graph `abcRoot`, iterated by increasing and by decreasing
index. -/
theorem level_content_order_independent_witness :
    Acyclic abcRoot 3 ∧
    ∃ s1 s2,
      caculateBuildSequence abcRoot (MapOrder.ascending 4) 3 false = some (SeqResult.ok s1) ∧
      caculateBuildSequence abcRoot (MapOrder.descending 4) 3 false = some (SeqResult.ok s2) ∧
      s1.length = s2.length ∧ List.Forall₂ List.Perm s1 s2 :=
  ⟨abcRoot_acyclic 3, by
    obtain ⟨s1, s2, e1, e2, hl, hp, _⟩ :=
      level_content_order_independent abcRoot (MapOrder.ascending 4) (MapOrder.descending 4)
        3 false (abcRoot_acyclic 3)
    exact ⟨s1, s2, e1, e2, hl, hp⟩⟩

theorem eq_singleton_of_nodup {α : Type} {L : List α} {r : α} (hne : L ≠ [])
    (hnd : L.Nodup) (hall : ∀ z ∈ L, z = r) : L = [r] := by
  match L, hne, hnd, hall with
  | [z], _, _, hall =>
    rw [hall z (List.mem_cons_self _ _)]
  | z1 :: z2 :: rest, _, hnd, hall =>
    exfalso
    have h1 := hall z1 (List.mem_cons_self _ _)
    have h2 := hall z2 (List.mem_cons_of_mem _ (List.mem_cons_self _ _))
    rw [List.nodup_cons] at hnd
    exact hnd.1 (by rw [h1, h2]; exact List.mem_cons_self _ _)

/-- C28: on an acyclic graph the sequencer returns a sequence, and whenever
that sequence is not empty the root is in it and its last level is the root
alone; every other node of the sequence sits at a strictly lower level
index. -/
theorem root_alone_in_last_level {n : Nat} (a : Arena n) (ord : MapOrder n) (root : Fin n)
    (defaultNeedUpdate : Bool) (hac : Acyclic a root) :
    ∃ seq, caculateBuildSequence a ord root defaultNeedUpdate = some (SeqResult.ok seq) ∧
      (seq ≠ [] →
        root ∈ seq.flatten ∧ seq.getLast? = some [root] ∧
        AtLevel seq (seq.length - 1) root ∧
        ∀ i x, AtLevel seq i x → x ≠ root → i < seq.length - 1) := by
  obtain ⟨seq, e, hnd, hmem, hlater, hwithin, hne⟩ :=
    caculateBuildSequence_acyclic a ord root defaultNeedUpdate hac
  refine ⟨seq, e, ?_⟩
  intro hseq
  -- some node of the sequence needs an update, hence so does the root
  obtain ⟨L0, hL0⟩ := List.exists_mem_of_ne_nil seq hseq
  obtain ⟨x0, hx0⟩ := List.exists_mem_of_ne_nil L0 (hne L0 hL0)
  have hx0m : x0 ∈ seq.flatten := List.mem_flatten.mpr ⟨L0, hL0, hx0⟩
  obtain ⟨hr0, hn0⟩ := (hmem x0).mp hx0m
  have hroot : root ∈ seq.flatten :=
    (hmem root).mpr ⟨Relation.ReflTransGen.refl, NeedsUpdate.of_dependency hr0 hn0⟩
  obtain ⟨i0, hi0⟩ := atLevel_of_mem hroot
  -- every other node is strictly below the root
  have hbelow : ∀ i x, AtLevel seq i x → x ≠ root → i < i0 := by
    intro i x hx hxr
    have hxm := atLevel_mem hx
    obtain ⟨hrx, _⟩ := (hmem x).mp hxm
    have ht : Relation.TransGen (DependsOn a) root x := by
      rcases Relation.reflTransGen_iff_eq_or_transGen.mp hrx with h | h
      · exact absurd h hxr
      · exact h
    exact level_lt_of_transDep hmem hlater hwithin ht hi0 hx
  -- the last level
  have hlen : 0 < seq.length := List.length_pos.mpr hseq
  have hlast : seq.length - 1 < seq.length := by omega
  have hLm : seq[seq.length - 1]? = some (seq[seq.length - 1]) :=
    List.getElem?_eq_getElem hlast
  have hLmem : seq[seq.length - 1] ∈ seq := List.getElem_mem hlast
  have hi0lt : i0 < seq.length := by
    obtain ⟨L, hL, _⟩ := hi0
    exact (List.getElem?_eq_some.mp hL).1
  have hall : ∀ z ∈ seq[seq.length - 1], z = root := by
    intro z hz
    by_contra hzr
    have := hbelow (seq.length - 1) z ⟨_, hLm, hz⟩ hzr
    omega
  have hndL : (seq[seq.length - 1]).Nodup :=
    (List.nodup_flatten.mp hnd).1 _ hLmem
  have hLeq : seq[seq.length - 1] = [root] :=
    eq_singleton_of_nodup (hne _ hLmem) hndL hall
  have hat : AtLevel seq (seq.length - 1) root :=
    ⟨_, hLm, by rw [hLeq]; exact List.mem_cons_self _ _⟩
  have hi0eq : i0 = seq.length - 1 := atLevel_unique hnd hi0 hat
  refine ⟨hroot, ?_, hat, ?_⟩
  · rw [List.getLast?_eq_getElem?, hLm, hLeq]
  · intro i x hx hxr
    rw [← hi0eq]
    exact hbelow i x hx hxr

/-- C28 on the graph `abcRoot`: the sequence from `R` is not empty and ends
with the level `[R]`. -/
theorem root_alone_in_last_level_witness :
    Acyclic abcRoot 3 ∧
    ∃ seq, caculateBuildSequence abcRoot (MapOrder.ascending 4) 3 false
        = some (SeqResult.ok seq) ∧ seq ≠ [] ∧ seq.getLast? = some [3] :=
  ⟨abcRoot_acyclic 3, by
    obtain ⟨seq, e, h⟩ :=
      root_alone_in_last_level abcRoot (MapOrder.ascending 4) 3 false (abcRoot_acyclic 3)
    have hne : seq ≠ [] := by
      intro hc
      rw [hc] at e
      revert e
      decide
    exact ⟨seq, e, hne, (h hne).2.1⟩⟩

/-! ## Shape of a run -/

theorem finishValues_append {n : Nat} (l1 l2 : List (Event n)) :
    finishValues (l1 ++ l2) = finishValues l1 ++ finishValues l2 := by
  induction l1 with
  | nil => rfl
  | cons e l1 ih => cases e <;> simp [finishValues, ih]

theorem finishValues_quiet {n : Nat} (l : List (Event n))
    (h : ∀ e ∈ l, Event.quiet e = true) : finishValues l = [] := by
  induction l with
  | nil => rfl
  | cons e l ih =>
    have he := h e (List.mem_cons_self _ _)
    have hl := ih (fun e' he' => h e' (List.mem_cons_of_mem _ he'))
    cases e <;> simp_all [finishValues, Event.quiet]

/-- One iteration of the inner loop either goes on after quiet events only, or
returns after quiet events followed by one of the endings. -/
theorem runNode_shape {n : Nat} (hooks : Fin n → NodeHooks) (env : RunEnv n)
    (opt : WorkflowStartOption n) (k : Nat) (x : Fin n) :
    ((runNode hooks env opt k x).2 = true ∧
      ∀ e ∈ (runNode hooks env opt k x).1, Event.quiet e = true) ∨
    ((runNode hooks env opt k x).2 = false ∧
      ∃ pre tail, (runNode hooks env opt k x).1 = pre ++ tail ∧
        (∀ e ∈ pre, Event.quiet e = true) ∧ Ending env opt tail ∧
        tail ≠ [Event.finish none]) := by
  by_cases hh : noHooks hooks x = true
  · left
    simp [runNode, hh, Event.quiet]
  · cases hmk : env.MkdirAll k opt.OutputDir with
    | some err =>
      right
      refine ⟨by simp [runNode, hh, newRunnintCtx, hmk], [Event.mkdir opt.OutputDir],
        [Event.finish (some err)], by simp [runNode, hh, newRunnintCtx, hmk],
        by simp [Event.quiet], Ending.error err, by simp⟩
    | none =>
      cases hfn : opt.OutputFileNameFn with
      | none =>
        right
        refine ⟨by simp [runNode, hh, newRunnintCtx, hmk, hfn], [Event.mkdir opt.OutputDir],
          [Event.nilCall x], by simp [runNode, hh, newRunnintCtx, hmk, hfn],
          by simp [Event.quiet], Ending.nilCall x hfn, by simp⟩
      | some fileName =>
        cases hop : env.OpenFile k (opt.OutputDir ++ "/" ++ fileName x) with
        | some err =>
          right
          refine ⟨by simp [runNode, hh, newRunnintCtx, hmk, hfn, hop],
            [Event.mkdir opt.OutputDir, Event.openFile (opt.OutputDir ++ "/" ++ fileName x)],
            [Event.finish (some err)], by simp [runNode, hh, newRunnintCtx, hmk, hfn, hop],
            by simp [Event.quiet], Ending.error err, by simp⟩
        | none =>
          cases hsig : env.signal k with
          | stop =>
            right
            refine ⟨by simp [runNode, hh, newRunnintCtx, hmk, hfn, hop, hsig],
              [Event.mkdir opt.OutputDir, Event.openFile (opt.OutputDir ++ "/" ++ fileName x),
                Event.context x],
              [Event.run x (env.ctxRun k x), Event.stopped x],
              by simp [runNode, hh, newRunnintCtx, hmk, hfn, hop, hsig],
              by simp [Event.quiet], Ending.stop k x hsig, by simp⟩
          | kill =>
            right
            refine ⟨by simp [runNode, hh, newRunnintCtx, hmk, hfn, hop, hsig],
              [Event.mkdir opt.OutputDir, Event.openFile (opt.OutputDir ++ "/" ++ fileName x),
                Event.context x],
              [Event.run x (env.ctxRun k x), Event.killed x],
              by simp [runNode, hh, newRunnintCtx, hmk, hfn, hop, hsig],
              by simp [Event.quiet], Ending.kill k x hsig, by simp⟩
          | quiet =>
            cases hrun : env.ctxRun k x with
            | some err =>
              right
              refine ⟨by simp [runNode, hh, newRunnintCtx, hmk, hfn, hop, hsig, hrun],
                [Event.mkdir opt.OutputDir,
                  Event.openFile (opt.OutputDir ++ "/" ++ fileName x), Event.context x],
                [Event.run x (some err), Event.finish (some err)],
                by simp [runNode, hh, newRunnintCtx, hmk, hfn, hop, hsig, hrun],
                by simp [Event.quiet], Ending.failure k x err hsig hrun, by simp⟩
            | none =>
              left
              simp [runNode, hh, newRunnintCtx, hmk, hfn, hop, hsig, hrun, Event.quiet]

theorem runLevel_shape {n : Nat} (hooks : Fin n → NodeHooks) (env : RunEnv n)
    (opt : WorkflowStartOption n) (nodes : List (Fin n)) (k : Nat) :
    (((runLevel hooks env opt k nodes).2).isSome = true ∧
      ∀ e ∈ (runLevel hooks env opt k nodes).1, Event.quiet e = true) ∨
    ((runLevel hooks env opt k nodes).2 = none ∧
      ∃ pre tail, (runLevel hooks env opt k nodes).1 = pre ++ tail ∧
        (∀ e ∈ pre, Event.quiet e = true) ∧ Ending env opt tail ∧
        tail ≠ [Event.finish none]) := by
  induction nodes generalizing k with
  | nil => left; simp [runLevel]
  | cons x nodes ih =>
    rcases runNode_shape hooks env opt k x with ⟨h2, hq⟩ | ⟨h2, pre, tail, he, hq, hend, hne⟩
    · rcases ih (k + 1) with ⟨g2, gq⟩ | ⟨g2, pre, tail, ge, gq, gend, gne⟩
      · left
        simp only [runLevel, h2, if_true]
        refine ⟨g2, ?_⟩
        intro e he
        rcases List.mem_append.mp he with h | h
        · exact hq e h
        · exact gq e h
      · right
        simp only [runLevel, h2, if_true]
        refine ⟨g2, (runNode hooks env opt k x).1 ++ pre, tail, ?_, ?_, gend, gne⟩
        · rw [ge, List.append_assoc]
        · intro e he
          rcases List.mem_append.mp he with h | h
          · exact hq e h
          · exact gq e h
    · right
      simp only [runLevel, h2, Bool.false_eq_true, if_false]
      exact ⟨trivial, pre, tail, he, hq, hend, hne⟩

/-- Every run is the call of the sequencer, then quiet events, then exactly
one of the endings. -/
theorem run_shape {n : Nat} (a : Arena n) (ord : MapOrder n) (hooks : Fin n → NodeHooks)
    (env : RunEnv n) (root : Fin n) (opt : WorkflowStartOption n) :
    ∃ pre tail, workflowRun a ord hooks env root opt
        = some (Event.sequence opt.NeedUpdateDefault :: pre ++ tail) ∧
      (∀ e ∈ pre, Event.quiet e = true) ∧ Ending env opt tail := by
  obtain ⟨r, er, _⟩ := caculateBuildSequence_total a ord root opt.NeedUpdateDefault
  cases r with
  | error msg =>
    exact ⟨[], [Event.finish (some msg)], by simp [workflowRun, er], by simp, Ending.error msg⟩
  | ok seq =>
    simp only [workflowRun, er, Option.map_some', runLevels_flatten]
    rcases runLevel_shape hooks env opt seq.flatten 0 with
      ⟨h2, hq⟩ | ⟨h2, pre, tail, he, hq, hend, _⟩
    · exact ⟨(runLevel hooks env opt 0 seq.flatten).1, [Event.finish none],
        by simp [h2], hq, Ending.success⟩
    · exact ⟨pre, tail, by simp [h2, he], hq, hend⟩

theorem mem_tail_of_loud {n : Nat} {d : Bool} {pre tail : List (Event n)} {e : Event n}
    (hq : ∀ e' ∈ pre, Event.quiet e' = true) (he : Event.quiet e = false)
    (hs : e ≠ Event.sequence d) (hmem : e ∈ Event.sequence d :: pre ++ tail) : e ∈ tail := by
  rcases List.mem_cons.mp hmem with h | h
  · exact absurd h hs
  · rcases List.mem_append.mp h with h | h
    · rw [hq e h] at he
      simp at he
    · exact h

theorem finishValues_run {n : Nat} (d : Bool) (pre tail : List (Event n))
    (hq : ∀ e ∈ pre, Event.quiet e = true) :
    finishValues (Event.sequence d :: pre ++ tail) = finishValues tail := by
  have h : Event.sequence d :: pre ++ tail = [Event.sequence d] ++ pre ++ tail := by simp
  rw [h, finishValues_append, finishValues_append, finishValues_quiet pre hq]
  simp [finishValues]

/-- C21, as stated, fails: on a single node with a main action whose `ctx.Run()`
returns the error `boom` while `stop` is pending, the background task returns
from the `stop` case of the `select`, and nothing is sent on `finish`. -/
theorem node_error_lost_on_stop :
    startTrace single (MapOrder.ascending 1) mainOnly failingStopEnv 0 (some outOption)
      = some [Event.sequence false, Event.mkdir "out", Event.openFile "out/node.log",
              Event.context 0, Event.run 0 (some "boom"), Event.stopped 0] ∧
    (startTrace single (MapOrder.ascending 1) mainOnly failingStopEnv 0 (some outOption)).map
      finishValues = some [] := by
  decide

theorem runLevel_index {n : Nat} (hooks : Fin n → NodeHooks) (env : RunEnv n)
    (opt : WorkflowStartOption n) (nodes : List (Fin n)) (k k' : Nat)
    (h : (runLevel hooks env opt k nodes).2 = some k') : k' = k + nodes.length := by
  induction nodes generalizing k with
  | nil =>
    simp only [runLevel, Option.some.injEq] at h
    simp [h]
  | cons x nodes ih =>
    by_cases hx : (runNode hooks env opt k x).2 = true
    · simp only [runLevel, hx, if_true] at h
      have := ih (k + 1) h
      simp only [List.length_cons]
      omega
    · simp [runLevel, hx] at h

theorem newRunnintCtx_created {n : Nat} (env : RunEnv n) (opt : WorkflowStartOption n)
    (k : Nat) (x : Fin n) (events : List (Event n))
    (h : newRunnintCtx env opt k x = (events, CtxResult.created)) :
    ∀ e ∈ events, Event.quiet e = true := by
  unfold newRunnintCtx at h
  cases hmk : env.MkdirAll k opt.OutputDir with
  | some err => simp [hmk] at h
  | none =>
    cases hfn : opt.OutputFileNameFn with
    | none => simp [hmk, hfn] at h
    | some fileName =>
      cases hop : env.OpenFile k (opt.OutputDir ++ "/" ++ fileName x) with
      | some err => simp [hmk, hfn, hop] at h
      | none =>
        simp only [hmk, hfn, hop, Prod.mk.injEq, and_true] at h
        subst h
        simp [Event.quiet]

/-- At the check that follows a node whose `ctx.Run()` returned an error, with
neither `stop` nor `kill` pending at that check, the error is sent on `finish`
and the two loops return, whatever nodes and levels remain. -/
theorem runNode_failure {n : Nat} (hooks : Fin n → NodeHooks) (env : RunEnv n)
    (o : WorkflowStartOption n) (k : Nat) (x : Fin n) (events : List (Event n))
    (stepNodes : List (Fin n)) (levels : List (List (Fin n))) (e : String)
    (hh : noHooks hooks x = false)
    (hc : newRunnintCtx env o k x = (events, CtxResult.created))
    (hr : env.ctxRun k x = some e) (hs : env.signal k = Signal.quiet) :
    runNode hooks env o k x
      = (events ++ [Event.run x (some e), Event.finish (some e)], false) ∧
    runLevel hooks env o k (x :: stepNodes)
      = (events ++ [Event.run x (some e), Event.finish (some e)], none) ∧
    runLevels hooks env o k ((x :: stepNodes) :: levels)
      = events ++ [Event.run x (some e), Event.finish (some e)] := by
  have hn : runNode hooks env o k x
      = (events ++ [Event.run x (some e), Event.finish (some e)], false) := by
    simp [runNode, hh, hc, hs, hr]
  refine ⟨hn, ?_, ?_⟩
  · simp [runLevel, hn]
  · simp [runLevels, runLevel, hn]

/-- The run whose walk reaches the node at position `before.length` of the
flattened sequence, where `ctx.Run()` returns an error with no signal pending
at that check. -/
theorem run_failure_at {n : Nat} (a : Arena n) (ord : MapOrder n)
    (hooks : Fin n → NodeHooks) (env : RunEnv n) (root : Fin n) (o : WorkflowStartOption n)
    (sequence : List (List (Fin n))) (before after : List (Fin n)) (x : Fin n)
    (events : List (Event n)) (e : String)
    (hseq : caculateBuildSequence a ord root o.NeedUpdateDefault
      = some (SeqResult.ok sequence))
    (hsplit : sequence.flatten = before ++ x :: after)
    (hreach : ((runLevel hooks env o 0 before).2).isSome = true)
    (hh : noHooks hooks x = false)
    (hc : newRunnintCtx env o before.length x = (events, CtxResult.created))
    (hr : env.ctxRun before.length x = some e)
    (hs : env.signal before.length = Signal.quiet) :
    workflowRun a ord hooks env root o
      = some (Event.sequence o.NeedUpdateDefault ::
          ((runLevel hooks env o 0 before).1 ++ events) ++
            [Event.run x (some e), Event.finish (some e)]) ∧
    finishValues (Event.sequence o.NeedUpdateDefault ::
          ((runLevel hooks env o 0 before).1 ++ events) ++
            [Event.run x (some e), Event.finish (some e)]) = [some e] := by
  have hq1 : ∀ ev ∈ (runLevel hooks env o 0 before).1, Event.quiet ev = true := by
    rcases runLevel_shape hooks env o before 0 with ⟨_, hq⟩ | ⟨h2, _⟩
    · exact hq
    · rw [h2] at hreach
      simp at hreach
  have hq2 := newRunnintCtx_created env o before.length x events hc
  constructor
  · obtain ⟨k', hk'⟩ := Option.isSome_iff_exists.mp hreach
    have hidx := runLevel_index hooks env o before 0 k' hk'
    simp only [Nat.zero_add] at hidx
    subst hidx
    have hl := (runNode_failure hooks env o before.length x events after [] e hh hc hr hs).2.1
    simp only [workflowRun, hseq, Option.map_some', runLevels_flatten, hsplit,
      runLevel_append, hk', hl]
    simp
  · rw [finishValues_run _ _ _ (fun ev hev => by
      rcases List.mem_append.mp hev with h | h
      · exact hq1 ev h
      · exact hq2 ev h)]
    simp [finishValues]

/-- C21, amended: if `ctx.Run()` returns an error for a node, that call is the
last thing the run executes: it is followed by one event only, so that no
later node is skipped, given a context or run; that event is the error sent on
`finish`, the only value sent, when neither `stop` nor `kill` is pending at
the check `k` that follows that node, and the `return` of the `stop` or `kill`
case otherwise. The check is that of the node's own position: at the check
that follows a failing node, with no signal pending there, both loops return
after the send; and the run that reaches position `before.length` of the
flattened sequence with `ctx.Run()` failing there and no signal pending at
that check sends the error on `finish`, whatever is pending at other
checks. -/
theorem node_error_aborts {n : Nat} (a : Arena n) (ord : MapOrder n)
    (hooks : Fin n → NodeHooks) (env : RunEnv n) (root : Fin n) (o : WorkflowStartOption n)
    (tr : List (Event n)) (node : Fin n) (err : String)
    (h : workflowRun a ord hooks env root o = some tr)
    (hmem : Event.run node (some err) ∈ tr) :
    (∃ pre k, (∀ e ∈ pre, Event.quiet e = true) ∧ env.ctxRun k node = some err ∧
      ((env.signal k = Signal.quiet ∧
          tr = Event.sequence o.NeedUpdateDefault :: pre ++
                [Event.run node (some err), Event.finish (some err)] ∧
          finishValues tr = [some err]) ∨
        (env.signal k = Signal.stop ∧
          tr = Event.sequence o.NeedUpdateDefault :: pre ++
                [Event.run node (some err), Event.stopped node]) ∨
        (env.signal k = Signal.kill ∧
          tr = Event.sequence o.NeedUpdateDefault :: pre ++
                [Event.run node (some err), Event.killed node]))) ∧
    ((∀ k, env.signal k = Signal.quiet) →
      ∃ pre, (∀ e ∈ pre, Event.quiet e = true) ∧
        tr = Event.sequence o.NeedUpdateDefault :: pre ++
              [Event.run node (some err), Event.finish (some err)] ∧
        finishValues tr = [some err]) ∧
    (∀ (k : Nat) (x : Fin n) (events : List (Event n)) (stepNodes : List (Fin n))
        (levels : List (List (Fin n))) (e : String),
      noHooks hooks x = false → newRunnintCtx env o k x = (events, CtxResult.created) →
      env.ctxRun k x = some e → env.signal k = Signal.quiet →
      runNode hooks env o k x
        = (events ++ [Event.run x (some e), Event.finish (some e)], false) ∧
      runLevel hooks env o k (x :: stepNodes)
        = (events ++ [Event.run x (some e), Event.finish (some e)], none) ∧
      runLevels hooks env o k ((x :: stepNodes) :: levels)
        = events ++ [Event.run x (some e), Event.finish (some e)]) ∧
    (∀ (sequence : List (List (Fin n))) (before after : List (Fin n)) (x : Fin n)
        (events : List (Event n)) (e : String),
      caculateBuildSequence a ord root o.NeedUpdateDefault = some (SeqResult.ok sequence) →
      sequence.flatten = before ++ x :: after →
      ((runLevel hooks env o 0 before).2).isSome = true →
      noHooks hooks x = false →
      newRunnintCtx env o before.length x = (events, CtxResult.created) →
      env.ctxRun before.length x = some e →
      env.signal before.length = Signal.quiet →
      tr = Event.sequence o.NeedUpdateDefault ::
            ((runLevel hooks env o 0 before).1 ++ events) ++
              [Event.run x (some e), Event.finish (some e)] ∧
      finishValues tr = [some e]) := by
  have hshape : ∃ pre k, (∀ e ∈ pre, Event.quiet e = true) ∧ env.ctxRun k node = some err ∧
      ((env.signal k = Signal.quiet ∧
          tr = Event.sequence o.NeedUpdateDefault :: pre ++
                [Event.run node (some err), Event.finish (some err)] ∧
          finishValues tr = [some err]) ∨
        (env.signal k = Signal.stop ∧
          tr = Event.sequence o.NeedUpdateDefault :: pre ++
                [Event.run node (some err), Event.stopped node]) ∨
        (env.signal k = Signal.kill ∧
          tr = Event.sequence o.NeedUpdateDefault :: pre ++
                [Event.run node (some err), Event.killed node])) := by
    obtain ⟨pre, tail, e, hq, hend⟩ := run_shape a ord hooks env root o
    rw [h] at e
    simp only [Option.some.injEq] at e
    subst e
    have ht : Event.run node (some err) ∈ tail :=
      mem_tail_of_loud hq (by simp [Event.quiet]) (by simp) hmem
    cases hend with
    | success => simp at ht
    | error msg => simp at ht
    | nilCall x hx => simp at ht
    | stop k x hs =>
      simp only [List.mem_cons, Event.run.injEq, List.mem_singleton, List.not_mem_nil,
        or_false, reduceCtorEq] at ht
      obtain ⟨rfl, hr⟩ := ht
      refine ⟨pre, k, hq, hr.symm, Or.inr (Or.inl ⟨hs, ?_⟩)⟩
      rw [← hr]
    | kill k x hs =>
      simp only [List.mem_cons, Event.run.injEq, List.mem_singleton, List.not_mem_nil,
        or_false, reduceCtorEq] at ht
      obtain ⟨rfl, hr⟩ := ht
      refine ⟨pre, k, hq, hr.symm, Or.inr (Or.inr ⟨hs, ?_⟩)⟩
      rw [← hr]
    | failure k x msg hs hr =>
      simp only [List.mem_cons, Event.run.injEq, Option.some.injEq, List.mem_singleton,
        List.not_mem_nil, or_false, reduceCtorEq] at ht
      obtain ⟨rfl, rfl⟩ := ht
      refine ⟨pre, k, hq, hr, Or.inl ⟨hs, rfl, ?_⟩⟩
      rw [finishValues_run _ _ _ hq]
      simp [finishValues]
  refine ⟨hshape, ?_, ?_, ?_⟩
  · intro hsig
    obtain ⟨pre, k, hq, _, ⟨_, e1, e2⟩ | ⟨hs, _⟩ | ⟨hs, _⟩⟩ := hshape
    · exact ⟨pre, hq, e1, e2⟩
    · rw [hsig k] at hs
      simp at hs
    · rw [hsig k] at hs
      simp at hs
  · intro k x events stepNodes levels e hh hc hr hs
    exact runNode_failure hooks env o k x events stepNodes levels e hh hc hr hs
  · intro sequence before after x events e hseq hsplit hreach hh hc hr hs
    obtain ⟨e1, e2⟩ := run_failure_at a ord hooks env root o sequence before after x events e
      hseq hsplit hreach hh hc hr hs
    rw [h] at e1
    simp only [Option.some.injEq] at e1
    subst e1
    exact ⟨rfl, e2⟩

/-- C21 on the graph `abc` from node `B`: the main action of `A`, the first
node visited, fails with `boom` with no signal pending at its check, while
`stop` is pending at every later check: the error is the value on `finish`
and `B` is not touched. -/
theorem node_error_aborts_witness :
    (lateStopEnv : RunEnv 3).signal 1 = Signal.stop ∧
    workflowRun abc (MapOrder.ascending 3) mainOnly lateStopEnv 1 outOption
      = some [Event.sequence false, Event.mkdir "out", Event.openFile "out/node.log",
              Event.context 0, Event.run 0 (some "boom"), Event.finish (some "boom")] ∧
    finishValues [Event.sequence false, Event.mkdir "out", Event.openFile "out/node.log",
      Event.context 0, Event.run 0 (some "boom"), (Event.finish (some "boom") : Event 3)]
      = [some "boom"] :=
  ⟨by decide, by decide,
    ((node_error_aborts abc (MapOrder.ascending 3) mainOnly lateStopEnv 1 outOption
        [Event.sequence false, Event.mkdir "out", Event.openFile "out/node.log",
          Event.context 0, Event.run 0 (some "boom"), Event.finish (some "boom")]
        0 "boom" (by decide) (by decide)).2.2.2
      [[0], [1]] [] [1] 0
      [Event.mkdir "out", Event.openFile "out/node.log", Event.context 0] "boom"
      (by decide) (by decide) (by decide) (by decide) (by decide) (by decide)
      (by decide)).2⟩

/-- A run started with a non-nil `OutputFileNameFn` sends at most one value on
`finish`, and none exactly when it returns from the `stop` or the `kill` case
of the `select`. -/
theorem finish_count {n : Nat} (a : Arena n) (ord : MapOrder n) (hooks : Fin n → NodeHooks)
    (env : RunEnv n) (root : Fin n) (o : WorkflowStartOption n)
    (hfn : o.OutputFileNameFn ≠ none) :
    ∃ tr, workflowRun a ord hooks env root o = some tr ∧
      (finishValues tr).length ≤ 1 ∧
      (finishValues tr = [] ↔
        ∃ node, Event.stopped node ∈ tr ∨ Event.killed node ∈ tr) := by
  obtain ⟨pre, tail, e, hq, hend⟩ := run_shape a ord hooks env root o
  refine ⟨_, e, ?_, ?_⟩
  · rw [finishValues_run _ _ _ hq]
    cases hend <;> simp [finishValues]
  · rw [finishValues_run _ _ _ hq]
    have hmem : (∃ node, Event.stopped node ∈ Event.sequence o.NeedUpdateDefault :: pre ++ tail ∨
        Event.killed node ∈ Event.sequence o.NeedUpdateDefault :: pre ++ tail) ↔
        ∃ node, Event.stopped node ∈ tail ∨ Event.killed node ∈ tail := by
      constructor
      · rintro ⟨node, h | h⟩
        · exact ⟨node, Or.inl (mem_tail_of_loud hq (by simp [Event.quiet]) (by simp) h)⟩
        · exact ⟨node, Or.inr (mem_tail_of_loud hq (by simp [Event.quiet]) (by simp) h)⟩
      · rintro ⟨node, h | h⟩
        · exact ⟨node, Or.inl (List.mem_cons_of_mem _ (List.mem_append_right _ h))⟩
        · exact ⟨node, Or.inr (List.mem_cons_of_mem _ (List.mem_append_right _ h))⟩
    rw [hmem]
    cases hend with
    | success => simp [finishValues]
    | error msg => simp [finishValues]
    | nilCall x hx => exact absurd hx hfn
    | stop k x hs => simp [finishValues]
    | kill k x hs => simp [finishValues]
    | failure k x msg hs hr => simp [finishValues]

/-- C23, on the code: a run whose `select` takes the `stop` case, or the `kill`
case, returns without sending anything on `finish`, here on a single node with
a main action started with valid options; on every other exit path exactly
one value is sent. -/
theorem finish_missing_on_stop_kill :
    (StartWorkflow (0 : Fin 1) (some outOption)).handler = some newRunningHandler ∧
    startTrace single (MapOrder.ascending 1) mainOnly stopEnv 0 (some outOption)
      = some [Event.sequence false, Event.mkdir "out", Event.openFile "out/node.log",
              Event.context 0, Event.run 0 none, Event.stopped 0] ∧
    (startTrace single (MapOrder.ascending 1) mainOnly stopEnv 0 (some outOption)).map
      finishValues = some [] ∧
    startTrace single (MapOrder.ascending 1) mainOnly killEnv 0 (some outOption)
      = some [Event.sequence false, Event.mkdir "out", Event.openFile "out/node.log",
              Event.context 0, Event.run 0 none, Event.killed 0] ∧
    (startTrace single (MapOrder.ascending 1) mainOnly killEnv 0 (some outOption)).map
      finishValues = some [] ∧
    (∀ (n : Nat) (a : Arena n) (ord : MapOrder n) (hooks : Fin n → NodeHooks) (env : RunEnv n)
        (root : Fin n) (o : WorkflowStartOption n), o.OutputFileNameFn ≠ none →
      ∃ tr, workflowRun a ord hooks env root o = some tr ∧
        (finishValues tr).length ≤ 1 ∧
        (finishValues tr = [] ↔
          ∃ node, Event.stopped node ∈ tr ∨ Event.killed node ∈ tr)) :=
  ⟨by decide, by decide, by decide, by decide, by decide,
    fun _ a ord hooks env root o hfn => finish_count a ord hooks env root o hfn⟩

/-- C24: when the `select` that follows `ctx.Run()` of a node takes the `stop`
case, the call `ctx.Run()` has returned, and the inner loop, the outer loop
and the background task return there, whatever nodes and levels remain; and a
run in which a node was stopped ends with the return of `ctx.Run()` for that
node followed by the stop, so that no later node is skipped, given a context
or run, and nothing is sent on `finish`. -/
theorem stop_at_node_boundary {n : Nat} (a : Arena n) (ord : MapOrder n)
    (hooks : Fin n → NodeHooks) (env : RunEnv n) (root : Fin n) (o : WorkflowStartOption n)
    (tr : List (Event n)) (node : Fin n)
    (h : workflowRun a ord hooks env root o = some tr)
    (hmem : Event.stopped node ∈ tr) :
    (∃ pre k, (∀ e ∈ pre, Event.quiet e = true) ∧ env.signal k = Signal.stop ∧
      tr = Event.sequence o.NeedUpdateDefault :: pre ++
            [Event.run node (env.ctxRun k node), Event.stopped node]) ∧
    finishValues tr = [] ∧
    (∀ (k : Nat) (x : Fin n) (events : List (Event n)) (stepNodes : List (Fin n))
        (levels : List (List (Fin n))),
      noHooks hooks x = false → newRunnintCtx env o k x = (events, CtxResult.created) →
      env.signal k = Signal.stop →
      runNode hooks env o k x
        = (events ++ [Event.run x (env.ctxRun k x), Event.stopped x], false) ∧
      runLevel hooks env o k (x :: stepNodes)
        = (events ++ [Event.run x (env.ctxRun k x), Event.stopped x], none) ∧
      runLevels hooks env o k ((x :: stepNodes) :: levels)
        = events ++ [Event.run x (env.ctxRun k x), Event.stopped x]) := by
  obtain ⟨pre, tail, e, hq, hend⟩ := run_shape a ord hooks env root o
  rw [h] at e
  simp only [Option.some.injEq] at e
  subst e
  have ht : Event.stopped node ∈ tail :=
    mem_tail_of_loud hq (by simp [Event.quiet]) (by simp) hmem
  have hlocal : ∀ (k : Nat) (x : Fin n) (events : List (Event n)),
      noHooks hooks x = false → newRunnintCtx env o k x = (events, CtxResult.created) →
      env.signal k = Signal.stop →
      runNode hooks env o k x
        = (events ++ [Event.run x (env.ctxRun k x), Event.stopped x], false) := by
    intro k x events hh hc hs
    simp [runNode, hh, hc, hs]
  refine ⟨?_, ?_, ?_⟩
  · cases hend with
    | success => simp at ht
    | error msg => simp at ht
    | nilCall x hx => simp at ht
    | stop k x hs =>
      simp only [List.mem_cons, Event.stopped.injEq, List.mem_singleton, List.not_mem_nil,
        or_false, reduceCtorEq, false_or] at ht
      subst ht
      exact ⟨pre, k, hq, hs, rfl⟩
    | kill k x hs => simp at ht
    | failure k x msg hs hr => simp at ht
  · rw [finishValues_run _ _ _ hq]
    cases hend with
    | success => simp at ht
    | error msg => simp at ht
    | nilCall x hx => simp at ht
    | stop k x hs => simp [finishValues]
    | kill k x hs => simp at ht
    | failure k x msg hs hr => simp at ht
  · intro k x events stepNodes levels hh hc hs
    have hn := hlocal k x events hh hc hs
    refine ⟨hn, ?_, ?_⟩
    · simp [runLevel, hn]
    · simp [runLevels, runLevel, hn]

/-- C24 on the graph `abc` from node `B` with `stop` pending: `A` runs to the
end and `B` is not touched. -/
theorem stop_at_node_boundary_witness :
    workflowRun abc (MapOrder.ascending 3) mainOnly stopEnv 1 outOption
      = some [Event.sequence false, Event.mkdir "out", Event.openFile "out/node.log",
              Event.context 0, Event.run 0 none, Event.stopped 0] ∧
    finishValues [Event.sequence false, Event.mkdir "out", Event.openFile "out/node.log",
              Event.context 0, Event.run 0 none, (Event.stopped 0 : Event 3)] = [] :=
  ⟨by decide,
    (stop_at_node_boundary abc (MapOrder.ascending 3) mainOnly stopEnv 1 outOption
      [Event.sequence false, Event.mkdir "out", Event.openFile "out/node.log",
        Event.context 0, Event.run 0 none, Event.stopped 0] 0 (by decide) (by decide)).2.1⟩

end Workflow

namespace Schedule

/-! ## Theorems: task queue and scheduler -/

theorem triggerFetch_fields (s : State) :
    (triggerFetch s).tasks = s.tasks ∧ (triggerFetch s).manualTasks = s.manualTasks ∧
    (triggerFetch s).tasksSet = s.tasksSet ∧ (triggerFetch s).toDeleteTasks = s.toDeleteTasks ∧
    (triggerFetch s).isStop = s.isStop := by
  unfold triggerFetch
  split <;> simp

/-- The three outcomes of the wait loop. -/
theorem waitLoop_cases (s : State) :
    (s.tasks = [] ∧ (waitLoop s).1 = GetTaskResult.waitTask ∧
      (waitLoop s).2.tasks = [] ∧ (waitLoop s).2.manualTasks = s.manualTasks ∧
      (waitLoop s).2.tasksSet = s.tasksSet ∧
      (waitLoop s).2.toDeleteTasks = s.toDeleteTasks) ∨
    (∃ x rest, s.tasks = x :: rest ∧ (waitLoop s).1 = GetTaskResult.returned x none ∧
      (waitLoop s).2.tasks = rest ∧ (waitLoop s).2.manualTasks = s.manualTasks ∧
      (waitLoop s).2.tasksSet = s.tasksSet ∧
      (waitLoop s).2.toDeleteTasks = s.toDeleteTasks) := by
  cases ht : s.tasks with
  | nil =>
    left
    obtain ⟨h1, h2, h3, h4, _⟩ := triggerFetch_fields s
    simp [waitLoop, ht, h1, h2, h3, h4]
  | cons x rest =>
    right
    refine ⟨x, rest, rfl, ?_⟩
    simp [waitLoop, takeFetched, ht]

/-- The outcomes of the critical section of `GetTask`. -/
theorem getTaskLocked_cases (s : State) :
    (∃ x rest, s.manualTasks = x :: rest ∧
      (getTaskLocked s).1 = GetTaskResult.returned x none ∧
      (getTaskLocked s).2 = { s with manualTasks := rest }) ∨
    (s.manualTasks = [] ∧ s.tasks = [] ∧ (getTaskLocked s).1 = GetTaskResult.waitTask ∧
      (getTaskLocked s).2.tasks = [] ∧ (getTaskLocked s).2.manualTasks = [] ∧
      (getTaskLocked s).2.tasksSet = s.tasksSet ∧
      (getTaskLocked s).2.toDeleteTasks = s.toDeleteTasks) ∨
    (s.manualTasks = [] ∧ ∃ x rest, s.tasks = x :: rest ∧
      (getTaskLocked s).1 = GetTaskResult.returned x none ∧
      (getTaskLocked s).2.tasks = rest ∧ (getTaskLocked s).2.manualTasks = [] ∧
      (getTaskLocked s).2.tasksSet = s.tasksSet ∧
      (getTaskLocked s).2.toDeleteTasks = s.toDeleteTasks ∧
      (getTaskLocked s).2.isStop = s.isStop) := by
  cases hm : s.manualTasks with
  | cons x rest =>
    left
    exact ⟨x, rest, rfl, by simp [getTaskLocked, hm], by simp [getTaskLocked, hm]⟩
  | nil =>
    right
    have hs1 : ∀ s1 : State, s1.tasks = s.tasks → s1.manualTasks = s.manualTasks →
        s1.tasksSet = s.tasksSet → s1.toDeleteTasks = s.toDeleteTasks →
        s1.isStop = s.isStop → getTaskLocked s = waitLoop s1 →
        (s.tasks = [] ∧ (getTaskLocked s).1 = GetTaskResult.waitTask ∧
          (getTaskLocked s).2.tasks = [] ∧ (getTaskLocked s).2.manualTasks = [] ∧
          (getTaskLocked s).2.tasksSet = s.tasksSet ∧
          (getTaskLocked s).2.toDeleteTasks = s.toDeleteTasks) ∨
        (∃ x rest, s.tasks = x :: rest ∧
          (getTaskLocked s).1 = GetTaskResult.returned x none ∧
          (getTaskLocked s).2.tasks = rest ∧ (getTaskLocked s).2.manualTasks = [] ∧
          (getTaskLocked s).2.tasksSet = s.tasksSet ∧
          (getTaskLocked s).2.toDeleteTasks = s.toDeleteTasks ∧
          (getTaskLocked s).2.isStop = s.isStop) := by
      intro s1 e1 e2 e3 e4 e5 e
      rw [e]
      rcases waitLoop_cases s1 with ⟨h1, h2, h3, h4, h5, h6⟩ | ⟨x, rest, h1, h2, h3, h4, h5, h6⟩
      · left
        exact ⟨e1 ▸ h1, h2, h3, by rw [h4, e2, hm], by rw [h5, e3], by rw [h6, e4]⟩
      · right
        refine ⟨x, rest, e1 ▸ h1, h2, h3, by rw [h4, e2, hm], by rw [h5, e3], by rw [h6, e4], ?_⟩
        have : (waitLoop s1).2.isStop = s1.isStop := by
          simp [waitLoop, takeFetched, h1]
        rw [this, e5]
    have key : getTaskLocked s
        = waitLoop (if (s.tasks.length : Int) < s.FetchThreshold then triggerFetch s else s) := by
      simp [getTaskLocked, hm]
    by_cases hth : (s.tasks.length : Int) < s.FetchThreshold
    · obtain ⟨h1, h2, h3, h4, h5⟩ := triggerFetch_fields s
      rw [if_pos hth] at key
      rcases hs1 (triggerFetch s) h1 h2 h3 h4 h5 key with h | h
      · exact Or.inl ⟨rfl, h⟩
      · exact Or.inr ⟨rfl, h⟩
    · rw [if_neg hth] at key
      rcases hs1 s rfl rfl rfl rfl rfl key with h | h
      · exact Or.inl ⟨rfl, h⟩
      · exact Or.inr ⟨rfl, h⟩

theorem deletes_apply (D : List String) (S : String → Bool) (x : String) :
    (D.foldl (fun set t => Function.update set t false) S) x
      = (S x && decide (x ∉ D)) := by
  induction D generalizing S with
  | nil => simp
  | cons t D ih =>
    rw [List.foldl_cons, ih]
    by_cases hxt : x = t
    · subst hxt
      simp
    · simp [Function.update_noteq hxt, hxt]

theorem DedupOn.of_perm {p p' : List String} {S : String → Bool} {D R : List String}
    (hp : p.Perm p') (h : DedupOn p S D R) : DedupOn p' S D R :=
  ⟨hp.nodup_iff.mp h.nodup, fun t ht => h.queued t (hp.mem_iff.mpr ht), h.held,
    fun t ht => h.apart t (hp.mem_iff.mpr ht), h.delSet,
    fun t ht hc => h.delQueued t ht (hp.mem_iff.mpr hc), h.delHeld, h.runNodup⟩

theorem DedupOn.add {p : List String} {S : String → Bool} {D R : List String}
    (h : DedupOn p S D R) (x : String) (hx : S x = false) :
    DedupOn (x :: p) (Function.update S x true) D R := by
  have hup : ∀ t, S t = true → Function.update S x true t = true := by
    intro t ht
    by_cases htx : t = x
    · subst htx; simp
    · simpa [Function.update_noteq htx] using ht
  have hno : ∀ t, S t = true → t ≠ x := by
    rintro t ht rfl
    rw [hx] at ht
    exact absurd ht (by simp)
  refine ⟨?_, ?_, ?_, ?_, ?_, ?_, h.delHeld, h.runNodup⟩
  · exact List.nodup_cons.mpr ⟨fun hc => hno x (h.queued x hc) rfl, h.nodup⟩
  · intro t ht
    rcases List.mem_cons.mp ht with rfl | ht
    · simp
    · exact hup t (h.queued t ht)
  · exact fun t ht => hup t (h.held t ht)
  · intro t ht
    rcases List.mem_cons.mp ht with rfl | ht
    · exact fun hc => hno _ (h.held _ hc) rfl
    · exact h.apart t ht
  · exact fun t ht => hup t (h.delSet t ht)
  · intro t ht hc
    rcases List.mem_cons.mp hc with rfl | hc
    · exact hno _ (h.delSet _ ht) rfl
    · exact h.delQueued t ht hc

theorem DedupOn.pop {p : List String} {S : String → Bool} {D R : List String}
    {x : String} (h : DedupOn (x :: p) S D R) : DedupOn p S D (R ++ [x]) := by
  have hnd := List.nodup_cons.mp h.nodup
  have hxin : x ∈ x :: p := List.mem_cons_self _ _
  refine ⟨hnd.2, fun t ht => h.queued t (List.mem_cons_of_mem _ ht), ?_, ?_, h.delSet,
    fun t ht hc => h.delQueued t ht (List.mem_cons_of_mem _ hc), ?_, ?_⟩
  · intro t ht
    rcases List.mem_append.mp ht with ht | ht
    · exact h.held t ht
    · rw [List.mem_singleton.mp ht]
      exact h.queued x hxin
  · intro t ht hc
    rcases List.mem_append.mp hc with hc | hc
    · exact h.apart t (List.mem_cons_of_mem _ ht) hc
    · rw [List.mem_singleton.mp hc] at ht
      exact hnd.1 ht
  · intro t ht hc
    rcases List.mem_append.mp hc with hc | hc
    · exact h.delHeld t ht hc
    · rw [List.mem_singleton.mp hc] at ht
      exact h.delQueued x ht hxin
  · rw [List.nodup_append]
    refine ⟨h.runNodup, by simp, ?_⟩
    intro t ht1 ht2
    rw [List.mem_singleton.mp ht2] at ht1
    exact h.apart x hxin ht1

theorem DedupOn.deletes {p : List String} {S : String → Bool} {D R : List String}
    (h : DedupOn p S D R) :
    DedupOn p (D.foldl (fun set t => Function.update set t false) S) [] R := by
  refine ⟨h.nodup, ?_, ?_, h.apart, by simp, by simp, by simp, h.runNodup⟩
  · intro t ht
    rw [deletes_apply, h.queued t ht]
    have : t ∉ D := fun hc => h.delQueued t hc ht
    simp [this]
  · intro t ht
    rw [deletes_apply, h.held t ht]
    have : t ∉ D := fun hc => h.delHeld t hc ht
    simp [this]

theorem DedupOn.finish {p : List String} {S : String → Bool} {D R : List String}
    (h : DedupOn p S D R) (x : String) (hx : x ∈ R) :
    DedupOn p S (D ++ [x]) (R.erase x) := by
  have hsub : ∀ t, t ∈ R.erase x → t ∈ R := fun t ht => List.mem_of_mem_erase ht
  refine ⟨h.nodup, h.queued, fun t ht => h.held t (hsub t ht),
    fun t ht hc => h.apart t ht (hsub t hc), ?_, ?_, ?_, h.runNodup.erase x⟩
  · intro t ht
    rcases List.mem_append.mp ht with ht | ht
    · exact h.delSet t ht
    · rw [List.mem_singleton.mp ht]
      exact h.held x hx
  · intro t ht hc
    rcases List.mem_append.mp ht with ht | ht
    · exact h.delQueued t ht hc
    · rw [List.mem_singleton.mp ht] at hc
      exact h.apart x hc hx
  · intro t ht hc
    rcases List.mem_append.mp ht with ht | ht
    · exact h.delHeld t ht (hsub t hc)
    · rw [List.mem_singleton.mp ht] at hc
      exact (List.Nodup.mem_erase_iff h.runNodup).mp hc |>.1 rfl

theorem appendFetched_fields (s : State) (r : String) :
    (appendFetched s r).manualTasks = s.manualTasks ∧
    (appendFetched s r).toDeleteTasks = s.toDeleteTasks ∧
    (appendFetched s r).isStop = s.isStop := by
  unfold appendFetched
  split <;> simp

theorem appendPage_fields (page : List String) (s : State) :
    (page.foldl appendFetched s).manualTasks = s.manualTasks ∧
    (page.foldl appendFetched s).toDeleteTasks = s.toDeleteTasks ∧
    (page.foldl appendFetched s).isStop = s.isStop := by
  induction page generalizing s with
  | nil => simp
  | cons r page ih =>
    obtain ⟨h1, h2, h3⟩ := appendFetched_fields s r
    obtain ⟨i1, i2, i3⟩ := ih (appendFetched s r)
    rw [List.foldl_cons]
    exact ⟨i1.trans h1, i2.trans h2, i3.trans h3⟩

theorem appendFetched_dedup (s : State) (r : String) (R : List String)
    (h : DedupOn (GetPendingTasks s) s.tasksSet s.toDeleteTasks R) :
    DedupOn (GetPendingTasks (appendFetched s r)) (appendFetched s r).tasksSet
      (appendFetched s r).toDeleteTasks R := by
  unfold appendFetched
  by_cases hr : s.tasksSet r = true
  · simpa [hr] using h
  · have hrf : s.tasksSet r = false := by simpa using hr
    simp only [hrf, Bool.false_eq_true, if_false]
    have hp : (r :: GetPendingTasks s).Perm (s.manualTasks ++ (s.tasks ++ [r])) := by
      unfold GetPendingTasks
      rw [← List.append_assoc]
      exact (List.perm_append_singleton r _).symm
    exact (h.add r hrf).of_perm hp

theorem appendPage_dedup (page : List String) (s : State) (R : List String)
    (h : DedupOn (GetPendingTasks s) s.tasksSet s.toDeleteTasks R) :
    DedupOn (GetPendingTasks (page.foldl appendFetched s)) (page.foldl appendFetched s).tasksSet
      (page.foldl appendFetched s).toDeleteTasks R := by
  induction page generalizing s with
  | nil => exact h
  | cons r page ih =>
    rw [List.foldl_cons]
    exact ih _ (appendFetched_dedup s r R h)

theorem fetchCycle_dedup (page : List String) (s : State) (R : List String)
    (h : DedupOn (GetPendingTasks s) s.tasksSet s.toDeleteTasks R) :
    DedupOn (GetPendingTasks (fetchCycle s page)) (fetchCycle s page).tasksSet
      (fetchCycle s page).toDeleteTasks R :=
  (appendPage_dedup page s R h).deletes

/-- Every action preserves the dedup invariant. -/
theorem Dedup.apply_op {σ σ' : Sys} (op : Op) (h : Dedup σ) (e : op.apply σ = some σ') :
    Dedup σ' := by
  unfold Dedup at h ⊢
  cases op with
  | addManual task =>
    simp only [Op.apply, Option.some.injEq] at e
    subst e
    simp only [AddManualTask]
    by_cases ht : σ.state.tasksSet task = true
    · simpa [ht] using h
    · have htf : σ.state.tasksSet task = false := by simpa using ht
      simp only [htf, Bool.false_eq_true, if_false]
      have hp : (task :: GetPendingTasks σ.state).Perm
          ((σ.state.manualTasks ++ [task]) ++ σ.state.tasks) := by
        unfold GetPendingTasks
        rw [List.append_assoc]
        exact List.perm_middle.symm
      exact (h.add task htf).of_perm hp
  | getTask =>
    simp only [Op.apply, Option.some.injEq] at e
    subst e
    simp only []
    rcases getTaskLocked_cases σ.state with
      ⟨x, rest, hm, hr, hs⟩ | ⟨hm, hq, hr, h1, h2, h3, h4⟩ | ⟨hm, x, rest, hq, hr, h1, h2, h3, h4, _⟩
    · rw [hr, hs]
      simp only [GetTaskResult.dispatched, GetPendingTasks]
      have h' : DedupOn (x :: (rest ++ σ.state.tasks)) σ.state.tasksSet
          σ.state.toDeleteTasks σ.running := by
        simpa [GetPendingTasks, hm] using h
      exact h'.pop
    · rw [hr]
      simp only [GetTaskResult.dispatched, GetPendingTasks, h1, h2, h3, h4, List.append_nil]
      simpa [GetPendingTasks, hm, hq] using h
    · rw [hr]
      simp only [GetTaskResult.dispatched, GetPendingTasks, h1, h2, h3, h4, List.nil_append]
      have h' : DedupOn (x :: rest) σ.state.tasksSet σ.state.toDeleteTasks σ.running := by
        simpa [GetPendingTasks, hm, hq] using h
      exact h'.pop
  | resume =>
    simp only [Op.apply, Option.some.injEq] at e
    subst e
    simp only []
    rcases waitLoop_cases σ.state with
      ⟨hq, hr, h1, h2, h3, h4⟩ | ⟨x, rest, hq, hr, h1, h2, h3, h4⟩
    · rw [hr]
      simp only [GetTaskResult.dispatched, GetPendingTasks, h1, h2, h3, h4, List.append_nil]
      simpa [GetPendingTasks, hq] using h
    · rw [hr]
      simp only [GetTaskResult.dispatched, GetPendingTasks, h1, h2, h3, h4]
      have hp : (GetPendingTasks σ.state).Perm (x :: (σ.state.manualTasks ++ rest)) := by
        unfold GetPendingTasks
        rw [hq]
        exact List.perm_middle
      exact (h.of_perm hp).pop
  | fetch page =>
    simp only [Op.apply, Option.some.injEq] at e
    subst e
    exact fetchCycle_dedup page σ.state σ.running h
  | fetchDone =>
    simp only [Op.apply, Option.some.injEq] at e
    subst e
    exact h
  | finish task =>
    simp only [Op.apply] at e
    by_cases ht : task ∈ σ.running
    · rw [if_pos ht] at e
      simp only [Option.some.injEq] at e
      subst e
      exact h.finish task ht
    · rw [if_neg ht] at e
      simp at e
  | start =>
    simp only [Op.apply, Option.some.injEq] at e
    subst e
    exact h
  | stop =>
    simp only [Op.apply, Option.some.injEq] at e
    subst e
    exact h
  | setFetchOptions fetchSize fetchThreshold =>
    simp only [Op.apply, Option.some.injEq] at e
    subst e
    exact h

theorem Dedup.run_ops {ops : List Op} {σ σ' : Sys} (h : Dedup σ) (e : run ops σ = some σ') :
    Dedup σ' := by
  induction ops generalizing σ with
  | nil =>
    simp only [Schedule.run, Option.some.injEq] at e
    exact e ▸ h
  | cons op ops ih =>
    simp only [Schedule.run] at e
    cases hop : op.apply σ with
    | none => simp [hop] at e
    | some σ1 =>
      rw [hop] at e
      exact ih (Dedup.apply_op op h hop) e

theorem Dedup.at_initial : Dedup { state := State.initial, running := [] } := by
  unfold Dedup
  exact ⟨by simp [GetPendingTasks, State.initial], by simp [GetPendingTasks, State.initial],
    by simp, by simp, by simp [State.initial], by simp [State.initial], by simp, by simp⟩

theorem Dedup.of_reachable {σ : Sys} (h : σ.Reachable) : Dedup σ := by
  obtain ⟨ops, e⟩ := h
  exact Dedup.run_ops Dedup.at_initial e

/-- C7: in every state reachable from the initial empty state by
`AddManualTask`, `GetTask`, fetch cycles with arbitrary pages and `FinishTask`
calls for ids a worker holds, the pending list has no id twice, every queued id
is in `tasksSet`, and no queued id is held by a worker. -/
theorem dedup_invariant (σ : Sys) (h : σ.Reachable) :
    (GetPendingTasks σ.state).Nodup ∧
    (∀ t ∈ GetPendingTasks σ.state, σ.state.tasksSet t = true) ∧
    (∀ t ∈ GetPendingTasks σ.state, t ∉ σ.running) :=
  ⟨(Dedup.of_reachable h).nodup, (Dedup.of_reachable h).queued, (Dedup.of_reachable h).apart⟩

theorem dedup_invariant_witness :
    sampleSys.Reachable ∧
    (GetPendingTasks sampleSys.state).Nodup ∧
    (∀ t ∈ GetPendingTasks sampleSys.state, sampleSys.state.tasksSet t = true) ∧
    (∀ t ∈ GetPendingTasks sampleSys.state, t ∉ sampleSys.running) :=
  ⟨⟨sampleOps, rfl⟩, dedup_invariant sampleSys ⟨sampleOps, rfl⟩⟩

theorem appendFetched_present (s : State) (r X : String) (hS : s.tasksSet X = true) :
    (appendFetched s r).tasksSet X = true ∧
    (appendFetched s r).tasks.count X = s.tasks.count X := by
  unfold appendFetched
  by_cases hr : s.tasksSet r = true
  · simp [hr, hS]
  · have hXr : X ≠ r := by
      rintro rfl
      exact hr hS
    have hrX : ¬ (r = X) := fun hc => hXr hc.symm
    simp [hr, Function.update_noteq hXr, hS, List.count_cons, hrX]

theorem appendPage_present (page : List String) (s : State) (X : String)
    (hS : s.tasksSet X = true) :
    (page.foldl appendFetched s).tasksSet X = true ∧
    (page.foldl appendFetched s).tasks.count X = s.tasks.count X := by
  induction page generalizing s with
  | nil => exact ⟨hS, rfl⟩
  | cons r page ih =>
    obtain ⟨h1, h2⟩ := appendFetched_present s r X hS
    obtain ⟨i1, i2⟩ := ih (appendFetched s r) h1
    rw [List.foldl_cons]
    exact ⟨i1, i2.trans h2⟩

theorem appendPage_absent (page : List String) (s : State) (X : String)
    (hS : s.tasksSet X = false) (hX : X ∈ page) :
    (page.foldl appendFetched s).tasksSet X = true ∧
    (page.foldl appendFetched s).tasks.count X = s.tasks.count X + 1 := by
  induction page generalizing s with
  | nil => simp at hX
  | cons r page ih =>
    rw [List.foldl_cons]
    by_cases hrX : r = X
    · subst hrX
      have e1 : (appendFetched s r).tasksSet r = true := by simp [appendFetched, hS]
      have e2 : (appendFetched s r).tasks.count r = s.tasks.count r + 1 := by
        simp [appendFetched, hS]
      obtain ⟨i1, i2⟩ := appendPage_present page (appendFetched s r) r e1
      exact ⟨i1, i2.trans e2⟩
    · have hXr : X ≠ r := fun hc => hrX hc.symm
      have hXp : X ∈ page := by
        rcases List.mem_cons.mp hX with h | h
        · exact absurd h hXr
        · exact h
      have e1 : (appendFetched s r).tasksSet X = false := by
        unfold appendFetched
        split
        · exact hS
        · simp [Function.update_noteq hXr, hS]
      have e2 : (appendFetched s r).tasks.count X = s.tasks.count X := by
        unfold appendFetched
        split
        · rfl
        · simp [List.count_cons, hrX]
      obtain ⟨i1, i2⟩ := ih (appendFetched s r) e1 hXp
      exact ⟨i1, by rw [i2, e2]⟩

theorem fetchCycle_fields (s : State) (page : List String) :
    (fetchCycle s page).tasks = (page.foldl appendFetched s).tasks ∧
    (fetchCycle s page).manualTasks = s.manualTasks ∧
    (fetchCycle s page).toDeleteTasks = [] ∧
    (∀ x, (fetchCycle s page).tasksSet x
      = ((page.foldl appendFetched s).tasksSet x && decide (x ∉ s.toDeleteTasks))) := by
  obtain ⟨h1, h2, _⟩ := appendPage_fields page s
  refine ⟨rfl, h1, rfl, fun x => ?_⟩
  simp only [fetchCycle, applyDeletes]
  rw [deletes_apply, h2]

/-- A fetch cycle leaves alone an id that is in the dedup set and not awaiting
deletion. -/
theorem fetchCycle_keeps (s : State) (page : List String) (X : String)
    (hS : s.tasksSet X = true) (hD : X ∉ s.toDeleteTasks) :
    (fetchCycle s page).tasksSet X = true ∧ X ∉ (fetchCycle s page).toDeleteTasks ∧
    (GetPendingTasks (fetchCycle s page)).count X = (GetPendingTasks s).count X := by
  obtain ⟨h1, h2, h3, h4⟩ := fetchCycle_fields s page
  obtain ⟨p1, p2⟩ := appendPage_present page s X hS
  refine ⟨?_, ?_, ?_⟩
  · rw [h4 X, p1]
    simp [hD]
  · rw [h3]
    simp
  · simp only [GetPendingTasks, List.count_append, h1, h2, p2]

/-- C8, as stated, fails: `X` is absent from the dedup set in the state reached
by `FinishTask("X")` from the initial state, yet after `AddManualTask("X")` and
two fetch cycles whose page holds `X` the pending list holds `X` twice. -/
theorem addManual_fetch_duplicate :
    (FinishTask State.initial "X").tasksSet "X" = false ∧
    GetPendingTasks
      (fetchCycle (fetchCycle (AddManualTask (FinishTask State.initial "X") "X") ["X"]) ["X"])
      = ["X", "X"] ∧
    (GetPendingTasks
      (fetchCycle (fetchCycle (AddManualTask (FinishTask State.initial "X") "X") ["X"])
        ["X"])).count "X" ≠ 1 := by
  decide

/-- C8, amended: from every state in which `X` is not in the dedup set, not
already queued and not in the pending-deletion list, `AddManualTask(X)`
followed by any number of fetch cycles, whatever their pages, leaves `X` in
`GetPendingTasks()` exactly once. -/
theorem addManual_fetch_once (s : State) (X : String) (pages : List (List String))
    (hS : s.tasksSet X = false) (hQ : X ∉ GetPendingTasks s) (hD : X ∉ s.toDeleteTasks) :
    (GetPendingTasks (pages.foldl fetchCycle (AddManualTask s X))).count X = 1 := by
  have key : ∀ (pages : List (List String)) (s1 : State),
      s1.tasksSet X = true → X ∉ s1.toDeleteTasks → (GetPendingTasks s1).count X = 1 →
      (GetPendingTasks (pages.foldl fetchCycle s1)).count X = 1 := by
    intro pages
    induction pages with
    | nil => exact fun _ _ _ h => h
    | cons page pages ih =>
      intro s1 h1 h2 h3
      obtain ⟨k1, k2, k3⟩ := fetchCycle_keeps s1 page X h1 h2
      rw [List.foldl_cons]
      exact ih _ k1 k2 (k3.trans h3)
  apply key
  · simp [AddManualTask, hS]
  · simpa [AddManualTask, hS] using hD
  · have h0 : (s.manualTasks ++ s.tasks).count X = 0 := List.count_eq_zero.mpr hQ
    rw [List.count_append] at h0
    simp only [AddManualTask, hS, Bool.false_eq_true, if_false, GetPendingTasks,
      List.count_append, List.count_singleton_self]
    omega

theorem addManual_fetch_once_witness :
    State.initial.tasksSet "X" = false ∧ "X" ∉ GetPendingTasks State.initial ∧
    "X" ∉ State.initial.toDeleteTasks ∧
    (GetPendingTasks
      ([["X"], ["Y", "X"]].foldl fetchCycle (AddManualTask State.initial "X"))).count "X" = 1 :=
  ⟨by decide, by decide, by decide,
    addManual_fetch_once State.initial "X" [["X"], ["Y", "X"]] (by decide) (by decide)
      (by decide)⟩

/-- C9: in a reachable state in which a worker holds `X`, `FinishTask(X)`
followed by a fetch cycle leaves `X` queued at most once and absent from the
dedup set, so that the next fetch cycle whose page holds `X`, or
`AddManualTask(X)`, queues `X` exactly once. -/
theorem finish_then_fetch (σ : Sys) (X : String) (page : List String)
    (h : σ.Reachable) (hX : X ∈ σ.running) :
    (GetPendingTasks (fetchCycle (FinishTask σ.state X) page)).count X ≤ 1 ∧
    (fetchCycle (FinishTask σ.state X) page).tasksSet X = false ∧
    (∀ page2, X ∈ page2 →
      (GetPendingTasks (fetchCycle (fetchCycle (FinishTask σ.state X) page) page2)).count X
        = 1) ∧
    (GetPendingTasks (AddManualTask (fetchCycle (FinishTask σ.state X) page) X)).count X
      = 1 := by
  have hd := Dedup.of_reachable h
  have hS : (FinishTask σ.state X).tasksSet X = true := hd.held X hX
  have hQ : (GetPendingTasks σ.state).count X = 0 :=
    List.count_eq_zero.mpr (fun hc => hd.apart X hc hX)
  obtain ⟨f1, f2, f3, f4⟩ := fetchCycle_fields (FinishTask σ.state X) page
  obtain ⟨p1, p2⟩ := appendPage_present page (FinishTask σ.state X) X hS
  have hcount : (GetPendingTasks (fetchCycle (FinishTask σ.state X) page)).count X = 0 := by
    rw [← hQ]
    simp only [GetPendingTasks, List.count_append, f1, f2, p2]
    rfl
  have hset : (fetchCycle (FinishTask σ.state X) page).tasksSet X = false := by
    rw [f4 X, p1]
    simp [FinishTask]
  refine ⟨by omega, hset, ?_, ?_⟩
  · intro page2 hX2
    obtain ⟨g1, g2, _, _⟩ := fetchCycle_fields (fetchCycle (FinishTask σ.state X) page) page2
    obtain ⟨q1, q2⟩ := appendPage_absent page2 _ X hset hX2
    have hc := hcount
    simp only [GetPendingTasks, List.count_append] at hc ⊢
    rw [g1, g2, q2]
    omega
  · have hc := hcount
    simp only [GetPendingTasks, List.count_append] at hc
    simp only [AddManualTask, hset, Bool.false_eq_true, if_false, GetPendingTasks,
      List.count_append, List.count_singleton_self]
    omega

theorem finish_then_fetch_witness :
    heldSys.Reachable ∧ "X" ∈ heldSys.running ∧
    (GetPendingTasks (fetchCycle (FinishTask heldSys.state "X") ["X"])).count "X" ≤ 1 ∧
    (fetchCycle (FinishTask heldSys.state "X") ["X"]).tasksSet "X" = false ∧
    (∀ page2, "X" ∈ page2 →
      (GetPendingTasks
        (fetchCycle (fetchCycle (FinishTask heldSys.state "X") ["X"]) page2)).count "X" = 1) ∧
    (GetPendingTasks
      (AddManualTask (fetchCycle (FinishTask heldSys.state "X") ["X"]) "X")).count "X" = 1 :=
  ⟨⟨heldOps, rfl⟩, by decide,
    finish_then_fetch heldSys "X" ["X"] ⟨heldOps, rfl⟩ (by decide)⟩

theorem drain_succ_returned (k : Nat) (s : State) (x : String)
    (h : (GetTask s).1 = GetTaskResult.returned x none) :
    drain (k + 1) s = x :: drain k (GetTask s).2 := by
  have e : GetTask s = (GetTaskResult.returned x none, (GetTask s).2) := by
    rw [← h]
  simp only [drain]
  rw [e]

theorem drain_pending : ∀ (k : Nat) (s : State), s.isStop = false →
    s.manualTasks.length + s.tasks.length = k → drain k s = s.manualTasks ++ s.tasks := by
  intro k
  induction k with
  | zero =>
    intro s _ hk
    have h1 : s.manualTasks = [] := List.eq_nil_of_length_eq_zero (by omega)
    have h2 : s.tasks = [] := List.eq_nil_of_length_eq_zero (by omega)
    simp [drain, h1, h2]
  | succ k ih =>
    intro s hrun hk
    have hG : GetTask s = getTaskLocked s := by simp [GetTask, hrun]
    rcases getTaskLocked_cases s with
      ⟨x, rest, hm, hr, hs⟩ | ⟨hm, hq, _⟩ | ⟨hm, x, rest, hq, hr, h1, h2, _, _, h5⟩
    · rw [drain_succ_returned k s x (by rw [hG, hr]), hG, hs, hm]
      have := ih { s with manualTasks := rest } hrun (by
        simp only []
        rw [hm] at hk
        simp only [List.length_cons] at hk
        omega)
      rw [this]
      rfl
    · rw [hm, hq] at hk
      simp at hk
    · rw [drain_succ_returned k s x (by rw [hG, hr]), hG, hm, hq]
      have := ih (getTaskLocked s).2 (by rw [h5, hrun]) (by
        rw [h1, h2]
        rw [hm, hq] at hk
        simp only [List.length_cons, List.length_nil] at hk ⊢
        omega)
      rw [this, h1, h2]
      rfl

/-- C10, as stated, fails for a call that had to wait: a `GetTask` call that
found both queues empty parks in the wait loop; after `AddManualTask("M")` and
a fetch cycle reading `F` it wakes with the manual queue holding `M` and
returns `F`, leaving `M` queued. -/
theorem getTask_wakeup_skips_manual :
    (getTaskLocked State.initial).1 = GetTaskResult.waitTask ∧
    parkedState.isStop = false ∧
    parkedState.manualTasks = ["M"] ∧ parkedState.tasks = ["F"] ∧
    (waitLoop parkedState).1 = GetTaskResult.returned "F" none ∧
    (waitLoop parkedState).2.manualTasks = ["M"] ∧
    (waitLoop parkedState).2.tasks = [] := by
  decide

/-- C10, amended: a `GetTask` call that passes the stop gate and finds the
manual queue non-empty on entering its critical section returns its first
element and removes only that element, whatever the fetched queue holds; one
that finds the manual queue empty and the fetched queue non-empty returns the
first element of the fetched queue; hence successive calls, with nothing else
in between, return the manual ids oldest first and then the fetched ids oldest
first. -/
theorem getTask_priority_fifo (s : State) (hrun : s.isStop = false) :
    (∀ x rest, s.manualTasks = x :: rest →
      GetTask s = (GetTaskResult.returned x none, { s with manualTasks := rest })) ∧
    (∀ x rest, s.manualTasks = [] → s.tasks = x :: rest →
      (GetTask s).1 = GetTaskResult.returned x none ∧ (GetTask s).2.tasks = rest ∧
      (GetTask s).2.manualTasks = [] ∧ (GetTask s).2.tasksSet = s.tasksSet ∧
      (GetTask s).2.toDeleteTasks = s.toDeleteTasks) ∧
    drain (s.manualTasks.length + s.tasks.length) s = s.manualTasks ++ s.tasks := by
  have hG : GetTask s = getTaskLocked s := by simp [GetTask, hrun]
  refine ⟨?_, ?_, drain_pending _ s hrun rfl⟩
  · intro x rest hm
    rw [hG]
    simp [getTaskLocked, hm]
  · intro x rest hm hq
    rw [hG]
    rcases getTaskLocked_cases s with
      ⟨y, r, hm', _⟩ | ⟨_, hq', _⟩ | ⟨_, y, r, hq', hr, h1, h2, h3, h4, _⟩
    · rw [hm] at hm'
      simp at hm'
    · rw [hq] at hq'
      simp at hq'
    · rw [hq] at hq'
      obtain ⟨rfl, rfl⟩ := List.cons.inj hq'
      exact ⟨hr, h1, h2, h3, h4⟩

theorem getTask_priority_fifo_witness :
    (queuedState.isStop = false ∧ queuedState.manualTasks = ["m1", "m2"] ∧
      queuedState.tasks = ["f1", "f2"] ∧
      GetTask queuedState
        = (GetTaskResult.returned "m1" none, { queuedState with manualTasks := ["m2"] }) ∧
      drain 4 queuedState = ["m1", "m2", "f1", "f2"]) ∧
    (fetchedState.isStop = false ∧ fetchedState.manualTasks = [] ∧
      fetchedState.tasks = ["f1", "f2"] ∧
      (GetTask fetchedState).1 = GetTaskResult.returned "f1" none ∧
      (GetTask fetchedState).2.tasks = ["f2"]) :=
  ⟨⟨rfl, rfl, rfl,
      (getTask_priority_fifo queuedState rfl).1 "m1" ["m2"] rfl,
      (getTask_priority_fifo queuedState rfl).2.2⟩,
    ⟨rfl, rfl, rfl,
      ((getTask_priority_fifo fetchedState rfl).2.1 "f1" ["f2"] rfl rfl).1,
      ((getTask_priority_fifo fetchedState rfl).2.1 "f1" ["f2"] rfl rfl).2.1⟩⟩

theorem fetchIteration_fold (result : List String) (s : State) (b : Bool) :
    result.foldl (fun (acc : State × Bool) r => (appendFetched acc.1 r, true)) (s, b)
      = (result.foldl appendFetched s, b || !result.isEmpty) := by
  induction result generalizing s b with
  | nil => simp
  | cons r result ih =>
    rw [List.foldl_cons, ih]
    simp

/-- One iteration is one fetch cycle, and `ok` says that the page had a row. -/
theorem fetchIteration_eq (s : State) (result : List String) :
    fetchIteration s result = (fetchCycle s result, !result.isEmpty) := by
  simp [fetchIteration, fetchIteration_fold, fetchCycle]

theorem fetch_nonempty (s : State) (page : List String)
    (rest : List (Except String (List String))) (hp : page ≠ []) :
    (fetchTasksFromDatabase s (Except.ok page :: rest)).outcome = FetchOutcome.returned none ∧
    (fetchTasksFromDatabase s (Except.ok page :: rest)).state = fetchCycle s page ∧
    (fetchTasksFromDatabase s (Except.ok page :: rest)).sleeps = 0 := by
  have h : (fetchIteration s page).2 = true := by
    rw [fetchIteration_eq]
    cases page with
    | nil => exact absurd rfl hp
    | cons _ _ => rfl
  simp [fetchTasksFromDatabase, fetchIteration_eq, hp]

theorem fetch_empty (s : State) (rest : List (Except String (List String))) :
    (fetchTasksFromDatabase s (Except.ok [] :: rest)).outcome
      = (fetchTasksFromDatabase (fetchCycle s []) rest).outcome ∧
    (fetchTasksFromDatabase s (Except.ok [] :: rest)).state
      = (fetchTasksFromDatabase (fetchCycle s []) rest).state ∧
    (fetchTasksFromDatabase s (Except.ok [] :: rest)).sleeps
      = (fetchTasksFromDatabase (fetchCycle s []) rest).sleeps + 1 := by
  have h : (fetchIteration s []).2 = false := by
    rw [fetchIteration_eq]
    rfl
  simp [fetchTasksFromDatabase, h, fetchIteration_eq]

/-- A successful return of the fetch loop: some number of empty pages, each
followed by a sleep, then one page with at least one row. -/
theorem fetch_returned (answers : List (Except String (List String))) (s : State)
    (h : (fetchTasksFromDatabase s answers).outcome = FetchOutcome.returned none) :
    ∃ k page rest, page ≠ [] ∧
      answers = List.replicate k (Except.ok []) ++ Except.ok page :: rest ∧
      (fetchTasksFromDatabase s answers).sleeps = k ∧
      (fetchTasksFromDatabase s answers).state
        = fetchCycle ((fun st => fetchCycle st [])^[k] s) page := by
  induction answers generalizing s with
  | nil => simp [fetchTasksFromDatabase] at h
  | cons ans answers ih =>
    cases ans with
    | error err => simp [fetchTasksFromDatabase] at h
    | ok page =>
      by_cases hp : page = []
      · subst hp
        obtain ⟨e1, e2, e3⟩ := fetch_empty s answers
        rw [e1] at h
        obtain ⟨k, page, rest, hne, ha, hs, hst⟩ := ih (fetchCycle s []) h
        refine ⟨k + 1, page, rest, hne, ?_, ?_, ?_⟩
        · rw [ha, List.replicate_succ, List.cons_append]
        · rw [e3, hs]
        · rw [e2, hst, Function.iterate_succ_apply]
      · obtain ⟨_, e2, e3⟩ := fetch_nonempty s page answers hp
        exact ⟨0, page, answers, hp, by simp, e3, by simpa using e2⟩

theorem stop_blocks (s : State) (h : s.isStop = true) :
    GetTask s = (GetTaskResult.waitStop, s) := by
  simp [GetTask, h]

/-- C11: a `GetTask` call made while the scheduler is stopped neither returns
nor dequeues anything, for as long as it stays stopped; after `StartScheduler`
the call returns the head of the pending list as it stood before the stop and
removes just that id. -/
theorem stop_start_gate (s : State) (x : String) (rest : List String)
    (hp : GetPendingTasks s = x :: rest) :
    GetTask (StopScheduler s) = (GetTaskResult.waitStop, StopScheduler s) ∧
    (∀ s' : State, s'.isStop = true → GetTask s' = (GetTaskResult.waitStop, s')) ∧
    GetPendingTasks (StopScheduler s) = x :: rest ∧
    (GetTask (StartScheduler (StopScheduler s))).1 = GetTaskResult.returned x none ∧
    GetPendingTasks (GetTask (StartScheduler (StopScheduler s))).2 = rest := by
  refine ⟨stop_blocks _ rfl, fun s' h => stop_blocks s' h, hp, ?_⟩
  have hG : GetTask (StartScheduler (StopScheduler s))
      = getTaskLocked (StartScheduler (StopScheduler s)) := by
    simp [GetTask, StartScheduler]
  rw [hG]
  have hm : (StartScheduler (StopScheduler s)).manualTasks = s.manualTasks := rfl
  have hq : (StartScheduler (StopScheduler s)).tasks = s.tasks := rfl
  unfold GetPendingTasks at hp ⊢
  rcases getTaskLocked_cases (StartScheduler (StopScheduler s)) with
    ⟨y, r, hmy, hr, hs⟩ | ⟨hm0, hq0, _⟩ | ⟨hm0, y, r, hqy, hr, h1, h2, _⟩
  · rw [hm] at hmy
    rw [hmy, List.cons_append] at hp
    obtain ⟨rfl, rfl⟩ := List.cons.inj hp
    refine ⟨hr, ?_⟩
    rw [hs]
    rfl
  · rw [hm] at hm0
    rw [hq] at hq0
    rw [hm0, hq0] at hp
    simp at hp
  · rw [hm] at hm0
    rw [hq] at hqy
    rw [hm0, hqy, List.nil_append] at hp
    obtain ⟨rfl, rfl⟩ := List.cons.inj hp
    exact ⟨hr, by rw [h1, h2, List.nil_append]⟩

theorem stop_start_gate_witness :
    GetPendingTasks queuedState = "m1" :: ["m2", "f1", "f2"] ∧
    GetTask (StopScheduler queuedState) = (GetTaskResult.waitStop, StopScheduler queuedState) ∧
    (∀ s' : State, s'.isStop = true → GetTask s' = (GetTaskResult.waitStop, s')) ∧
    GetPendingTasks (StopScheduler queuedState) = "m1" :: ["m2", "f1", "f2"] ∧
    (GetTask (StartScheduler (StopScheduler queuedState))).1
      = GetTaskResult.returned "m1" none ∧
    GetPendingTasks (GetTask (StartScheduler (StopScheduler queuedState))).2
      = ["m2", "f1", "f2"] :=
  ⟨rfl, stop_start_gate queuedState "m1" ["m2", "f1", "f2"] rfl⟩

/-- C12: `StopScheduler` and `StartScheduler` change only the running flag:
`IsScheduleRunning()` is false after the first and true after the second, and
both leave the manual queue, the fetched queue, the dedup set, the
pending-deletion list, the fetch-in-flight flag and `GetPendingTasks()` as they
were. -/
theorem stop_start_frame (s : State) :
    IsScheduleRunning (StopScheduler s) = false ∧
    IsScheduleRunning (StartScheduler s) = true ∧
    StopScheduler s = { s with isStop := true } ∧
    StartScheduler s = { s with isStop := false } ∧
    ((StopScheduler s).manualTasks = s.manualTasks ∧ (StopScheduler s).tasks = s.tasks ∧
      (StopScheduler s).tasksSet = s.tasksSet ∧
      (StopScheduler s).toDeleteTasks = s.toDeleteTasks ∧
      (StopScheduler s).fetchInProgress = s.fetchInProgress ∧
      GetPendingTasks (StopScheduler s) = GetPendingTasks s) ∧
    ((StartScheduler s).manualTasks = s.manualTasks ∧ (StartScheduler s).tasks = s.tasks ∧
      (StartScheduler s).tasksSet = s.tasksSet ∧
      (StartScheduler s).toDeleteTasks = s.toDeleteTasks ∧
      (StartScheduler s).fetchInProgress = s.fetchInProgress ∧
      GetPendingTasks (StartScheduler s) = GetPendingTasks s) :=
  ⟨rfl, rfl, rfl, rfl, ⟨rfl, rfl, rfl, rfl, rfl, rfl⟩, ⟨rfl, rfl, rfl, rfl, rfl, rfl⟩⟩

theorem addManualTask_set (s : State) (task x : String) (h : s.tasksSet x = true) :
    (AddManualTask s task).tasksSet x = true := by
  unfold AddManualTask
  split
  · exact h
  · by_cases hx : x = task
    · subst hx; simp
    · simpa [Function.update_noteq hx] using h

/-- Only a fetch cycle removes an id from the dedup set. -/
theorem tasksSet_kept (σ σ' : Sys) (op : Op) (t : String)
    (hop : ∀ page, op ≠ Op.fetch page) (e : op.apply σ = some σ')
    (h : σ.state.tasksSet t = true) : σ'.state.tasksSet t = true := by
  cases op with
  | addManual task =>
    simp only [Op.apply, Option.some.injEq] at e
    subst e
    exact addManualTask_set σ.state task t h
  | getTask =>
    simp only [Op.apply, Option.some.injEq] at e
    subst e
    simp only []
    rcases getTaskLocked_cases σ.state with
      ⟨x, rest, _, _, hs⟩ | ⟨_, _, _, _, _, h3, _⟩ | ⟨_, x, rest, _, _, _, _, h3, _⟩
    · rw [hs]
      exact h
    · rw [h3]
      exact h
    · rw [h3]
      exact h
  | resume =>
    simp only [Op.apply, Option.some.injEq] at e
    subst e
    simp only []
    rcases waitLoop_cases σ.state with ⟨_, _, _, _, h3, _⟩ | ⟨x, rest, _, _, _, _, h3, _⟩
    · rw [h3]
      exact h
    · rw [h3]
      exact h
  | fetch page => exact absurd rfl (hop page)
  | fetchDone =>
    simp only [Op.apply, Option.some.injEq] at e
    subst e
    exact h
  | finish task =>
    simp only [Op.apply] at e
    by_cases ht : task ∈ σ.running
    · rw [if_pos ht] at e
      simp only [Option.some.injEq] at e
      subst e
      exact h
    · rw [if_neg ht] at e
      simp at e
  | start =>
    simp only [Op.apply, Option.some.injEq] at e
    subst e
    exact h
  | stop =>
    simp only [Op.apply, Option.some.injEq] at e
    subst e
    exact h
  | setFetchOptions fetchSize fetchThreshold =>
    simp only [Op.apply, Option.some.injEq] at e
    subst e
    exact h

/-- C13: `FinishTask(t)` appends `t` to the pending-deletion list and changes
nothing else, so the dedup set holds `t` right after the call exactly as
before; `t` is out of the dedup set after the next fetch cycle, and no other
action removes an id from the dedup set. -/
theorem finishTask_frame (s : State) (t : String) :
    FinishTask s t = { s with toDeleteTasks := s.toDeleteTasks ++ [t] } ∧
    (FinishTask s t).toDeleteTasks = s.toDeleteTasks ++ [t] ∧
    ((FinishTask s t).tasksSet = s.tasksSet ∧ (FinishTask s t).manualTasks = s.manualTasks ∧
      (FinishTask s t).tasks = s.tasks ∧
      (FinishTask s t).fetchInProgress = s.fetchInProgress ∧
      (FinishTask s t).isStop = s.isStop) ∧
    (s.tasksSet t = true → (FinishTask s t).tasksSet t = true) ∧
    (∀ page, (fetchCycle (FinishTask s t) page).tasksSet t = false) ∧
    (∀ (σ σ' : Sys) (op : Op), (∀ page, op ≠ Op.fetch page) → op.apply σ = some σ' →
      σ.state.tasksSet t = true → σ'.state.tasksSet t = true) := by
  refine ⟨rfl, rfl, ⟨rfl, rfl, rfl, rfl, rfl⟩, fun h => h, ?_,
    fun σ σ' op hop e h => tasksSet_kept σ σ' op t hop e h⟩
  intro page
  obtain ⟨_, _, _, f4⟩ := fetchCycle_fields (FinishTask s t) page
  rw [f4 t]
  simp [FinishTask]

theorem newIds_update (page : List String) (S : String → Bool) (r : String)
    (hr : S r = false) :
    newIds (Function.update S r true) page = (newIds S page).filter (fun x => x != r) := by
  induction page with
  | nil => simp [newIds]
  | cons q page ih =>
    by_cases hq : q = r
    · subst hq
      simp only [newIds, Function.update_same, if_true, hr, Bool.false_eq_true, if_false]
      rw [ih]
      simp [List.filter_cons, List.filter_filter]
    · have hu : Function.update S r true q = S q := Function.update_noteq hq _ _
      by_cases hS : S q = true
      · simp only [newIds, hu, hS, if_true]
        exact ih
      · have hSf : S q = false := by simpa using hS
        simp only [newIds, hu, hSf, Bool.false_eq_true, if_false]
        rw [ih]
        have hqr : (q != r) = true := by simpa using hq
        simp only [List.filter_cons, hqr, if_true, List.filter_filter]
        congr 1
        apply List.filter_congr
        intro x _
        exact Bool.and_comm _ _

theorem appendPage_tasks (page : List String) (s : State) :
    (page.foldl appendFetched s).tasks = s.tasks ++ newIds s.tasksSet page := by
  induction page generalizing s with
  | nil => simp [newIds]
  | cons r page ih =>
    rw [List.foldl_cons, ih]
    by_cases hr : s.tasksSet r = true
    · simp [appendFetched, newIds, hr]
    · have hrf : s.tasksSet r = false := by simpa using hr
      simp only [appendFetched, newIds, hrf, Bool.false_eq_true, if_false]
      rw [newIds_update page s.tasksSet r hrf]
      simp

theorem appendPage_set (page : List String) (s : State) (x : String) :
    (page.foldl appendFetched s).tasksSet x = (s.tasksSet x || decide (x ∈ page)) := by
  induction page generalizing s with
  | nil => simp
  | cons r page ih =>
    rw [List.foldl_cons, ih]
    by_cases hr : s.tasksSet r = true
    · by_cases hx : x = r
      · subst hx
        simp [appendFetched, hr]
      · simp [appendFetched, hr, hx]
    · have hrf : s.tasksSet r = false := by simpa using hr
      by_cases hx : x = r
      · subst hx
        simp [appendFetched, hrf]
      · simp [appendFetched, hrf, Function.update_noteq hx, hx]

theorem newIds_mem (page : List String) (S : String → Bool) (x : String) :
    x ∈ newIds S page ↔ (x ∈ page ∧ S x = false) := by
  induction page with
  | nil => simp [newIds]
  | cons r page ih =>
    by_cases hr : S r = true
    · simp only [newIds, hr, if_true, ih, List.mem_cons]
      constructor
      · rintro ⟨h1, h2⟩
        exact ⟨Or.inr h1, h2⟩
      · rintro ⟨h1 | h1, h2⟩
        · subst h1
          rw [hr] at h2
          exact absurd h2 (by simp)
        · exact ⟨h1, h2⟩
    · have hrf : S r = false := by simpa using hr
      simp only [newIds, hrf, Bool.false_eq_true, if_false, List.mem_cons, List.mem_filter, ih]
      constructor
      · rintro (h | ⟨⟨h1, h2⟩, _⟩)
        · subst h
          exact ⟨Or.inl rfl, hrf⟩
        · exact ⟨Or.inr h1, h2⟩
      · rintro ⟨h1 | h1, h2⟩
        · exact Or.inl h1
        · by_cases hx : x = r
          · exact Or.inl hx
          · exact Or.inr ⟨⟨h1, h2⟩, by simpa using hx⟩

theorem newIds_nodup (page : List String) (S : String → Bool) : (newIds S page).Nodup := by
  induction page with
  | nil => simp [newIds]
  | cons r page ih =>
    by_cases hr : S r = true
    · simpa [newIds, hr] using ih
    · have hrf : S r = false := by simpa using hr
      simp only [newIds, hrf, Bool.false_eq_true, if_false]
      apply List.nodup_cons.mpr
      exact ⟨by simp [List.mem_filter], ih.filter _⟩

theorem newIds_sublist (page : List String) (S : String → Bool) :
    (newIds S page).Sublist page := by
  induction page with
  | nil => simp [newIds]
  | cons r page ih =>
    by_cases hr : S r = true
    · simp only [newIds, hr, if_true]
      exact ih.trans (List.sublist_cons_self r page)
    · have hrf : S r = false := by simpa using hr
      simp only [newIds, hrf, Bool.false_eq_true, if_false]
      exact List.Sublist.cons₂ r ((List.filter_sublist _).trans ih)

theorem appendPage_flags (page : List String) (s : State) :
    (page.foldl appendFetched s).fetchInProgress = s.fetchInProgress ∧
    (page.foldl appendFetched s).FetchSize = s.FetchSize ∧
    (page.foldl appendFetched s).FetchThreshold = s.FetchThreshold := by
  induction page generalizing s with
  | nil => simp
  | cons r page ih =>
    rw [List.foldl_cons]
    obtain ⟨i1, i2, i3⟩ := ih (appendFetched s r)
    have h : (appendFetched s r).fetchInProgress = s.fetchInProgress ∧
        (appendFetched s r).FetchSize = s.FetchSize ∧
        (appendFetched s r).FetchThreshold = s.FetchThreshold := by
      unfold appendFetched
      split <;> simp
    exact ⟨i1.trans h.1, i2.trans h.2.1, i3.trans h.2.2⟩

/-- C14: one fetch-cycle iteration over a page appends to the fetched queue
the ids of the page that were not in the dedup set, in the order received and
each once; it leaves the manual queue alone; the dedup set becomes the old set
together with the ids of the page, minus the ids of the pending-deletion list;
and the pending-deletion list becomes empty. -/
theorem fetchCycle_postcondition (s : State) (page : List String) :
    fetchIteration s page = (fetchCycle s page, !page.isEmpty) ∧
    (fetchCycle s page).tasks = s.tasks ++ newIds s.tasksSet page ∧
    ((newIds s.tasksSet page).Nodup ∧ (newIds s.tasksSet page).Sublist page ∧
      ∀ x, x ∈ newIds s.tasksSet page ↔ (x ∈ page ∧ s.tasksSet x = false)) ∧
    (fetchCycle s page).manualTasks = s.manualTasks ∧
    (∀ x, (fetchCycle s page).tasksSet x
      = ((s.tasksSet x || decide (x ∈ page)) && decide (x ∉ s.toDeleteTasks))) ∧
    (fetchCycle s page).toDeleteTasks = [] ∧
    ((fetchCycle s page).fetchInProgress = s.fetchInProgress ∧
      (fetchCycle s page).isStop = s.isStop ∧
      (fetchCycle s page).FetchSize = s.FetchSize ∧
      (fetchCycle s page).FetchThreshold = s.FetchThreshold) := by
  obtain ⟨f1, f2, f3, f4⟩ := fetchCycle_fields s page
  obtain ⟨g1, g2, g3⟩ := appendPage_flags page s
  obtain ⟨_, _, k3⟩ := appendPage_fields page s
  refine ⟨fetchIteration_eq s page, ?_, ⟨newIds_nodup _ _, newIds_sublist _ _,
    fun x => newIds_mem page s.tasksSet x⟩, f2, ?_, f3, ⟨g1, k3, g2, g3⟩⟩
  · rw [f1, appendPage_tasks]
  · intro x
    rw [f4 x, appendPage_set]

/-- C15, as stated, fails: with `X` already in the dedup set, a page holding
only `X` ends the fetch loop at once, with a nil error, no sleep and nothing
appended to the fetched queue. -/
theorem fetch_stops_without_new_id :
    knownState.tasksSet "X" = true ∧ knownState.tasks = [] ∧
    (fetchTasksFromDatabase knownState [Except.ok ["X"]]).outcome
      = FetchOutcome.returned none ∧
    (fetchTasksFromDatabase knownState [Except.ok ["X"]]).sleeps = 0 ∧
    (fetchTasksFromDatabase knownState [Except.ok ["X"]]).state.tasks = [] := by
  decide

/-- C15, amended: the fetch loop stops once a page with at least one row has
been processed, whether or not any of its ids was new: an iteration whose page
has a row returns nil after its fetch cycle, an iteration whose page is empty
sleeps the idle interval and retries, and a successful return comes only
after an iteration whose page had a row. -/
theorem fetch_stops_on_row (s : State) (answers : List (Except String (List String))) :
    (∀ page rest, page ≠ [] →
      (fetchTasksFromDatabase s (Except.ok page :: rest)).outcome = FetchOutcome.returned none ∧
      (fetchTasksFromDatabase s (Except.ok page :: rest)).state = fetchCycle s page ∧
      (fetchTasksFromDatabase s (Except.ok page :: rest)).sleeps = 0) ∧
    (∀ rest,
      (fetchTasksFromDatabase s (Except.ok [] :: rest)).outcome
        = (fetchTasksFromDatabase (fetchCycle s []) rest).outcome ∧
      (fetchTasksFromDatabase s (Except.ok [] :: rest)).state
        = (fetchTasksFromDatabase (fetchCycle s []) rest).state ∧
      (fetchTasksFromDatabase s (Except.ok [] :: rest)).sleeps
        = (fetchTasksFromDatabase (fetchCycle s []) rest).sleeps + 1) ∧
    ((fetchTasksFromDatabase s answers).outcome = FetchOutcome.returned none →
      ∃ k page rest, page ≠ [] ∧
        answers = List.replicate k (Except.ok []) ++ Except.ok page :: rest ∧
        (fetchTasksFromDatabase s answers).sleeps = k ∧
        (fetchTasksFromDatabase s answers).state
          = fetchCycle ((fun st => fetchCycle st [])^[k] s) page) :=
  ⟨fun page rest hp => fetch_nonempty s page rest hp, fun rest => fetch_empty s rest,
    fun h => fetch_returned answers s h⟩

theorem triggerFetch_flag (s : State) : (triggerFetch s).fetchInProgress = true := by
  unfold triggerFetch
  by_cases h : s.fetchInProgress = true
  · simp [h]
  · simp [h]

theorem waitLoop_flag (s : State) :
    (waitLoop s).2.fetchInProgress = (s.fetchInProgress || s.tasks.isEmpty) := by
  cases ht : s.tasks with
  | nil => simp [waitLoop, ht, triggerFetch_flag]
  | cons x rest => simp [waitLoop, takeFetched, ht]

theorem getTaskLocked_manual_flag (s : State) (hm : s.manualTasks ≠ []) :
    (getTaskLocked s).2.fetchInProgress = s.fetchInProgress := by
  cases h : s.manualTasks with
  | nil => exact absurd h hm
  | cons x rest => simp [getTaskLocked, h]

theorem waitLoopSpawns_flag (s : State) :
    (if s.fetchInProgress = true then 1 else 0) + waitLoopSpawns s
      = if (waitLoop s).2.fetchInProgress = true then 1 else 0 := by
  rw [waitLoop_flag]
  cases hf : s.fetchInProgress <;> cases ht : s.tasks <;>
    simp [waitLoopSpawns, triggerFetchSpawns, hf, ht]

theorem getTaskSpawns_flag (s : State) :
    (if s.fetchInProgress = true then 1 else 0) + getTaskSpawns s
      = if (getTaskLocked s).2.fetchInProgress = true then 1 else 0 := by
  cases hm : s.manualTasks with
  | cons x rest =>
    have hne : s.manualTasks ≠ [] := by simp [hm]
    rw [getTaskLocked_manual_flag s hne]
    simp [getTaskSpawns, hm]
  | nil =>
    have key : getTaskLocked s
        = waitLoop (if (s.tasks.length : Int) < s.FetchThreshold then triggerFetch s else s) := by
      simp [getTaskLocked, hm]
    rw [key]
    by_cases hth : (s.tasks.length : Int) < s.FetchThreshold
    · rw [if_pos hth, ← waitLoopSpawns_flag, triggerFetch_flag]
      simp only [getTaskSpawns, hm, if_pos hth]
      cases hf : s.fetchInProgress <;>
        simp [waitLoopSpawns, triggerFetchSpawns, triggerFetch, hf]
    · rw [if_neg hth, ← waitLoopSpawns_flag]
      simp only [getTaskSpawns, hm, if_neg hth]

theorem waitLoopSpawns_iff (s : State) :
    waitLoopSpawns s = 1 ↔ s.fetchInProgress = false ∧ s.tasks = [] := by
  cases hf : s.fetchInProgress <;> cases ht : s.tasks <;>
    simp [waitLoopSpawns, triggerFetchSpawns, hf, ht]

theorem getTaskSpawns_iff (s : State) (hm : s.manualTasks = []) :
    getTaskSpawns s = 1 ↔
      s.fetchInProgress = false ∧
        ((s.tasks.length : Int) < s.FetchThreshold ∨ s.tasks = []) := by
  by_cases hth : (s.tasks.length : Int) < s.FetchThreshold
  · simp only [getTaskSpawns, hm, if_pos hth]
    cases hf : s.fetchInProgress <;>
      simp [waitLoopSpawns, triggerFetchSpawns, triggerFetch, hf, hth]
  · simp only [getTaskSpawns, hm, if_neg hth]
    rw [waitLoopSpawns_iff]
    simp [hth]

theorem idleCycles_fields (k : Nat) (s : State) :
    (idleCycles k s).tasks = s.tasks ∧
    (idleCycles k s).manualTasks = s.manualTasks ∧
    (idleCycles k s).FetchThreshold = s.FetchThreshold ∧
    (idleCycles k s).FetchSize = s.FetchSize ∧
    (idleCycles k s).fetchInProgress = s.fetchInProgress ∧
    (idleCycles k s).isStop = s.isStop := by
  induction k generalizing s with
  | zero => simp [idleCycles]
  | succ k ih =>
    have h := ih (fetchCycle s [])
    simp only [idleCycles, Function.iterate_succ_apply] at h ⊢
    simpa [fetchCycle, applyDeletes] using h

theorem fetch_error_after_idle (k : Nat) (s : State) (err : String)
    (rest : List (Except String (List String))) :
    (fetchTasksFromDatabase s (failingAnswers k err rest)).outcome
      = FetchOutcome.returned (some err) ∧
    (fetchTasksFromDatabase s (failingAnswers k err rest)).state = idleCycles k s ∧
    (fetchTasksFromDatabase s (failingAnswers k err rest)).sleeps = k := by
  induction k generalizing s with
  | zero => simp [failingAnswers, fetchTasksFromDatabase, idleCycles]
  | succ k ih =>
    have h := ih (fetchCycle s [])
    have e := fetch_empty s (failingAnswers k err rest)
    have hl : failingAnswers (k + 1) err rest = Except.ok [] :: failingAnswers k err rest := by
      simp [failingAnswers, List.replicate_succ]
    rw [hl, e.1, e.2.1, e.2.2, h.1, h.2.1, h.2.2]
    simp [idleCycles, Function.iterate_succ_apply]

/-- C17: when `Query` returns an error, in the first iteration or after `k`
iterations whose page was empty, `fetchTasksFromDatabase` returns that error;
the failing iteration leaves the whole state as it found it, the fetched and
manual queues are as before the fetch, the background fetch then clears the
in-flight flag, and a `GetTask` call entering that state with the manual queue
empty and the fetched queue below the threshold starts a fresh fetch. -/
theorem fetch_failure (s : State) (k : Nat) (err : String)
    (rest : List (Except String (List String)))
    (hm : (backgroundFetch s (failingAnswers k err rest)).2.manualTasks = [])
    (ht : ((backgroundFetch s (failingAnswers k err rest)).2.tasks.length : Int)
            < (backgroundFetch s (failingAnswers k err rest)).2.FetchThreshold) :
    (fetchTasksFromDatabase s (failingAnswers k err rest)).outcome
      = FetchOutcome.returned (some err) ∧
    (fetchTasksFromDatabase s (failingAnswers k err rest)).state = idleCycles k s ∧
    (fetchTasksFromDatabase (idleCycles k s) (Except.error err :: rest)).state
      = idleCycles k s ∧
    (fetchTasksFromDatabase s (Except.error err :: rest)).state = s ∧
    (idleCycles k s).tasks = s.tasks ∧
    (idleCycles k s).manualTasks = s.manualTasks ∧
    backgroundFetch s (failingAnswers k err rest)
      = (FetchOutcome.returned (some err),
          { idleCycles k s with fetchInProgress := false }) ∧
    getTaskSpawns (backgroundFetch s (failingAnswers k err rest)).2 = 1 ∧
    (getTaskLocked (backgroundFetch s (failingAnswers k err rest)).2).2.fetchInProgress
      = true := by
  have h := fetch_error_after_idle k s err rest
  have hf := idleCycles_fields k s
  have hb : backgroundFetch s (failingAnswers k err rest)
      = (FetchOutcome.returned (some err),
          { idleCycles k s with fetchInProgress := false }) := by
    simp only [backgroundFetch, h.1, h.2.1]
  have hflag : (backgroundFetch s (failingAnswers k err rest)).2.fetchInProgress = false := by
    rw [hb]
  have hs : getTaskSpawns (backgroundFetch s (failingAnswers k err rest)).2 = 1 :=
    (getTaskSpawns_iff _ hm).2 ⟨hflag, Or.inl ht⟩
  refine ⟨h.1, h.2.1, rfl, rfl, hf.1, hf.2.1, hb, hs, ?_⟩
  have h2 := getTaskSpawns_flag (backgroundFetch s (failingAnswers k err rest)).2
  rw [hs] at h2
  by_contra hc
  rw [if_neg hc] at h2
  split at h2 <;> omega

/-- C17 at the initial state: one empty page, then the store fails with
`db down`; the flag is clear afterwards and the next `GetTask` call starts a
fetch. -/
theorem fetch_failure_witness :
    (backgroundFetch (triggerFetch State.initial)
        (failingAnswers 1 "db down" [])).2.manualTasks = [] ∧
    (backgroundFetch (triggerFetch State.initial)
        (failingAnswers 1 "db down" [])).1 = FetchOutcome.returned (some "db down") ∧
    (backgroundFetch (triggerFetch State.initial)
        (failingAnswers 1 "db down" [])).2.fetchInProgress = false ∧
    getTaskSpawns (backgroundFetch (triggerFetch State.initial)
        (failingAnswers 1 "db down" [])).2 = 1 :=
  ⟨by decide, by decide, by decide,
    (fetch_failure (triggerFetch State.initial) 1 "db down" [] (by decide) (by decide)).2.2.2.2.2.2.2.1⟩


/-! ## Deferred deletion and manual re-queueing -/

theorem tasksSet_kept_run (ops : List Op) (σ σ' : Sys) (t : String)
    (hops : ∀ op ∈ ops, ∀ page, op ≠ Op.fetch page) (e : run ops σ = some σ')
    (h : σ.state.tasksSet t = true) : σ'.state.tasksSet t = true := by
  induction ops generalizing σ with
  | nil =>
    simp only [run, Option.some.injEq] at e
    exact e ▸ h
  | cons op ops ih =>
    simp only [run] at e
    cases hop : op.apply σ with
    | none => simp [hop] at e
    | some σ1 =>
      rw [hop] at e
      exact ih σ1 (fun o ho => hops o (List.mem_cons_of_mem _ ho)) e
        (tasksSet_kept σ σ1 op t (hops op (List.mem_cons_self _ _)) hop h)

/-- C26: for an id `X` held by a worker in a reachable state and acknowledged
with `FinishTask(X)`, `AddManualTask(X)` called before the next fetch cycle,
right away or after any actions other than a fetch cycle, changes nothing: `X`
is not queued; called after the next fetch cycle, whatever its page, it
appends `X` to the end of the manual queue and puts it back in the dedup
set. -/
theorem deferred_deletion_blocks_requeue (σ : Sys) (X : String) (page : List String)
    (h : σ.Reachable) (hX : X ∈ σ.running) :
    AddManualTask (FinishTask σ.state X) X = FinishTask σ.state X ∧
    (∀ ops σ', (∀ op ∈ ops, ∀ p, op ≠ Op.fetch p) →
      run ops { state := FinishTask σ.state X, running := σ.running.erase X } = some σ' →
      AddManualTask σ'.state X = σ'.state) ∧
    X ∉ GetPendingTasks (AddManualTask (FinishTask σ.state X) X) ∧
    (AddManualTask (fetchCycle (FinishTask σ.state X) page) X).manualTasks
      = (fetchCycle (FinishTask σ.state X) page).manualTasks ++ [X] ∧
    (fetchCycle (FinishTask σ.state X) page).manualTasks = σ.state.manualTasks ∧
    (AddManualTask (fetchCycle (FinishTask σ.state X) page) X).tasksSet X = true := by
  have hd := Dedup.of_reachable h
  have hS : (FinishTask σ.state X).tasksSet X = true := hd.held X hX
  have hset : (fetchCycle (FinishTask σ.state X) page).tasksSet X = false := by
    obtain ⟨_, _, _, f4⟩ := fetchCycle_fields (FinishTask σ.state X) page
    rw [f4 X]
    simp [FinishTask]
  have hsame : AddManualTask (FinishTask σ.state X) X = FinishTask σ.state X := by
    simp [AddManualTask, hS]
  refine ⟨hsame, ?_, ?_, ?_, ?_, ?_⟩
  · intro ops σ' hops e
    have h' := tasksSet_kept_run ops _ σ' X hops e hS
    simp [AddManualTask, h']
  · rw [hsame]
    intro hc
    exact hd.apart X hc hX
  · simp [AddManualTask, hset]
  · exact (fetchCycle_fields (FinishTask σ.state X) page).2.1
  · simp [AddManualTask, hset]

/-- C26 in the state where a worker holds `X` fetched together with `Y`. -/
theorem deferred_deletion_blocks_requeue_witness :
    heldSys.Reachable ∧ "X" ∈ heldSys.running ∧
    AddManualTask (FinishTask heldSys.state "X") "X" = FinishTask heldSys.state "X" ∧
    (AddManualTask (fetchCycle (FinishTask heldSys.state "X") []) "X").manualTasks = ["X"] :=
  ⟨⟨heldOps, rfl⟩, by decide,
    (deferred_deletion_blocks_requeue heldSys "X" [] ⟨heldOps, rfl⟩ (by decide)).1,
    by decide⟩

/-! ## `GetTask` never fails -/

/-- C29, as stated, fails for a call that had to wait: in the reachable state
`parkedState` the manual queue holds `M`, and the parked `GetTask` call
returns `F`, the head of the fetched queue, with a nil error. -/
theorem woken_call_returns_fetched_head :
    Sys.Reachable { state := parkedState, running := [] } ∧
    parkedState.manualTasks.head? = some "M" ∧
    parkedState.tasks.head? = some "F" ∧
    (waitLoop parkedState).1 = GetTaskResult.returned "F" none ∧
    (Op.resume.apply { state := parkedState, running := [] }).map (fun σ => σ.running)
      = some ["F"] :=
  ⟨⟨parkedOps, rfl⟩, by decide⟩

/-- C29, amended: whenever a `GetTask` call returns, its error is nil; a call
that returns without waiting returns the head of the manual queue or, if that
queue is empty, of the fetched queue; a call that waited returns the head of
the fetched queue as it stands when the call is woken; and the final
`no task available` branch is never taken, because the wait loop is left only
with a non-empty fetched queue. -/
theorem getTask_never_errors (s : State) (task : String) (err : Option String) :
    ((GetTask s).1 = GetTaskResult.returned task err →
      err = none ∧ s.isStop = false ∧
      (s.manualTasks.head? = some task ∨
        (s.manualTasks = [] ∧ s.tasks.head? = some task))) ∧
    ((getTaskLocked s).1 = GetTaskResult.returned task err →
      err = none ∧
      (s.manualTasks.head? = some task ∨
        (s.manualTasks = [] ∧ s.tasks.head? = some task))) ∧
    ((waitLoop s).1 = GetTaskResult.returned task err →
      err = none ∧ s.tasks.head? = some task) ∧
    (∀ msg, (GetTask s).1 ≠ GetTaskResult.returned task (some msg) ∧
      (getTaskLocked s).1 ≠ GetTaskResult.returned task (some msg) ∧
      (waitLoop s).1 ≠ GetTaskResult.returned task (some msg)) := by
  have hw : (waitLoop s).1 = GetTaskResult.returned task err →
      err = none ∧ s.tasks.head? = some task := by
    intro h
    rcases waitLoop_cases s with ⟨_, hr, _⟩ | ⟨x, rest, hq, hr, _⟩
    · rw [hr] at h
      simp at h
    · rw [hr] at h
      simp only [GetTaskResult.returned.injEq] at h
      obtain ⟨rfl, rfl⟩ := h
      exact ⟨rfl, by rw [hq]; rfl⟩
  have hl : (getTaskLocked s).1 = GetTaskResult.returned task err →
      err = none ∧
      (s.manualTasks.head? = some task ∨
        (s.manualTasks = [] ∧ s.tasks.head? = some task)) := by
    intro h
    rcases getTaskLocked_cases s with
      ⟨x, rest, hm, hr, _⟩ | ⟨_, _, hr, _⟩ | ⟨hm, x, rest, hq, hr, _⟩
    · rw [hr] at h
      simp only [GetTaskResult.returned.injEq] at h
      obtain ⟨rfl, rfl⟩ := h
      exact ⟨rfl, Or.inl (by rw [hm]; rfl)⟩
    · rw [hr] at h
      simp at h
    · rw [hr] at h
      simp only [GetTaskResult.returned.injEq] at h
      obtain ⟨rfl, rfl⟩ := h
      exact ⟨rfl, Or.inr ⟨hm, by rw [hq]; rfl⟩⟩
  have hg : (GetTask s).1 = GetTaskResult.returned task err →
      err = none ∧ s.isStop = false ∧
      (s.manualTasks.head? = some task ∨
        (s.manualTasks = [] ∧ s.tasks.head? = some task)) := by
    intro h
    cases hstop : s.isStop with
    | true =>
      rw [stop_blocks s hstop] at h
      simp at h
    | false =>
      have hG : GetTask s = getTaskLocked s := by simp [GetTask, hstop]
      rw [hG] at h
      exact ⟨(hl h).1, rfl, (hl h).2⟩
  refine ⟨hg, hl, hw, ?_⟩
  intro msg
  have gw : ∀ e, (waitLoop s).1 = GetTaskResult.returned task e → e = none := by
    intro e h
    rcases waitLoop_cases s with ⟨_, hr, _⟩ | ⟨x, rest, hq, hr, _⟩
    · rw [hr] at h
      simp at h
    · rw [hr] at h
      simp only [GetTaskResult.returned.injEq] at h
      exact h.2.symm
  have gl : ∀ e, (getTaskLocked s).1 = GetTaskResult.returned task e → e = none := by
    intro e h
    rcases getTaskLocked_cases s with
      ⟨x, rest, hm, hr, _⟩ | ⟨_, _, hr, _⟩ | ⟨hm, x, rest, hq, hr, _⟩
    · rw [hr] at h
      simp only [GetTaskResult.returned.injEq] at h
      exact h.2.symm
    · rw [hr] at h
      simp at h
    · rw [hr] at h
      simp only [GetTaskResult.returned.injEq] at h
      exact h.2.symm
  have gg : ∀ e, (GetTask s).1 = GetTaskResult.returned task e → e = none := by
    intro e h
    cases hstop : s.isStop with
    | true =>
      rw [stop_blocks s hstop] at h
      simp at h
    | false =>
      have hG : GetTask s = getTaskLocked s := by simp [GetTask, hstop]
      rw [hG] at h
      exact gl e h
  refine ⟨fun h => ?_, fun h => ?_, fun h => ?_⟩
  · exact absurd (gg _ h) (by simp)
  · exact absurd (gl _ h) (by simp)
  · exact absurd (gw _ h) (by simp)

/-! ## `FinishTask` on an id that was not dispatched -/

/-- C30: `FinishTask` appends its id to the pending-deletion list whatever the
state, and after `X` is queued by a fetch cycle, `FinishTask(X)` is called
while `X` is still queued, a fetch cycle runs and a fetch cycle whose page
holds `X` runs, `GetPendingTasks()` is `[X, X]`: it holds `X` twice. The
worker action of the transition system, which acknowledges only an id it
holds, is not enabled in that state. -/
theorem finish_unguarded_duplicate (X : String) :
    (∀ s : State, FinishTask s X = { s with toDeleteTasks := s.toDeleteTasks ++ [X] }) ∧
    GetPendingTasks (fetchCycle State.initial [X]) = [X] ∧
    GetPendingTasks (requeuedState X) = [X, X] ∧
    (GetPendingTasks (requeuedState X)).count X = 2 ∧
    ¬ (GetPendingTasks (requeuedState X)).Nodup ∧
    (Op.finish X).apply { state := fetchCycle State.initial [X], running := [] } = none := by
  have h1 : GetPendingTasks (fetchCycle State.initial [X]) = [X] := by
    simp [GetPendingTasks, fetchCycle, appendFetched, applyDeletes, State.initial]
  have h2 : GetPendingTasks (requeuedState X) = [X, X] := by
    simp [requeuedState, GetPendingTasks, fetchCycle, appendFetched, applyDeletes,
      State.initial, FinishTask]
  refine ⟨fun s => rfl, h1, h2, ?_, ?_, ?_⟩
  · rw [h2]
    simp
  · rw [h2]
    simp
  · simp [Op.apply]

end Schedule
